import Mathlib

/-!
# Articulation points by depth-first search

A shallow embedding of `Lec 19 - Connected Components/1_Articulation_points.cpp`:
the class `Graph` (`Graph(V)`, `addEdge`), the recursive helper `APUtil` and the
method `AP`, followed by the verification of the properties stated for them.

Arrays are total maps from indices; the accesses the program makes are at vertex ids
below `V` whenever the adjacency entries are in range, and the checked copies
(`Graph.addEdgeC`, `APC`) report every access at an index that is not below `V`. The
counter `time` is a function-static 32-bit `int`: `++time` wraps around past `INT_MAX`
(`wrap32`). Recursion is bounded by an explicit fuel argument; `none` is returned only
when it runs out.
-/

namespace ArticulationPoints

/-- Sentinel stored in `parent[]` for a vertex without a DFS parent (`#define NILL -1`). -/
def NILL : Int := -1

/-- The class `Graph`: the vertex count `V` and the array `adj` of adjacency lists,
indexed by vertex id. Only the entries at indices below `V` exist in the program. -/
structure Graph where
  V : Nat
  adj : Nat → List Nat

/-- Constructor `Graph(V)`: `V` empty adjacency lists. -/
def Graph.new (V : Nat) : Graph := ⟨V, fun _ => []⟩

/-- Method `addEdge(v, w)`: `adj[v].push_back(w); adj[w].push_back(v);`, for vertex ids
below `V`. The two array accesses are checked against `V` in `Graph.addEdgeC`. -/
def Graph.addEdge (g : Graph) (v w : Nat) : Graph :=
  let adj1 := Function.update g.adj v (g.adj v ++ [w])
  ⟨g.V, Function.update adj1 w (adj1 w ++ [v])⟩

/-- A graph obtained from `Graph(V)` by a sequence of `addEdge` calls. -/
def Graph.build (V : Nat) (edges : List (Nat × Nat)) : Graph :=
  edges.foldl (fun g e => g.addEdge e.1 e.2) (Graph.new V)

/-- The arrays threaded through `APUtil`, together with the function-static counter `time`. -/
structure State where
  visited : Nat → Bool
  disc : Nat → Int
  low : Nat → Int
  parent : Nat → Int
  ap : Nat → Bool
  time : Int

/-- The assignment `parent[v] = u` made before the recursive call on `v`. -/
def setParent (s : State) (v u : Nat) : State :=
  { s with parent := Function.update s.parent v (u : Int) }

/-- The assignment `low[u] = min(low[u], disc[v])` made for a visited neighbour `v` other
than the parent. -/
def backEdge (s : State) (u v : Nat) : State :=
  { s with low := Function.update s.low u (min (s.low u) (s.disc v)) }

/-- The statements of `APUtil` that follow the recursive call on the child `v`
(`children` already incremented): `low[u] = min(low[u], low[v])`, then the root test
`parent[u] == NILL && children > 1` and the non-root test
`parent[u] != NILL && low[v] >= disc[u]`, each setting `ap[u] = true`. -/
def afterChild (u v children : Nat) (s1 : State) : State :=
  let s2 : State := { s1 with low := Function.update s1.low u (min (s1.low u) (s1.low v)) }
  let s3 : State :=
    if s2.parent u = NILL ∧ children > 1 then
      { s2 with ap := Function.update s2.ap u true } else s2
  if s3.parent u ≠ NILL ∧ s3.low v ≥ s3.disc u then
    { s3 with ap := Function.update s3.ap u true } else s3

/-- The body of the `for` loop of `APUtil` over the remaining neighbours of `u`;
`call` stands for the recursive invocation of `APUtil`, `children` is the local counter. -/
def APLoop (call : Nat → State → Option State) (u : Nat) :
    List Nat → Nat → State → Option State
  | [], _, s => some s
  | v :: rest, children, s =>
    if s.visited v = false then
      match call v (setParent s v u) with
      | none => none
      | some s1 =>
        APLoop call u rest (children + 1) (afterChild u v (children + 1) s1)
    else if (v : Int) ≠ s.parent u then
      APLoop call u rest children (backEdge s u v)
    else
      APLoop call u rest children s

/-- Largest value of a 32-bit `int`. -/
def INT_MAX : Int := 2147483647

/-- Least value of a 32-bit `int`. -/
def INT_MIN : Int := -2147483648

/-- The 32-bit two's complement `int` holding the integer `x`: values past `INT_MAX` wrap
around to `INT_MIN`. -/
def wrap32 (x : Int) : Int := (x + 2147483648) % 4294967296 - 2147483648

/-- The opening statements of `APUtil(u)`: `visited[u] = true; disc[u] = low[u] = ++time;`,
the increment being that of a 32-bit `int`. -/
def enter (s : State) (u : Nat) : State :=
  let t := wrap32 (s.time + 1)
  { s with visited := Function.update s.visited u true
           time := t
           disc := Function.update s.disc u t
           low := Function.update s.low u t }

/-- The recursive helper `APUtil(u, visited, disc, low, parent, ap)`. The first argument
bounds the recursion depth; `none` means the bound was reached. -/
def APUtil (g : Graph) : Nat → Nat → State → Option State
  | 0, _, _ => none
  | fuel + 1, u, s => APLoop (APUtil g fuel) u (g.adj u) 0 (enter s u)

/-- The restart loop of `AP()`: `for i: if (visited[i] == false) APUtil(i, ...)`. -/
def APRoots (g : Graph) (fuel : Nat) : List Nat → State → Option State
  | [], s => some s
  | i :: rest, s =>
    if s.visited i = false then
      match APUtil g fuel i s with
      | none => none
      | some s1 => APRoots g fuel rest s1
    else APRoots g fuel rest s

/-- The arrays as `AP()` sets them up: `parent`, `visited` and `ap` are initialised,
`disc` and `low` keep whatever the allocation holds, `time` is the static counter. -/
def initState (time : Int) (disc0 low0 : Nat → Int) : State :=
  { visited := fun _ => false, disc := disc0, low := low0,
    parent := fun _ => NILL, ap := fun _ => false, time := time }

/-- Method `AP()` up to the printing loop: the final arrays. -/
def AP (g : Graph) (fuel : Nat) (time : Int) (disc0 low0 : Nat → Int) : Option State :=
  APRoots g fuel (List.range g.V) (initState time disc0 low0)

/-- The vertices printed by `AP()`: those `i < V` with `ap[i] == true`, in ascending order. -/
def flagged (g : Graph) (s : State) : List Nat :=
  (List.range g.V).filter (fun i => s.ap i)

/-- The output of `AP()`. -/
def APout (g : Graph) (fuel : Nat) (time : Int) (disc0 low0 : Nat → Int) : Option (List Nat) :=
  (AP g fuel time disc0 low0).map (flagged g)


/-! ### Well-formed graphs -/

/-- Every adjacency entry of a vertex `v < V` is itself a vertex id below `V`. -/
def Graph.InRange (g : Graph) : Prop :=
  ∀ v, v < g.V → ∀ w ∈ g.adj v, w < g.V

/-- The adjacency relation is symmetric: `w` is listed for `v` only if `v` is listed for `w`. -/
def Graph.Symm (g : Graph) : Prop :=
  ∀ v, v < g.V → ∀ w ∈ g.adj v, v ∈ g.adj w

/-- A well-formed (undirected) graph: adjacency entries in range and symmetric. -/
def Graph.WellFormed (g : Graph) : Prop := g.InRange ∧ g.Symm

/-! ### The DFS forest recorded in `parent[]` -/

/-- The entry `parent[c]` holds the vertex `p`. -/
def IsParent (s : State) (p c : Nat) : Prop := s.parent c = (p : Int)

/-- Vertex `a` is an ancestor of `b` (or `b` itself) along `parent[]`. -/
def Anc (s : State) : Nat → Nat → Prop := Relation.ReflTransGen (IsParent s)

/-- Vertex `c` is a visited vertex whose `parent[]` entry is `x`. -/
def Child (s : State) (x c : Nat) : Prop := s.visited c = true ∧ s.parent c = (x : Int)

/-- Number of vertices below `V` not yet marked in `visited[]`. -/
def unvisitedCount (g : Graph) (s : State) : Nat :=
  ((Finset.range g.V).filter (fun i => s.visited i = false)).card

/-- What holds of a vertex `x` whose call of `APUtil` has returned: all neighbours are
visited, `low[x]` is the least of `disc[x]`, the `low` of the children and the `disc` of the
neighbours other than the parent, and `ap[x]` records the root rule or the non-root rule. -/
structure Finished (g : Graph) (s : State) (x : Nat) : Prop where
  closed : ∀ w ∈ g.adj x, s.visited w = true
  low_le_disc : s.low x ≤ s.disc x
  low_le_child : ∀ c, Child s x c → s.low x ≤ s.low c
  low_le_nbr : ∀ w ∈ g.adj x, (w : Int) ≠ s.parent x → s.low x ≤ s.disc w
  low_attained : s.low x = s.disc x ∨ (∃ c, Child s x c ∧ s.low x = s.low c) ∨
    (∃ w ∈ g.adj x, (w : Int) ≠ s.parent x ∧ s.low x = s.disc w)
  ap_iff : s.ap x = true ↔
    (s.parent x = NILL ∧ ∃ c1 c2, c1 ≠ c2 ∧ Child s x c1 ∧ Child s x c2) ∨
    (s.parent x ≠ NILL ∧ ∃ c, Child s x c ∧ s.disc x ≤ s.low c)

/-- Invariant of the traversal at the boundaries of the call `APUtil(u)`. -/
structure Inv (g : Graph) (s : State) (u : Nat) : Prop where
  vis_lt : ∀ x, s.visited x = true → x < g.V
  unvis : ∀ x, s.visited x = false → s.ap x = false ∧ (x ≠ u → s.parent x = NILL)
  par : ∀ x, (s.visited x = true ∨ x = u) → s.parent x = NILL ∨
    ∃ p : Nat, s.parent x = (p : Int) ∧ s.visited p = true ∧ x ∈ g.adj p ∧ p ≠ x
  fin : ∀ x, s.visited x = true → x ≠ u → Anc s x u ∨ Finished g s x
  cross : g.Symm → ∀ x w, s.visited x = true → s.visited w = true → w ∈ g.adj x →
    Anc s w x ∨ Anc s x w

/-- What a run of `APUtil(u)` from state `s` to state `t` leaves untouched, and where the
newly visited vertices sit in the DFS forest. -/
structure Frame (s t : State) (u : Nat) : Prop where
  old : ∀ x, s.visited x = true → t.visited x = true ∧ t.disc x = s.disc x ∧
    t.low x = s.low x ∧ t.parent x = s.parent x ∧ t.ap x = s.ap x
  par_u : t.parent u = s.parent u
  new_anc : ∀ x, s.visited x = false → t.visited x = true → Anc t u x
  new_par : ∀ x, s.visited x = false → t.visited x = true → x ≠ u →
    ∃ p : Nat, t.parent x = (p : Int) ∧ s.visited p = false

/-- Invariant of the neighbour loop of `APUtil(u)` entered from state `s0`, after the
neighbours in `done` have been processed, with local counter `children`, in state `s`. -/
structure LoopInv (g : Graph) (s0 : State) (u : Nat) (done : List Nat) (children : Nat)
    (s : State) : Prop where
  inv : Inv g s u
  vis_u : s.visited u = true
  unvis0 : s0.visited u = false
  frame : Frame s0 s u
  done_vis : ∀ w ∈ done, s.visited w = true
  low_le_disc : s.low u ≤ s.disc u
  low_le_child : ∀ c, Child s u c → s.low u ≤ s.low c
  low_le_nbr : ∀ w ∈ done, (w : Int) ≠ s.parent u → s.low u ≤ s.disc w
  low_attained : s.low u = s.disc u ∨ (∃ c, Child s u c ∧ s.low u = s.low c) ∨
    (∃ w ∈ done, (w : Int) ≠ s.parent u ∧ s.low u = s.disc w)
  kids : ∃ l : List Nat, l.Nodup ∧ l.length = children ∧ ∀ c, c ∈ l ↔ Child s u c
  ap_iff : s.ap u = true ↔
    (s.parent u = NILL ∧ 2 ≤ children) ∨
    (s.parent u ≠ NILL ∧ ∃ c, Child s u c ∧ s.disc u ≤ s.low c)

/-- An order of discovery on the DFS forest: `r` ranks every visited vertex at most `T`
and every visited vertex above its parent. With `r = disc` and `T = time` this is the order
of the discovery times, which holds as long as the counter has not wrapped around. -/
structure Rank (s : State) (r : Nat → Int) (T : Int) : Prop where
  le : ∀ x, s.visited x = true → r x ≤ T
  par_lt : ∀ x p : Nat, s.visited x = true → s.parent x = (p : Int) → r p < r x

/-- Invariant of the restart loop of `AP()`: every visited vertex is finished. -/
structure RootInv (g : Graph) (s : State) : Prop where
  vis_lt : ∀ x, s.visited x = true → x < g.V
  unvis : ∀ x, s.visited x = false → s.ap x = false ∧ s.parent x = NILL
  par : ∀ x, s.visited x = true → s.parent x = NILL ∨
    ∃ p : Nat, s.parent x = (p : Int) ∧ s.visited p = true ∧ x ∈ g.adj p ∧ p ≠ x
  fin : ∀ x, s.visited x = true → Finished g s x
  cross : g.Symm → ∀ x w, s.visited x = true → s.visited w = true → w ∈ g.adj x →
    Anc s w x ∨ Anc s x w

/-! ### The undirected graph and its cut vertices -/

/-- Vertices `a` and `b` are joined by an edge of the undirected graph stored in `adj`. -/
def Graph.Edge (g : Graph) (a b : Nat) : Prop :=
  a < g.V ∧ b < g.V ∧ (b ∈ g.adj a ∨ a ∈ g.adj b)

/-- Vertices `a` and `b` are joined by a path. -/
def Graph.Conn (g : Graph) : Nat → Nat → Prop :=
  Relation.ReflTransGen g.Edge

/-- Vertices `a` and `b` are joined by a path that never touches `u`. -/
def Graph.ConnAvoid (g : Graph) (u : Nat) : Nat → Nat → Prop :=
  Relation.ReflTransGen (fun a b => g.Edge a b ∧ a ≠ u ∧ b ≠ u)

/-- Removing `u` separates two other vertices that a path joins. -/
def Graph.IsCut (g : Graph) (u : Nat) : Prop :=
  ∃ a b, a < g.V ∧ b < g.V ∧ a ≠ u ∧ b ≠ u ∧ g.Conn a b ∧ ¬ g.ConnAvoid u a b

/-- The undirected simple graph on the vertices `0..V-1` that the adjacency lists store. -/
def Graph.toSimple (g : Graph) : SimpleGraph (Fin g.V) where
  Adj a b := a ≠ b ∧ (b.val ∈ g.adj a.val ∨ a.val ∈ g.adj b.val)
  symm := fun _ _ h => ⟨h.1.symm, h.2.symm⟩
  loopless := fun _ h => h.1 rfl

/-- The graph with vertex `u` and its incident edges removed. -/
def Graph.removeVertex (g : Graph) (u : Nat) : SimpleGraph {x : Fin g.V | x.val ≠ u} :=
  g.toSimple.induce {x : Fin g.V | x.val ≠ u}

/-- Removing `u` and its incident edges increases the number of connected components. -/
def Graph.RemovalIncreasesComponents (g : Graph) (u : Nat) : Prop :=
  Nat.card g.toSimple.ConnectedComponent < Nat.card (g.removeVertex u).ConnectedComponent

/-! ### The graphs of the driver and of the stated properties -/

/-- First graph of `main`. -/
def g1 : Graph := Graph.build 5 [(1, 0), (0, 2), (2, 1), (0, 3), (3, 4)]

/-- Third graph of `main`. -/
def g3 : Graph := Graph.build 7 [(0, 1), (1, 2), (2, 0), (1, 3), (1, 4), (1, 6), (3, 5), (4, 5)]

/-- The path `0 - 1 - ... - (n-1)`, built by `addEdge(i, i+1)` for `i = 0..n-2`. -/
def pathGraph (n : Nat) : Graph :=
  Graph.build n ((List.range (n - 1)).map fun i => (i, i + 1))

/-- The cycle on `0..n-1`: the path edges followed by `addEdge(n-1, 0)`. -/
def cycleGraph (n : Nat) : Graph :=
  Graph.build n (((List.range (n - 1)).map fun i => (i, i + 1)) ++ [(n - 1, 0)])

/-- The disjoint union: the vertices of `a` keep their ids, those of `b` are shifted by
`a.V`. -/
def Graph.disjointUnion (a b : Graph) : Graph :=
  ⟨a.V + b.V, fun i => if i < a.V then a.adj i else (b.adj (i - a.V)).map (· + a.V)⟩

/-! ### Runs that differ by a renaming of the vertices -/

/-- The state `sg` of a run on a larger graph and the state `sh` of a run on a graph whose
vertices (those in `D`) are renamed by `f` agree up to the renaming, the counter being
the same; `disc` and `low` are compared on visited vertices only. -/
structure Sim (D : Nat → Prop) (f : Nat → Nat) (sg sh : State) : Prop where
  time : sg.time = sh.time
  vis : ∀ v, D v → sg.visited (f v) = sh.visited v
  ap : ∀ v, D v → sg.ap (f v) = sh.ap v
  par : ∀ v, D v → (sh.parent v = NILL ∧ sg.parent (f v) = NILL) ∨
    (∃ p : Nat, D p ∧ sh.parent v = (p : Int) ∧ sg.parent (f v) = (f p : Int))
  num : ∀ v, D v → sh.visited v = true →
    sg.disc (f v) = sh.disc v ∧ sg.low (f v) = sh.low v

/-- The arrays of `tg` and `sg` agree at every index that is not a renamed vertex. -/
def Outside (D : Nat → Prop) (f : Nat → Nat) (sg tg : State) : Prop :=
  ∀ x, (∀ v, D v → x ≠ f v) → tg.visited x = sg.visited x ∧ tg.disc x = sg.disc x ∧
    tg.low x = sg.low x ∧ tg.parent x = sg.parent x ∧ tg.ap x = sg.ap x

/-- Both runs stop for lack of fuel, or both return and the results are related by `P`. -/
def OptRel (P : State → State → Prop) : Option State → Option State → Prop
  | none, none => True
  | some a, some b => P a b
  | _, _ => False

/-- What relates the results `th`, `tg` of two simulating runs started in `sh`, `sg`: they
simulate each other, `visited[]` has only grown, and nothing outside the renamed vertices
was written. -/
def SimPost (D : Nat → Prop) (f : Nat → Nat) (sg sh th tg : State) : Prop :=
  Sim D f tg th ∧ (∀ w, sh.visited w = true → th.visited w = true) ∧ Outside D f sg tg

/-- The states `sg`, `sh` of two runs on the same graph whose counters differ by `d` up to
wrap-around: the same `visited[]` and `parent[]`, and the discovery times of `sg` are those
of `sh` advanced by `d` as a 32-bit `int`. -/
structure Shift (d : Int) (sg sh : State) : Prop where
  vis : sg.visited = sh.visited
  par : sg.parent = sh.parent
  time : wrap32 sg.time = wrap32 (sh.time + d)
  disc : ∀ v, sh.visited v = true → sg.disc v = wrap32 (sh.disc v + d)

/-! ### The discovery-time counter -/

/-- Bookkeeping of the order of discovery in a state `s`: `r x` is the number the counter
would show at the entry of `x` had it never wrapped around, `T` that number now. The rank
orders the forest, every `parent[]` entry is a visited vertex, and the arrays hold the
32-bit images: `disc[x]` is `wrap32 (r x)` and `time` agrees with `T` up to wrap-around. -/
structure RInv (s : State) (r : Nat → Int) (T : Int) : Prop where
  rank : Rank s r T
  par_vis : ∀ (x p : Nat), s.parent x = (p : Int) → s.visited p = true
  disc_eq : ∀ x, s.visited x = true → s.disc x = wrap32 (r x)
  time_eq : wrap32 s.time = wrap32 T

/-- How the bookkeeping `r2`, `T2` of a later state `t` stands relative to that of an
earlier state `s`: the vertices already visited keep their rank, every vertex visited in
between is ranked above the earlier count, distinct such vertices have distinct ranks, the
count has advanced by the number of vertices visited in between, and `time` is untouched
or a 32-bit value. -/
structure RRun (g : Graph) (s : State) (r : Nat → Int) (T : Int) (t : State)
    (r2 : Nat → Int) (T2 : Int) : Prop where
  old : ∀ x, s.visited x = true → t.visited x = true ∧ r2 x = r x
  fresh : ∀ x, x < g.V → s.visited x = false → t.visited x = true → T < r2 x
  inj : ∀ x y, x < g.V → y < g.V → s.visited x = false → s.visited y = false →
    t.visited x = true → t.visited y = true → r2 x = r2 y → x = y
  count : T2 + unvisitedCount g t = T + unvisitedCount g s
  clock_le : T ≤ T2
  time_rng : t.time = s.time ∨ (INT_MIN ≤ t.time ∧ t.time ≤ INT_MAX)

/-! ### The run with checked array accesses and a record of what it did

The same statements as `APUtil` and `AP()`, executed on the same arrays, but every array
access is checked against the bound `V`, every read of `disc[]` and `low[]` is checked
against the set of entries assigned so far, and the calls made, the values of `low[v]`
read by a parent and the final value of every `children` counter are recorded. -/

/-- What stops the checked run. -/
inductive Fault where
  | outOfFuel
  | outOfBounds
  | uninitialised
  deriving DecidableEq

/-- Method `addEdge(v, w)` with its two accesses to the array `adj` (allocated as
`new list<int>[V]`) checked against `V`: `adj[v].push_back(w)` runs if `v < V`, then
`adj[w].push_back(v)` if `w < V`. An access at an index not below `V` lies outside the
array (undefined behaviour in the program, which tests nothing and reports nothing); the
checked run stops there and returns the graph as the statements before left it. -/
def Graph.addEdgeC (g : Graph) (v w : Nat) : Graph × Option Fault :=
  if v < g.V then
    let g1 : Graph := ⟨g.V, Function.update g.adj v (g.adj v ++ [w])⟩
    if w < g.V then
      (⟨g.V, Function.update g1.adj w (g1.adj w ++ [v])⟩, none)
    else (g1, some Fault.outOfBounds)
  else (g, some Fault.outOfBounds)

/-- The arrays `st` together with the record kept by the checked run: which entries of
`disc[]` and `low[]` have been assigned, the vertices `APUtil` was called on (in order),
the vertices whose call has returned, the value of `children` when the call on a vertex
returned, the reads `(u, v, value)` of `low[v]` made by the call on `u` after the recursive
call on `v`, the number of calls of `APUtil` now active and the largest number so far. -/
structure CState where
  st : State
  discSet : Nat → Bool
  lowSet : Nat → Bool
  entered : List Nat
  returned : Nat → Bool
  kids : Nat → Nat
  lowReads : List (Nat × Nat × Int)
  depth : Nat
  maxDepth : Nat

/-- The checked run starts from the arrays as `AP()` sets them up, with no entry of
`disc[]` or `low[]` assigned and nothing recorded. -/
def CState.init (time : Int) (disc0 low0 : Nat → Int) : CState :=
  { st := initState time disc0 low0, discSet := fun _ => false, lowSet := fun _ => false,
    entered := [], returned := fun _ => false, kids := fun _ => 0, lowReads := [],
    depth := 0, maxDepth := 0 }

/-- Entry of `APUtil(u)`: the statements of `enter`, which assign `disc[u]` and `low[u]`;
the call is recorded. -/
def enterC (cs : CState) (u : Nat) : CState :=
  { cs with st := enter cs.st u
            discSet := Function.update cs.discSet u true
            lowSet := Function.update cs.lowSet u true
            entered := cs.entered ++ [u]
            depth := cs.depth + 1
            maxDepth := max cs.maxDepth (cs.depth + 1) }

/-- Statement `parent[v] = u`. -/
def setParentC (cs : CState) (v u : Nat) : CState :=
  { cs with st := setParent cs.st v u }

/-- Statement `low[u] = min(low[u], disc[v])`: reads `low[u]` and `disc[v]`. -/
def backEdgeC (V : Nat) (cs : CState) (u v : Nat) : Except Fault CState :=
  if u < V ∧ v < V then
    if cs.lowSet u = true ∧ cs.discSet v = true then
      Except.ok { cs with st := backEdge cs.st u v }
    else Except.error Fault.uninitialised
  else Except.error Fault.outOfBounds

/-- The statements after the recursive call on `v` returns: `low[u] = min(low[u], low[v])`
reads `low[u]` and `low[v]`; the root test reads `parent[u]`; the non-root test reads
`parent[u]` and, only when that is not `NILL`, `low[v]` and `disc[u]`. -/
def afterChildC (V : Nat) (u v children : Nat) (c1 : CState) : Except Fault CState :=
  if u < V ∧ v < V then
    if c1.lowSet u = true ∧ c1.lowSet v = true ∧
        (c1.st.parent u ≠ NILL → c1.discSet u = true) then
      Except.ok { c1 with
        st := afterChild u v children c1.st
        lowReads := c1.lowReads ++ [(u, v, c1.st.low v)] ++
          (if c1.st.parent u ≠ NILL then
            [(u, v, Function.update c1.st.low u (min (c1.st.low u) (c1.st.low v)) v)]
           else []) }
    else Except.error Fault.uninitialised
  else Except.error Fault.outOfBounds

/-- The neighbour loop of `APUtil(u)` with checked accesses (`visited[v]`, `parent[v]`,
`parent[u]`); it returns the final value of `children` along with the state. -/
def APLoopC (V : Nat) (call : Nat → CState → Except Fault CState) (u : Nat) :
    List Nat → Nat → CState → Except Fault (CState × Nat)
  | [], children, cs => Except.ok (cs, children)
  | v :: rest, children, cs =>
    if v < V then
      if cs.st.visited v = false then
        match call v (setParentC cs v u) with
        | Except.error e => Except.error e
        | Except.ok c1 =>
          match afterChildC V u v (children + 1) c1 with
          | Except.error e => Except.error e
          | Except.ok c2 => APLoopC V call u rest (children + 1) c2
      else if (v : Int) ≠ cs.st.parent u then
        match backEdgeC V cs u v with
        | Except.error e => Except.error e
        | Except.ok c1 => APLoopC V call u rest children c1
      else APLoopC V call u rest children cs
    else Except.error Fault.outOfBounds

/-- Return of `APUtil(u)`: recorded with the final value of `children`. -/
def returnC (cs : CState) (u children : Nat) : CState :=
  { cs with returned := Function.update cs.returned u true
            kids := Function.update cs.kids u children
            depth := cs.depth - 1 }

/-- The helper `APUtil` with checked accesses (`visited[u]`, `disc[u]`, `low[u]`,
`adj[u]`). The first argument bounds the recursion depth. -/
def APUtilC (g : Graph) : Nat → Nat → CState → Except Fault CState
  | 0, _, _ => Except.error Fault.outOfFuel
  | fuel + 1, u, cs =>
    if u < g.V then
      match APLoopC g.V (APUtilC g fuel) u (g.adj u) 0 (enterC cs u) with
      | Except.error e => Except.error e
      | Except.ok r => Except.ok (returnC r.1 u r.2)
    else Except.error Fault.outOfBounds

/-- The restart loop of `AP()` with checked access to `visited[i]`. -/
def APRootsC (g : Graph) (fuel : Nat) : List Nat → CState → Except Fault CState
  | [], cs => Except.ok cs
  | i :: rest, cs =>
    if i < g.V then
      if cs.st.visited i = false then
        match APUtilC g fuel i cs with
        | Except.error e => Except.error e
        | Except.ok c1 => APRootsC g fuel rest c1
      else APRootsC g fuel rest cs
    else Except.error Fault.outOfBounds

/-- Method `AP()` with checked accesses, up to the printing loop. -/
def APC (g : Graph) (fuel : Nat) (time : Int) (disc0 low0 : Nat → Int) :
    Except Fault CState :=
  APRootsC g fuel (List.range g.V) (CState.init time disc0 low0)

/-- Invariant of the record kept by the checked run. -/
structure GInv (g : Graph) (cs : CState) : Prop where
  set : ∀ x, cs.st.visited x = true → cs.discSet x = true ∧ cs.lowSet x = true
  ent_nodup : cs.entered.Nodup
  ent_iff : ∀ x, x ∈ cs.entered ↔ cs.st.visited x = true
  ret_vis : ∀ x, cs.returned x = true → cs.st.visited x = true
  reads : ∀ e ∈ cs.lowReads, cs.returned e.2.1 = true ∧ cs.st.low e.2.1 = e.2.2 ∧
    cs.st.parent e.2.1 = (e.1 : Int)
  kids : ∀ x, cs.returned x = true →
    ∃ l : List Nat, l.Nodup ∧ l.length = cs.kids x ∧ ∀ c, c ∈ l ↔ Child cs.st x c
  folded : ∀ x, cs.returned x = true → ∀ c, Child cs.st x c →
    ∃ val, (x, c, val) ∈ cs.lowReads
  depth : cs.depth + unvisitedCount g cs.st ≤ g.V
  maxDepth : cs.maxDepth ≤ g.V

/-- What a checked call started in `cs` and ended in `ct` does to the record: among the
vertices visited before, nothing is recorded as returned or has its counter recorded; the
call on every vertex visited in between has returned; and no recorded read is dropped. -/
structure GFrame (cs ct : CState) : Prop where
  keep : ∀ x, cs.st.visited x = true →
    ct.returned x = cs.returned x ∧ ct.kids x = cs.kids x
  fresh : ∀ x, cs.st.visited x = false → ct.st.visited x = true → ct.returned x = true
  mono : ∀ e ∈ cs.lowReads, e ∈ ct.lowReads

/-- The fault a checked run stopped with, if it did. -/
def faultOf {α : Type} (r : Except Fault α) : Option Fault :=
  match r with
  | Except.error e => some e
  | Except.ok _ => none

/-! ### The root rule evaluated once after the neighbour loop

The specification words the root rule as a test made "after processing all children". The
definitions below are that variant of `APUtil`: the neighbour loop without the root rule,
returning the final value of `children`, and the root rule applied to it afterwards. -/

/-- Statement `ap[u] = true`. -/
def setAp (u : Nat) (s : State) : State :=
  { s with ap := Function.update s.ap u true }

/-- Variant of `afterChild` without the root rule: `low[u] = min(low[u], low[v])` and the
non-root rule only. -/
def afterChildAlt (u v : Nat) (s1 : State) : State :=
  let s2 : State := { s1 with low := Function.update s1.low u (min (s1.low u) (s1.low v)) }
  if s2.parent u ≠ NILL ∧ s2.low v ≥ s2.disc u then
    { s2 with ap := Function.update s2.ap u true }
  else s2

/-- Variant of `APLoop` that leaves the root rule out and returns the final value of
`children` along with the state. -/
def APLoopAlt (call : Nat → State → Option State) (u : Nat) :
    List Nat → Nat → State → Option (State × Nat)
  | [], children, s => some (s, children)
  | v :: rest, children, s =>
    if s.visited v = false then
      match call v (setParent s v u) with
      | none => none
      | some s1 => APLoopAlt call u rest (children + 1) (afterChildAlt u v s1)
    else if (v : Int) ≠ s.parent u then APLoopAlt call u rest children (backEdge s u v)
    else APLoopAlt call u rest children s

/-- The root rule: `if (parent[u] == NILL && children > 1) ap[u] = true;`. -/
def rootRule (u children : Nat) (s : State) : State :=
  if s.parent u = NILL ∧ children > 1 then setAp u s else s

/-- Variant of `APUtil` with the root rule evaluated once, after the neighbour loop. -/
def APUtilAlt (g : Graph) : Nat → Nat → State → Option State
  | 0, _, _ => none
  | fuel + 1, u, s =>
    match APLoopAlt (APUtilAlt g fuel) u (g.adj u) 0 (enter s u) with
    | none => none
    | some r => some (rootRule u r.2 r.1)

/-- Variant of `APRoots` calling `APUtilAlt`. -/
def APRootsAlt (g : Graph) (fuel : Nat) : List Nat → State → Option State
  | [], s => some s
  | i :: rest, s =>
    if s.visited i = false then
      match APUtilAlt g fuel i s with
      | none => none
      | some s1 => APRootsAlt g fuel rest s1
    else APRootsAlt g fuel rest s

/-- Variant of `AP` calling `APUtilAlt`. -/
def APAlt (g : Graph) (fuel : Nat) (time : Int) (disc0 low0 : Nat → Int) : Option State :=
  APRootsAlt g fuel (List.range g.V) (initState time disc0 low0)

/-- What every step of the traversal from `s` to `t` keeps: a visited vertex stays visited
with its `parent[]` entry, and a set `ap[]` entry stays set. -/
structure Keep (s t : State) : Prop where
  vis : ∀ x, s.visited x = true → t.visited x = true ∧ t.parent x = s.parent x
  ap : ∀ x, s.ap x = true → t.ap x = true

/-- Statement `low[u] = min(low[u], low[v])`. -/
def lowUpd (u v : Nat) (s : State) : State :=
  { s with low := Function.update s.low u (min (s.low u) (s.low v)) }

/-- The non-root rule: `if (parent[u] != NILL && low[v] >= disc[u]) ap[u] = true;`. -/
def nonRootRule (u v : Nat) (s : State) : State :=
  if s.parent u ≠ NILL ∧ s.low v ≥ s.disc u then setAp u s else s

/-! ## Proofs -/

/-! ### Basic facts -/

theorem NILL_ne_cast (p : Nat) : NILL ≠ (p : Int) := by
  unfold NILL; omega

theorem cast_ne_NILL (p : Nat) : (p : Int) ≠ NILL := by
  unfold NILL; omega

theorem unvisitedCount_le {g : Graph} {s t : State}
    (h : ∀ x, s.visited x = true → t.visited x = true) :
    unvisitedCount g t ≤ unvisitedCount g s := by
  unfold unvisitedCount
  apply Finset.card_le_card
  intro i hi
  simp only [Finset.mem_filter, Finset.mem_range] at hi ⊢
  refine ⟨hi.1, ?_⟩
  cases hv : s.visited i with
  | false => rfl
  | true => rw [h i hv] at hi; exact absurd hi.2 (by simp)

theorem unvisitedCount_lt {g : Graph} {s t : State} {u : Nat}
    (h : ∀ x, s.visited x = true → t.visited x = true)
    (hu : u < g.V) (hs : s.visited u = false) (ht : t.visited u = true) :
    unvisitedCount g t < unvisitedCount g s := by
  unfold unvisitedCount
  apply Finset.card_lt_card
  rw [Finset.ssubset_iff_of_subset]
  · refine ⟨u, ?_, ?_⟩
    · simp [hu, hs]
    · simp [ht]
  · intro i hi
    simp only [Finset.mem_filter, Finset.mem_range] at hi ⊢
    refine ⟨hi.1, ?_⟩
    cases hv : s.visited i with
    | false => rfl
    | true => rw [h i hv] at hi; exact absurd hi.2 (by simp)

theorem unvisitedCount_pos {g : Graph} {s : State} {u : Nat}
    (hu : u < g.V) (hs : s.visited u = false) : 0 < unvisitedCount g s := by
  unfold unvisitedCount
  apply Finset.card_pos.mpr
  exact ⟨u, by simp [hu, hs]⟩

/-! ### Ancestors -/

theorem Anc.refl (s : State) (a : Nat) : Anc s a a := Relation.ReflTransGen.refl

theorem Anc.anc_trans {s : State} {a b c : Nat} (h1 : Anc s a b) (h2 : Anc s b c) : Anc s a c :=
  Relation.ReflTransGen.trans h1 h2

theorem Anc.anc_step {s : State} {a b c : Nat} (h1 : Anc s a b) (h2 : s.parent c = (b : Int)) :
    Anc s a c :=
  Relation.ReflTransGen.tail h1 h2

/-- Last step of an ancestor chain. -/
theorem Anc.cases_last {s : State} {a b : Nat} (h : Anc s a b) :
    a = b ∨ ∃ p : Nat, s.parent b = (p : Int) ∧ Anc s a p := by
  cases h with
  | refl => exact Or.inl rfl
  | tail h1 h2 => exact Or.inr ⟨_, h2, h1⟩

theorem Anc.eq_of_root {s : State} {a b : Nat} (h : Anc s a b) (hb : s.parent b = NILL) :
    a = b := by
  rcases h.cases_last with h | ⟨p, hp, _⟩
  · exact h
  · rw [hb] at hp; exact absurd hp (NILL_ne_cast p)

/-- Ancestor chains ending in a vertex of a parent-closed set `K` survive any change of
state that keeps `parent[]` on `K`. -/
theorem Anc.transfer_on {s t : State} {K : Nat → Prop}
    (hK : ∀ (c p : Nat), K c → s.parent c = (p : Int) → K p)
    (hpar : ∀ c, K c → t.parent c = s.parent c)
    {a b : Nat} (h : Anc s a b) (hb : K b) : Anc t a b := by
  induction h with
  | refl => exact Anc.refl t a
  | tail h1 h2 ih =>
    have hkb := hK _ _ hb h2
    exact Anc.anc_step (ih hkb) (by rw [hpar _ hb]; exact h2)

theorem Inv.par_closed {g : Graph} {s : State} {u : Nat} (h : Inv g s u) :
    ∀ (c p : Nat), (s.visited c = true ∨ c = u) → s.parent c = (p : Int) →
      (s.visited p = true ∨ p = u) := by
  intro c p hc hp
  rcases h.par c hc with h0 | ⟨q, hq, hv, _⟩
  · rw [h0] at hp; exact absurd hp (NILL_ne_cast p)
  · rw [hq] at hp
    have : q = p := by exact_mod_cast hp
    subst this
    exact Or.inl hv

/-- Ancestors of a visited vertex (or of the current vertex) are visited (or the vertex). -/
theorem Inv.anc_visited {g : Graph} {s : State} {u : Nat} (h : Inv g s u) {a b : Nat}
    (hab : Anc s a b) (hb : s.visited b = true ∨ b = u) : s.visited a = true ∨ a = u := by
  induction hab with
  | refl => exact hb
  | tail _ h2 ih => exact ih (h.par_closed _ _ hb h2)

theorem Inv.anc_transfer {g : Graph} {s t : State} {u : Nat} (h : Inv g s u)
    (hpar : ∀ c, (s.visited c = true ∨ c = u) → t.parent c = s.parent c)
    {a b : Nat} (hab : Anc s a b) (hb : s.visited b = true ∨ b = u) : Anc t a b :=
  Anc.transfer_on (K := fun c => s.visited c = true ∨ c = u) h.par_closed hpar hab hb

/-- A finished vertex stays finished under any change of state that keeps the arrays on the
visited vertices it depends on and gives it no new child. -/
theorem Finished.fin_transfer {g : Graph} {s t : State} {x : Nat} (h : Finished g s x)
    (hvis : ∀ y, s.visited y = true →
      t.visited y = true ∧ t.disc y = s.disc y ∧ t.parent y = s.parent y)
    (hx : s.visited x = true) (hlowx : t.low x = s.low x) (hapx : t.ap x = s.ap x)
    (hlowc : ∀ c, Child s x c → t.low c = s.low c)
    (hnew : ∀ c, Child t x c → s.visited c = true) : Finished g t x := by
  have hch1 : ∀ c, Child s x c → Child t x c := by
    intro c hc
    exact ⟨(hvis c hc.1).1, by rw [(hvis c hc.1).2.2]; exact hc.2⟩
  have hch2 : ∀ c, Child t x c → Child s x c := by
    intro c hc
    have hv := hnew c hc
    exact ⟨hv, by rw [← (hvis c hv).2.2]; exact hc.2⟩
  have hpx : t.parent x = s.parent x := (hvis x hx).2.2
  have hdx : t.disc x = s.disc x := (hvis x hx).2.1
  have hdw : ∀ w ∈ g.adj x, t.disc w = s.disc w := fun w hw => (hvis w (h.closed w hw)).2.1
  refine ⟨?_, ?_, ?_, ?_, ?_, ?_⟩
  · intro w hw; exact (hvis w (h.closed w hw)).1
  · rw [hlowx, hdx]; exact h.low_le_disc
  · intro c hc
    have hc2 := hch2 c hc
    rw [hlowx, hlowc c hc2]; exact h.low_le_child c hc2
  · intro w hw hne
    rw [hlowx, hdw w hw]; rw [hpx] at hne; exact h.low_le_nbr w hw hne
  · rcases h.low_attained with h1 | ⟨c, hc, h1⟩ | ⟨w, hw, hne, h1⟩
    · left; rw [hlowx, hdx]; exact h1
    · right; left; exact ⟨c, hch1 c hc, by rw [hlowx, hlowc c hc]; exact h1⟩
    · right; right; exact ⟨w, hw, by rw [hpx]; exact hne, by rw [hlowx, hdw w hw]; exact h1⟩
  · rw [hapx, hpx, hdx, h.ap_iff]
    constructor
    · rintro (⟨h0, c1, c2, hne, hc1, hc2⟩ | ⟨h0, c, hc, hle⟩)
      · exact Or.inl ⟨h0, c1, c2, hne, hch1 _ hc1, hch1 _ hc2⟩
      · exact Or.inr ⟨h0, c, hch1 _ hc, by rw [hlowc c hc]; exact hle⟩
    · rintro (⟨h0, c1, c2, hne, hc1, hc2⟩ | ⟨h0, c, hc, hle⟩)
      · exact Or.inl ⟨h0, c1, c2, hne, hch2 _ hc1, hch2 _ hc2⟩
      · exact Or.inr ⟨h0, c, hch2 _ hc, by rw [← hlowc c (hch2 _ hc)]; exact hle⟩

/-! ### The invariant through the single statements of `APUtil` -/

theorem Inv.enter {g : Graph} {s : State} {u : Nat} (h : Inv g s u)
    (hu : s.visited u = false) (huV : u < g.V) : Inv g (enter s u) u := by
  have hne : ∀ y, s.visited y = true → y ≠ u := by
    intro y hy e; rw [e, hu] at hy; exact absurd hy (by simp)
  have hvis1 : ∀ y, (ArticulationPoints.enter s u).visited y = true →
      y = u ∨ s.visited y = true := by
    intro y hy
    by_cases e : y = u
    · exact Or.inl e
    · right; simpa [ArticulationPoints.enter, Function.update_apply, e] using hy
  refine ⟨?_, ?_, ?_, ?_, ?_⟩
  · intro x hx
    rcases hvis1 x hx with e | hx
    · rw [e]; exact huV
    · exact h.vis_lt x hx
  · intro x hx
    have hxu : x ≠ u := by
      intro e; simp [ArticulationPoints.enter, e] at hx
    have hx0 : s.visited x = false := by
      simpa [ArticulationPoints.enter, Function.update_apply, hxu] using hx
    exact h.unvis x hx0
  · intro x hx
    have hK : s.visited x = true ∨ x = u := by
      rcases hx with hx | hx
      · rcases hvis1 x hx with e | hx0
        · exact Or.inr e
        · exact Or.inl hx0
      · exact Or.inr hx
    rcases h.par x hK with h0 | ⟨p, hp, hpv, hadj, hd⟩
    · exact Or.inl h0
    · right
      have hpu : p ≠ u := hne p hpv
      refine ⟨p, hp, ?_, hadj, hd⟩
      simp [ArticulationPoints.enter, Function.update_apply, hpu, hpv]
  · intro x hx hxu
    have hx0 : s.visited x = true := by
      rcases hvis1 x hx with e | hx0
      · exact absurd e hxu
      · exact hx0
    by_cases hanc : Anc s x u
    · exact Or.inl hanc
    · right
      have hfin : Finished g s x := by
        rcases h.fin x hx0 hxu with h1 | h1
        · exact absurd h1 hanc
        · exact h1
      apply hfin.fin_transfer
      · intro y hy
        have := hne y hy
        simp [ArticulationPoints.enter, Function.update_apply, this, hy]
      · exact hx0
      · simp [ArticulationPoints.enter, Function.update_apply, hxu]
      · rfl
      · intro c hc
        have := hne c hc.1
        simp [ArticulationPoints.enter, Function.update_apply, this]
      · intro c hc
        rcases hvis1 c hc.1 with e | hc0
        · exfalso
          apply hanc
          have hp : s.parent u = (x : Int) := by rw [← e]; exact hc.2
          exact Anc.anc_step (Anc.refl s x) hp
        · exact hc0
  · intro hsym x w hx hw hadj
    show Anc s w x ∨ Anc s x w
    rcases hvis1 x hx with ex | hx0 <;> rcases hvis1 w hw with ew | hw0
    · rw [ex, ew]; exact Or.inl (Anc.refl s u)
    · -- x = u, w visited before: w is not finished, hence an ancestor of u
      subst ex
      have hwu : w ≠ x := hne w hw0
      have hback : x ∈ g.adj w := hsym x huV w hadj
      rcases h.fin w hw0 hwu with h1 | h1
      · exact Or.inl h1
      · have := h1.closed x hback
        rw [hu] at this; exact absurd this (by simp)
    · subst ew
      have hxu : x ≠ w := hne x hx0
      rcases h.fin x hx0 hxu with h1 | h1
      · exact Or.inr h1
      · have := h1.closed w hadj
        rw [hu] at this; exact absurd this (by simp)
    · exact h.cross hsym x w hx0 hw0 hadj

theorem Inv.setParent {g : Graph} {s : State} {u v : Nat} (h : Inv g s u)
    (hu : s.visited u = true) (hv : s.visited v = false) (hadj : v ∈ g.adj u) :
    Inv g (setParent s v u) v := by
  have hne : ∀ y, s.visited y = true → y ≠ v := by
    intro y hy e; rw [e, hv] at hy; exact absurd hy (by simp)
  have hpar : ∀ c, (s.visited c = true ∨ c = u) →
      (ArticulationPoints.setParent s v u).parent c = s.parent c := by
    intro c hc
    have : c ≠ v := by
      rcases hc with hc | hc
      · exact hne c hc
      · rw [hc]; exact hne u hu
    simp [ArticulationPoints.setParent, Function.update_apply, this]
  refine ⟨h.vis_lt, ?_, ?_, ?_, ?_⟩
  · intro x hx
    have hx0 : s.visited x = false := hx
    refine ⟨(h.unvis x hx0).1, ?_⟩
    intro hxv
    have hxu : x ≠ u := by
      intro e; rw [e, hu] at hx0; exact absurd hx0 (by simp)
    simp only [ArticulationPoints.setParent, Function.update_apply, hxv, if_false]
    exact (h.unvis x hx0).2 hxu
  · intro x hx
    by_cases e : x = v
    · right
      refine ⟨u, ?_, hu, ?_, ?_⟩
      · simp [ArticulationPoints.setParent, e]
      · rw [e]; exact hadj
      · rw [e]; exact hne u hu
    · have hx0 : s.visited x = true := by
        rcases hx with hx | hx
        · exact hx
        · exact absurd hx e
      rcases h.par x (Or.inl hx0) with h0 | ⟨p, hp, hpv, hadjp, hd⟩
      · left; rw [hpar x (Or.inl hx0)]; exact h0
      · right; exact ⟨p, by rw [hpar x (Or.inl hx0)]; exact hp, hpv, hadjp, hd⟩
  · intro x hx hxv
    have hx0 : s.visited x = true := hx
    have hstep : Anc (ArticulationPoints.setParent s v u) u v :=
      Anc.anc_step (Anc.refl _ u) (by simp [ArticulationPoints.setParent])
    by_cases e : x = u
    · left; rw [e]; exact hstep
    · rcases h.fin x hx0 e with h1 | h1
      · left
        exact (h.anc_transfer hpar h1 (Or.inr rfl)).anc_trans hstep
      · right
        apply h1.fin_transfer
        · intro y hy
          exact ⟨hy, rfl, hpar y (Or.inl hy)⟩
        · exact hx0
        · rfl
        · rfl
        · intro c _; rfl
        · intro c hc; exact hc.1
  · intro hsym x w hx hw hadjx
    rcases h.cross hsym x w hx hw hadjx with h1 | h1
    · exact Or.inl (h.anc_transfer hpar h1 (Or.inl hx))
    · exact Or.inr (h.anc_transfer hpar h1 (Or.inl hw))

theorem Inv.ret {g : Graph} {t : State} {u v : Nat} (h : Inv g t v)
    (hv : t.visited v = true) (hfin : Finished g t v) (hpv : t.parent v = (u : Int)) :
    Inv g t u := by
  refine ⟨h.vis_lt, ?_, ?_, ?_, h.cross⟩
  · intro x hx
    refine ⟨(h.unvis x hx).1, fun _ => (h.unvis x hx).2 ?_⟩
    intro e; rw [e, hv] at hx; exact absurd hx (by simp)
  · intro x hx
    rcases hx with hx | hx
    · exact h.par x (Or.inl hx)
    · rcases h.par v (Or.inl hv) with h0 | ⟨p, hp, hpvis, _, _⟩
      · rw [h0] at hpv; exact absurd hpv (NILL_ne_cast u)
      · have : p = u := by rw [hp] at hpv; exact_mod_cast hpv
        rw [hx, ← this]
        exact h.par p (Or.inl hpvis)
  · intro x hx hxu
    by_cases e : x = v
    · right; rw [e]; exact hfin
    · rcases h.fin x hx e with h1 | h1
      · left
        rcases h1.cases_last with e2 | ⟨p, hp, hanc⟩
        · exact absurd e2 e
        · have : p = u := by rw [hp] at hpv; exact_mod_cast hpv
          rw [← this]; exact hanc
      · exact Or.inr h1

theorem Inv.upd {g : Graph} {s : State} {u : Nat} (h : Inv g s u)
    (hu : s.visited u = true) (a : Int) (b : Bool) :
    Inv g { s with low := Function.update s.low u a, ap := Function.update s.ap u b } u := by
  refine ⟨h.vis_lt, ?_, h.par, ?_, h.cross⟩
  · intro x hx
    have hx0 : s.visited x = false := hx
    have hxu : x ≠ u := by
      intro e; rw [e, hu] at hx0; exact absurd hx0 (by simp)
    refine ⟨?_, (h.unvis x hx0).2⟩
    simp only [Function.update_apply, hxu, if_false]
    exact (h.unvis x hx0).1
  · intro x hx hxu
    have hx0 : s.visited x = true := hx
    by_cases hanc : Anc s x u
    · exact Or.inl hanc
    · right
      have hfin : Finished g s x := by
        rcases h.fin x hx0 hxu with h1 | h1
        · exact absurd h1 hanc
        · exact h1
      apply hfin.fin_transfer
      · intro y hy; exact ⟨hy, rfl, rfl⟩
      · exact hx0
      · simp [Function.update_apply, hxu]
      · simp [Function.update_apply, hxu]
      · intro c hc
        have : c ≠ u := by
          intro e
          apply hanc
          exact Anc.anc_step (Anc.refl s x) (by rw [← e]; exact hc.2)
        simp [Function.update_apply, this]
      · intro c hc; exact hc.1

theorem State.eq_upd {r s : State} {u : Nat} (hvis : r.visited = s.visited)
    (hdisc : r.disc = s.disc) (hpar : r.parent = s.parent) (htime : r.time = s.time)
    (hlow : ∀ x, x ≠ u → r.low x = s.low x) (hap : ∀ x, x ≠ u → r.ap x = s.ap x) :
    r = { s with low := Function.update s.low u (r.low u),
                 ap := Function.update s.ap u (r.ap u) } := by
  cases r; cases s
  simp only at hvis hdisc hpar htime hlow hap
  subst hvis hdisc hpar htime
  simp only [State.mk.injEq, true_and, and_true]
  refine ⟨?_, ?_⟩
  · funext x
    by_cases e : x = u
    · subst e; simp
    · simp [Function.update_apply, e, hlow x e]
  · funext x
    by_cases e : x = u
    · subst e; simp
    · simp [Function.update_apply, e, hap x e]

theorem Inv.upd_fields {g : Graph} {s r : State} {u : Nat} (h : Inv g s u)
    (hu : s.visited u = true) (hvis : r.visited = s.visited)
    (hdisc : r.disc = s.disc) (hpar : r.parent = s.parent) (htime : r.time = s.time)
    (hlow : ∀ x, x ≠ u → r.low x = s.low x) (hap : ∀ x, x ≠ u → r.ap x = s.ap x) :
    Inv g r u := by
  rw [State.eq_upd hvis hdisc hpar htime hlow hap]
  exact h.upd hu _ _

theorem afterChild_spec (u v c : Nat) (t : State) (huv : v ≠ u) :
    (afterChild u v c t).visited = t.visited ∧ (afterChild u v c t).disc = t.disc ∧
    (afterChild u v c t).parent = t.parent ∧ (afterChild u v c t).time = t.time ∧
    (∀ x, x ≠ u → (afterChild u v c t).low x = t.low x) ∧
    (afterChild u v c t).low u = min (t.low u) (t.low v) ∧
    (∀ x, x ≠ u → (afterChild u v c t).ap x = t.ap x) ∧
    ((afterChild u v c t).ap u = true ↔
      t.ap u = true ∨ (t.parent u = NILL ∧ c > 1) ∨
        (t.parent u ≠ NILL ∧ t.low v ≥ t.disc u)) := by
  unfold afterChild
  have e : ∀ (f : Nat → Int) (a : Int), Function.update f u a v = f v :=
    fun f a => Function.update_noteq huv a f
  simp only [e]
  split_ifs with h1 h2 h2
  · refine ⟨rfl, rfl, rfl, rfl, ?_, ?_, ?_, ?_⟩
    · intro x hx; simp [Function.update_apply, hx]
    · simp
    · intro x hx; simp [Function.update_apply, hx]
    · exact absurd h1.1 h2.1
  · refine ⟨rfl, rfl, rfl, rfl, ?_, ?_, ?_, ?_⟩
    · intro x hx; simp [Function.update_apply, hx]
    · simp
    · intro x hx; simp [Function.update_apply, hx]
    · simp [h1]
  · refine ⟨rfl, rfl, rfl, rfl, ?_, ?_, ?_, ?_⟩
    · intro x hx; simp [Function.update_apply, hx]
    · simp
    · intro x hx; simp [Function.update_apply, hx]
    · dsimp only at h2
      simp only [e] at h2
      simp [h2]
  · refine ⟨rfl, rfl, rfl, rfl, ?_, ?_, ?_, ?_⟩
    · intro x hx; simp [Function.update_apply, hx]
    · simp
    · intro x hx; rfl
    · dsimp only at h2
      simp only [e] at h2
      constructor
      · intro h; exact Or.inl h
      · rintro (h | h | h)
        · exact h
        · exact absurd h h1
        · exact absurd h h2

/-! ### The invariant of the neighbour loop -/

theorem LoopInv.init {g : Graph} {s : State} {u : Nat} (h : Inv g s u)
    (hu : s.visited u = false) (huV : u < g.V) : LoopInv g s u [] 0 (enter s u) := by
  have hne : ∀ y, s.visited y = true → y ≠ u := by
    intro y hy e; rw [e, hu] at hy; exact absurd hy (by simp)
  have hvis1 : ∀ y, (enter s u).visited y = true → y = u ∨ s.visited y = true := by
    intro y hy
    by_cases e : y = u
    · exact Or.inl e
    · right; simpa [enter, Function.update_apply, e] using hy
  have hnochild : ∀ c, ¬ Child (enter s u) u c := by
    rintro c ⟨hcv, hcp⟩
    have hcp0 : s.parent c = (u : Int) := hcp
    have hK : s.visited c = true ∨ c = u := by
      rcases hvis1 c hcv with e | e
      · exact Or.inr e
      · exact Or.inl e
    rcases h.par_closed c u hK hcp0 with h1 | h1
    · rw [hu] at h1; exact absurd h1 (by simp)
    · rcases h.par c hK with h0 | ⟨p, hp, hpv, _, _⟩
      · rw [h0] at hcp0; exact absurd hcp0 (NILL_ne_cast u)
      · have : p = u := by rw [hp] at hcp0; exact_mod_cast hcp0
        rw [this, hu] at hpv; exact absurd hpv (by simp)
  refine ⟨h.enter hu huV, by simp [enter], hu, ?_, ?_, ?_, ?_, ?_, ?_, ?_, ?_⟩
  · refine ⟨?_, rfl, ?_, ?_⟩
    · intro x hx
      have := hne x hx
      simp [enter, Function.update_apply, this, hx]
    · intro x hx0 hx1
      rcases hvis1 x hx1 with e | e
      · rw [e]; exact Anc.refl _ u
      · rw [hx0] at e; exact absurd e (by simp)
    · intro x hx0 hx1 hxu
      rcases hvis1 x hx1 with e | e
      · exact absurd e hxu
      · rw [hx0] at e; exact absurd e (by simp)
  · intro w hw; simp at hw
  · simp [enter]
  · intro c hc; exact absurd hc (hnochild c)
  · intro w hw; simp at hw
  · left; simp [enter]
  · refine ⟨[], List.nodup_nil, rfl, ?_⟩
    intro c
    constructor
    · intro hc; simp at hc
    · intro hc; exact absurd hc (hnochild c)
  · have hap : (enter s u).ap u = false := (h.unvis u hu).1
    rw [hap]
    constructor
    · intro hf; exact absurd hf (by simp)
    · rintro (⟨_, h2⟩ | ⟨_, c, hc, _⟩)
      · omega
      · exact absurd hc (hnochild c)

theorem LoopInv.not_child_self {g : Graph} {s0 s : State} {u : Nat} {done : List Nat}
    {c : Nat} (h : LoopInv g s0 u done c s) : s.parent u ≠ (u : Int) := by
  intro hp
  rcases h.inv.par u (Or.inl h.vis_u) with h0 | ⟨p, hpp, _, _, hd⟩
  · rw [h0] at hp; exact absurd hp (NILL_ne_cast u)
  · have : p = u := by rw [hpp] at hp; exact_mod_cast hp
    exact hd this

theorem LoopInv.final {g : Graph} {s0 t : State} {u c : Nat}
    (h : LoopInv g s0 u (g.adj u) c t) : Finished g t u := by
  refine ⟨h.done_vis, h.low_le_disc, h.low_le_child, h.low_le_nbr, h.low_attained, ?_⟩
  obtain ⟨l, hnd, hlen, hmem⟩ := h.kids
  rw [h.ap_iff]
  have key : 2 ≤ c ↔ ∃ c1 c2, c1 ≠ c2 ∧ Child t u c1 ∧ Child t u c2 := by
    constructor
    · intro h2
      match l, hnd, hlen, hmem with
      | [], _, hlen, _ => simp at hlen; omega
      | [_], _, hlen, _ => simp at hlen; omega
      | a :: b :: _, hnd, _, hmem =>
        refine ⟨a, b, ?_, (hmem a).1 (by simp), (hmem b).1 (by simp)⟩
        intro e
        rw [e] at hnd
        simp at hnd
    · rintro ⟨c1, c2, hne, h1, h2⟩
      have m1 := (hmem c1).2 h1
      have m2 := (hmem c2).2 h2
      match l, hlen, m1, m2 with
      | [], _, m1, _ => simp at m1
      | [a], _, m1, m2 =>
        simp at m1 m2
        exact absurd (m1.trans m2.symm) hne
      | _ :: _ :: _, hlen, _, _ => simp at hlen; omega
  constructor
  · rintro (⟨h0, h2⟩ | h2)
    · exact Or.inl ⟨h0, key.1 h2⟩
    · exact Or.inr h2
  · rintro (⟨h0, h2⟩ | h2)
    · exact Or.inl ⟨h0, key.2 h2⟩
    · exact Or.inr h2

theorem LoopInv.skip {g : Graph} {s0 s : State} {u v : Nat} {done : List Nat} {c : Nat}
    (h : LoopInv g s0 u done c s) (hv : s.visited v = true) (hp : (v : Int) = s.parent u) :
    LoopInv g s0 u (done ++ [v]) c s := by
  refine ⟨h.inv, h.vis_u, h.unvis0, h.frame, ?_, h.low_le_disc, h.low_le_child, ?_, ?_,
    h.kids, h.ap_iff⟩
  · intro w hw
    rcases List.mem_append.1 hw with hw | hw
    · exact h.done_vis w hw
    · simp at hw; rw [hw]; exact hv
  · intro w hw hne
    rcases List.mem_append.1 hw with hw | hw
    · exact h.low_le_nbr w hw hne
    · simp at hw; rw [hw] at hne; exact absurd hp hne
  · rcases h.low_attained with h1 | h1 | ⟨w, hw, h1⟩
    · exact Or.inl h1
    · exact Or.inr (Or.inl h1)
    · exact Or.inr (Or.inr ⟨w, List.mem_append_left _ hw, h1⟩)

theorem LoopInv.back {g : Graph} {s0 s : State} {u v : Nat} {done : List Nat} {c : Nat}
    (h : LoopInv g s0 u done c s) (hv : s.visited v = true) (hp : (v : Int) ≠ s.parent u) :
    LoopInv g s0 u (done ++ [v]) c (backEdge s u v) := by
  have hlowu : (backEdge s u v).low u = min (s.low u) (s.disc v) := by simp [backEdge]
  have hlow : ∀ x, x ≠ u → (backEdge s u v).low x = s.low x := by
    intro x hx; simp [backEdge, Function.update_apply, hx]
  have hcu : ∀ x, Child s u x → x ≠ u := by
    rintro x ⟨_, hx⟩ e
    rw [e] at hx; exact h.not_child_self hx
  have hne0 : ∀ y, s0.visited y = true → y ≠ u := by
    intro y hy e; rw [e, h.unvis0] at hy; exact absurd hy (by simp)
  refine ⟨?_, h.vis_u, h.unvis0, ?_, ?_, ?_, ?_, ?_, ?_, h.kids, ?_⟩
  · exact h.inv.upd_fields h.vis_u rfl rfl rfl rfl hlow (fun _ _ => rfl)
  · refine ⟨?_, h.frame.par_u, h.frame.new_anc, h.frame.new_par⟩
    intro x hx
    obtain ⟨a1, a2, a3, a4, a5⟩ := h.frame.old x hx
    exact ⟨a1, a2, by rw [hlow x (hne0 x hx)]; exact a3, a4, a5⟩
  · intro w hw
    rcases List.mem_append.1 hw with hw | hw
    · exact h.done_vis w hw
    · simp at hw; rw [hw]; exact hv
  · rw [hlowu]
    have := h.low_le_disc
    show min (s.low u) (s.disc v) ≤ s.disc u
    omega
  · intro x hx
    have hx0 : Child s u x := hx
    have := h.low_le_child x hx0
    rw [hlowu, hlow x (hcu x hx0)]
    omega
  · intro w hw hne
    rw [hlowu]
    show min (s.low u) (s.disc v) ≤ s.disc w
    rcases List.mem_append.1 hw with hw | hw
    · have := h.low_le_nbr w hw hne
      omega
    · simp at hw; rw [hw]; omega
  · rw [hlowu]
    show min (s.low u) (s.disc v) = s.disc u ∨
      (∃ x, Child s u x ∧ min (s.low u) (s.disc v) = (backEdge s u v).low x) ∨
      (∃ w ∈ done ++ [v], (w : Int) ≠ s.parent u ∧ min (s.low u) (s.disc v) = s.disc w)
    by_cases hcmp : s.low u ≤ s.disc v
    · rw [min_eq_left hcmp]
      rcases h.low_attained with h1 | ⟨x, hx, h1⟩ | ⟨w, hw, hne, h1⟩
      · exact Or.inl h1
      · exact Or.inr (Or.inl ⟨x, hx, by rw [hlow x (hcu x hx)]; exact h1⟩)
      · exact Or.inr (Or.inr ⟨w, List.mem_append_left _ hw, hne, h1⟩)
    · rw [min_eq_right (by omega)]
      exact Or.inr (Or.inr ⟨v, by simp, hp, rfl⟩)
  · show s.ap u = true ↔ _
    rw [h.ap_iff]
    constructor
    · rintro (h1 | ⟨h0, x, hx, hle⟩)
      · exact Or.inl h1
      · exact Or.inr ⟨h0, x, hx, by rw [hlow x (hcu x hx)]; exact hle⟩
    · rintro (h1 | ⟨h0, x, hx, hle⟩)
      · exact Or.inl h1
      · exact Or.inr ⟨h0, x, hx, by rw [← hlow x (hcu x hx)]; exact hle⟩

theorem LoopInv.child {g : Graph} {s0 s t : State} {u v : Nat} {done : List Nat} {c : Nat}
    (h : LoopInv g s0 u done c s) (hv : s.visited v = false)
    (hinv : Inv g t v) (htv : t.visited v = true) (hfin : Finished g t v)
    (hfr : Frame (setParent s v u) t v) :
    LoopInv g s0 u (done ++ [v]) (c + 1) (afterChild u v (c + 1) t) := by
  have hvu : v ≠ u := by
    intro e; rw [e, h.vis_u] at hv; exact absurd hv (by simp)
  have hnev : ∀ y, s.visited y = true → y ≠ v := by
    intro y hy e; rw [e, hv] at hy; exact absurd hy (by simp)
  have hne0 : ∀ y, s0.visited y = true → y ≠ u := by
    intro y hy e; rw [e, h.unvis0] at hy; exact absurd hy (by simp)
  -- the arrays on the vertices visited before the call
  have hold : ∀ x, s.visited x = true → t.visited x = true ∧ t.disc x = s.disc x ∧
      t.low x = s.low x ∧ t.parent x = s.parent x ∧ t.ap x = s.ap x := by
    intro x hx
    obtain ⟨a1, a2, a3, a4, a5⟩ := hfr.old x hx
    refine ⟨a1, a2, a3, ?_, a5⟩
    rw [a4]
    simp [setParent, Function.update_apply, hnev x hx]
  obtain ⟨htu, hdu, hlu, hpu, hau⟩ := hold u h.vis_u
  have hpv : t.parent v = (u : Int) := by
    rw [hfr.par_u]; simp [setParent]
  have hcu : ∀ x, Child s u x → x ≠ u := by
    rintro x ⟨_, hx⟩ e
    rw [e] at hx; exact h.not_child_self hx
  have hchild : ∀ x, Child t u x ↔ x = v ∨ Child s u x := by
    intro x
    constructor
    · rintro ⟨hxv, hxp⟩
      by_cases e : x = v
      · exact Or.inl e
      · right
        cases hsx : s.visited x with
        | true => exact ⟨hsx, by rw [← (hold x hsx).2.2.2.1]; exact hxp⟩
        | false =>
          exfalso
          obtain ⟨p, hp, hpn⟩ := hfr.new_par x hsx hxv e
          have : p = u := by rw [hp] at hxp; exact_mod_cast hxp
          rw [this] at hpn
          have hpn0 : s.visited u = false := hpn
          rw [h.vis_u] at hpn0; exact absurd hpn0 (by simp)
    · rintro (e | ⟨hxv, hxp⟩)
      · rw [e]; exact ⟨htv, hpv⟩
      · exact ⟨(hold x hxv).1, by rw [(hold x hxv).2.2.2.1]; exact hxp⟩
  obtain ⟨rvis, rdisc, rpar, rtime, rlow, rlowu, rap, rapu⟩ :=
    afterChild_spec u v (c + 1) t hvu
  generalize afterChild u v (c + 1) t = r at rvis rdisc rpar rtime rlow rlowu rap rapu ⊢
  have hchildr : ∀ x, Child r u x ↔ x = v ∨ Child s u x := by
    intro x; rw [← hchild x]; unfold Child; rw [rvis, rpar]
  have hancr : ∀ a b, Anc t a b → Anc r a b := by
    intro a b hab
    unfold Anc IsParent at hab ⊢
    rw [rpar]; exact hab
  have hparKeep : ∀ x, (s.visited x = true ∨ x = u) → t.parent x = s.parent x := by
    intro x hx
    rcases hx with hx | hx
    · exact (hold x hx).2.2.2.1
    · rw [hx]; exact hpu
  refine ⟨?_, ?_, h.unvis0, ?_, ?_, ?_, ?_, ?_, ?_, ?_, ?_⟩
  · exact (hinv.ret htv hfin hpv).upd_fields htu rvis rdisc rpar rtime rlow rap
  · rw [rvis]; exact htu
  · -- frame
    refine ⟨?_, ?_, ?_, ?_⟩
    · intro x hx
      obtain ⟨a1, a2, a3, a4, a5⟩ := h.frame.old x hx
      obtain ⟨b1, b2, b3, b4, b5⟩ := hold x a1
      have hxu := hne0 x hx
      rw [rvis, rdisc, rpar, rlow x hxu, rap x hxu]
      exact ⟨b1, b2.trans a2, b3.trans a3, b4.trans a4, b5.trans a5⟩
    · rw [rpar, hpu]; exact h.frame.par_u
    · intro x hx0 hxr
      apply hancr
      rw [rvis] at hxr
      cases hsx : s.visited x with
      | true =>
        exact h.inv.anc_transfer hparKeep (h.frame.new_anc x hx0 hsx) (Or.inl hsx)
      | false =>
        have h1 : Anc t v x := hfr.new_anc x hsx hxr
        exact (Anc.anc_step (Anc.refl t u) hpv).anc_trans h1
    · intro x hx0 hxr hxu
      rw [rvis] at hxr
      rw [rpar]
      cases hsx : s.visited x with
      | true =>
        obtain ⟨p, hp, hpn⟩ := h.frame.new_par x hx0 hsx hxu
        exact ⟨p, by rw [(hold x hsx).2.2.2.1]; exact hp, hpn⟩
      | false =>
        by_cases e : x = v
        · exact ⟨u, by rw [e]; exact hpv, h.unvis0⟩
        · obtain ⟨p, hp, hpn⟩ := hfr.new_par x hsx hxr e
          refine ⟨p, hp, ?_⟩
          have hpn0 : s.visited p = false := hpn
          cases h0 : s0.visited p with
          | false => rfl
          | true =>
            rw [(h.frame.old p h0).1] at hpn0; exact absurd hpn0 (by simp)
  · intro w hw
    rw [rvis]
    rcases List.mem_append.1 hw with hw | hw
    · exact (hold w (h.done_vis w hw)).1
    · simp at hw; rw [hw]; exact htv
  · rw [rlowu, rdisc, hdu, hlu]
    have := h.low_le_disc
    omega
  · intro x hx
    rw [rlowu, hlu]
    rcases (hchildr x).1 hx with e | hx0
    · rw [e, rlow v hvu]; omega
    · have := h.low_le_child x hx0
      rw [rlow x (hcu x hx0), (hold x hx0.1).2.2.1]
      omega
  · intro w hw hne
    rw [rpar, hpu] at hne
    rw [rlowu, rdisc, hlu]
    rcases List.mem_append.1 hw with hw | hw
    · have := h.low_le_nbr w hw hne
      rw [(hold w (h.done_vis w hw)).2.1]
      omega
    · simp at hw
      rw [hw]
      have := hfin.low_le_disc
      omega
  · rw [rlowu, rdisc, rpar, hpu, hdu, hlu]
    by_cases hcmp : s.low u ≤ t.low v
    · rw [min_eq_left hcmp]
      rcases h.low_attained with h1 | ⟨x, hx, h1⟩ | ⟨w, hw, hne, h1⟩
      · exact Or.inl h1
      · refine Or.inr (Or.inl ⟨x, (hchildr x).2 (Or.inr hx), ?_⟩)
        rw [rlow x (hcu x hx), (hold x hx.1).2.2.1]; exact h1
      · refine Or.inr (Or.inr ⟨w, List.mem_append_left _ hw, hne, ?_⟩)
        rw [(hold w (h.done_vis w hw)).2.1]; exact h1
    · rw [min_eq_right (by omega)]
      exact Or.inr (Or.inl ⟨v, (hchildr v).2 (Or.inl rfl), by rw [rlow v hvu]⟩)
  · obtain ⟨l, hnd, hlen, hmem⟩ := h.kids
    refine ⟨v :: l, ?_, by simp [hlen], ?_⟩
    · refine List.nodup_cons.2 ⟨?_, hnd⟩
      intro hvl
      have := ((hmem v).1 hvl).1
      rw [hv] at this; exact absurd this (by simp)
    · intro x
      rw [hchildr x, List.mem_cons, hmem x]
  · rw [rapu, hau, hpu, hdu, rpar, hpu, rdisc, hdu, h.ap_iff]
    constructor
    · rintro ((⟨h0, h2⟩ | ⟨h0, x, hx, hle⟩) | ⟨h0, h2⟩ | ⟨h0, hle⟩)
      · exact Or.inl ⟨h0, by omega⟩
      · refine Or.inr ⟨h0, x, (hchildr x).2 (Or.inr hx), ?_⟩
        rw [rlow x (hcu x hx), (hold x hx.1).2.2.1]; exact hle
      · exact Or.inl ⟨h0, by omega⟩
      · refine Or.inr ⟨h0, v, (hchildr v).2 (Or.inl rfl), ?_⟩
        rw [rlow v hvu]; exact hle
    · rintro (⟨h0, h2⟩ | ⟨h0, x, hx, hle⟩)
      · by_cases h3 : 2 ≤ c
        · exact Or.inl (Or.inl ⟨h0, h3⟩)
        · exact Or.inr (Or.inl ⟨h0, by omega⟩)
      · rcases (hchildr x).1 hx with e | hx0
        · rw [e, rlow v hvu] at hle
          exact Or.inr (Or.inr ⟨h0, hle⟩)
        · rw [rlow x (hcu x hx0), (hold x hx0.1).2.2.1] at hle
          exact Or.inl (Or.inr ⟨h0, x, hx0, hle⟩)

/-! ### The specification of `APUtil` and of `AP` -/

theorem APLoop_spec {g : Graph} (hr : g.InRange) (f : Nat)
    (IH : ∀ v s, v < g.V → s.visited v = false → unvisitedCount g s ≤ f → Inv g s v →
      ∃ t, APUtil g f v s = some t ∧ Inv g t v ∧ t.visited v = true ∧ Finished g t v ∧
        Frame s t v)
    (s0 : State) (u : Nat) (huV : u < g.V) :
    ∀ (rest done : List Nat) (c : Nat) (s : State), g.adj u = done ++ rest →
      LoopInv g s0 u done c s → unvisitedCount g s ≤ f →
      ∃ t c2, APLoop (APUtil g f) u rest c s = some t ∧ LoopInv g s0 u (g.adj u) c2 t := by
  intro rest
  induction rest with
  | nil =>
    intro done c s hadj hL _
    rw [List.append_nil] at hadj
    exact ⟨s, c, rfl, by rw [hadj]; exact hL⟩
  | cons v rest ih =>
    intro done c s hadj hL hcnt
    have hvin : v ∈ g.adj u := by rw [hadj]; simp
    have hvV : v < g.V := hr u huV v hvin
    have hadj2 : g.adj u = (done ++ [v]) ++ rest := by rw [hadj]; simp
    rw [APLoop]
    by_cases hvis : s.visited v = false
    · rw [if_pos hvis]
      obtain ⟨t, ht, hinv, htv, hfin, hfr⟩ :=
        IH v (setParent s v u) hvV hvis hcnt (hL.inv.setParent hL.vis_u hvis hvin)
      rw [ht]
      apply ih (done ++ [v]) (c + 1) _ hadj2 (hL.child hvis hinv htv hfin hfr)
      refine le_trans (unvisitedCount_le ?_) hcnt
      intro x hx
      rw [(afterChild_spec u v (c + 1) t
        (by intro e; rw [e, hL.vis_u] at hvis; exact absurd hvis (by simp))).1]
      exact (hfr.old x hx).1
    · rw [if_neg hvis]
      have hvt : s.visited v = true := by
        cases hh : s.visited v with
        | true => rfl
        | false => exact absurd hh hvis
      by_cases hp : (v : Int) ≠ s.parent u
      · rw [if_pos hp]
        exact ih (done ++ [v]) c _ hadj2 (hL.back hvt hp) hcnt
      · rw [if_neg hp]
        exact ih (done ++ [v]) c _ hadj2 (hL.skip hvt (not_not.1 hp)) hcnt

theorem APUtil_spec {g : Graph} (hr : g.InRange) :
    ∀ (f u : Nat) (s : State), u < g.V → s.visited u = false → unvisitedCount g s ≤ f →
      Inv g s u →
      ∃ t, APUtil g f u s = some t ∧ Inv g t u ∧ t.visited u = true ∧ Finished g t u ∧
        Frame s t u := by
  intro f
  induction f with
  | zero =>
    intro u s huV hu hcnt _
    have := unvisitedCount_pos huV hu
    omega
  | succ f ih =>
    intro u s huV hu hcnt hinv
    rw [APUtil]
    have hcnt1 : unvisitedCount g (enter s u) ≤ f := by
      have : unvisitedCount g (enter s u) < unvisitedCount g s := by
        apply unvisitedCount_lt _ huV hu (by simp [enter])
        intro x hx
        have : x ≠ u := by intro e; rw [e, hu] at hx; exact absurd hx (by simp)
        simp [enter, Function.update_apply, this, hx]
      omega
    obtain ⟨t, c2, ht, hL⟩ :=
      APLoop_spec hr f ih s u huV (g.adj u) [] 0 (enter s u) rfl
        (LoopInv.init hinv hu huV) hcnt1
    exact ⟨t, ht, hL.inv, hL.vis_u, hL.final, hL.frame⟩

theorem RootInv.toInv {g : Graph} {s : State} (h : RootInv g s) (i : Nat) : Inv g s i := by
  refine ⟨h.vis_lt, fun x hx => ⟨(h.unvis x hx).1, fun _ => (h.unvis x hx).2⟩,
    ?_, fun x hx _ => Or.inr (h.fin x hx), h.cross⟩
  intro x hx
  cases hv : s.visited x with
  | true =>
    rcases h.par x hv with h0 | ⟨p, h1, h2, h3, h4⟩
    · exact Or.inl h0
    · exact Or.inr ⟨p, h1, h2, h3, h4⟩
  | false => exact Or.inl (h.unvis x hv).2

theorem RootInv.ofPost {g : Graph} {s t : State} {i : Nat} (h : RootInv g s)
    (hi : s.visited i = false) (hinv : Inv g t i) (hti : t.visited i = true)
    (hfin : Finished g t i) (hfr : Frame s t i) : RootInv g t := by
  have hpi : t.parent i = NILL := by rw [hfr.par_u]; exact (h.unvis i hi).2
  refine ⟨hinv.vis_lt, ?_, ?_, ?_, hinv.cross⟩
  · intro x hx
    refine ⟨(hinv.unvis x hx).1, (hinv.unvis x hx).2 ?_⟩
    intro e; rw [e, hti] at hx; exact absurd hx (by simp)
  · intro x hx
    rcases hinv.par x (Or.inl hx) with h0 | ⟨p, h1, h2, h3, h4⟩
    · exact Or.inl h0
    · exact Or.inr ⟨p, h1, h2, h3, h4⟩
  · intro x hx
    by_cases e : x = i
    · rw [e]; exact hfin
    · rcases hinv.fin x hx e with h1 | h1
      · exact absurd (h1.eq_of_root hpi) e
      · exact h1

theorem unvisitedCount_le_V (g : Graph) (s : State) : unvisitedCount g s ≤ g.V := by
  unfold unvisitedCount
  calc _ ≤ (Finset.range g.V).card := Finset.card_filter_le _ _
    _ = g.V := Finset.card_range _

theorem APRoots_spec {g : Graph} (hr : g.InRange) {f : Nat} (hf : g.V ≤ f) :
    ∀ (l : List Nat) (s : State), (∀ i ∈ l, i < g.V) → RootInv g s →
      ∃ t, APRoots g f l s = some t ∧ RootInv g t ∧
        (∀ x, s.visited x = true → t.visited x = true) ∧ (∀ i ∈ l, t.visited i = true) := by
  intro l
  induction l with
  | nil => intro s _ h; exact ⟨s, rfl, h, fun _ hx => hx, by simp⟩
  | cons i rest ih =>
    intro s hl h
    have hiV : i < g.V := hl i (by simp)
    have hl2 : ∀ j ∈ rest, j < g.V := fun j hj => hl j (by simp [hj])
    rw [APRoots]
    by_cases hi : s.visited i = false
    · rw [if_pos hi]
      obtain ⟨t, ht, hinv, hti, hfin, hfr⟩ :=
        APUtil_spec hr f i s hiV hi (le_trans (unvisitedCount_le_V g s) hf) (h.toInv i)
      rw [ht]
      obtain ⟨r, hr1, hr2, hr3, hr4⟩ := ih t hl2 (h.ofPost hi hinv hti hfin hfr)
      refine ⟨r, hr1, hr2, fun x hx => hr3 x (hfr.old x hx).1, ?_⟩
      intro j hj
      rcases List.mem_cons.1 hj with e | hj
      · rw [e]; exact hr3 i hti
      · exact hr4 j hj
    · rw [if_neg hi]
      have hit : s.visited i = true := by
        cases hh : s.visited i with
        | true => rfl
        | false => exact absurd hh hi
      obtain ⟨r, hr1, hr2, hr3, hr4⟩ := ih s hl2 h
      refine ⟨r, hr1, hr2, hr3, ?_⟩
      intro j hj
      rcases List.mem_cons.1 hj with e | hj
      · rw [e]; exact hr3 i hit
      · exact hr4 j hj

theorem RootInv.initState (g : Graph) (time : Int) (disc0 low0 : Nat → Int) :
    RootInv g (initState time disc0 low0) := by
  refine ⟨?_, ?_, ?_, ?_, ?_⟩
  · intro x hx; simp [ArticulationPoints.initState] at hx
  · intro x _; exact ⟨rfl, rfl⟩
  · intro x hx; simp [ArticulationPoints.initState] at hx
  · intro x hx; simp [ArticulationPoints.initState] at hx
  · intro _ x w hx; simp [ArticulationPoints.initState] at hx

/-- With fuel at least `V`, `AP()` on a graph with in-range adjacency entries returns, every
vertex is visited, and every vertex is finished. -/
theorem AP_spec {g : Graph} (hr : g.InRange) {f : Nat} (hf : g.V ≤ f)
    (time : Int) (disc0 low0 : Nat → Int) :
    ∃ t, AP g f time disc0 low0 = some t ∧ RootInv g t ∧ ∀ x, x < g.V → t.visited x = true := by
  obtain ⟨t, h1, h2, _, h4⟩ := APRoots_spec hr hf (List.range g.V) (initState time disc0 low0)
    (fun i hi => List.mem_range.1 hi) (RootInv.initState g time disc0 low0)
  exact ⟨t, h1, h2, fun x hx => h4 x (List.mem_range.2 hx)⟩

/-! ### The DFS forest at the end of the run -/

theorem Graph.Edge.edge_symm {g : Graph} {a b : Nat} (h : g.Edge a b) : g.Edge b a :=
  ⟨h.2.1, h.1, h.2.2.symm⟩

theorem Graph.Edge.mem {g : Graph} (hsym : g.Symm) {a b : Nat} (h : g.Edge a b) :
    b ∈ g.adj a := by
  rcases h.2.2 with h1 | h1
  · exact h1
  · exact hsym b h.2.1 a h1

theorem Graph.ConnAvoid.avoid_symm {g : Graph} {u a b : Nat} (h : g.ConnAvoid u a b) :
    g.ConnAvoid u b a := by
  refine Relation.ReflTransGen.symmetric ?_ h
  intro x y hxy
  exact ⟨hxy.1.edge_symm, hxy.2.2, hxy.2.1⟩

theorem Graph.ConnAvoid.avoid_trans {g : Graph} {u a b c : Nat} (h1 : g.ConnAvoid u a b)
    (h2 : g.ConnAvoid u b c) : g.ConnAvoid u a c :=
  Relation.ReflTransGen.trans h1 h2

theorem Graph.ConnAvoid.avoid_step {g : Graph} {u a b c : Nat} (h1 : g.ConnAvoid u a b)
    (h2 : g.Edge b c) (hb : b ≠ u) (hc : c ≠ u) : g.ConnAvoid u a c :=
  Relation.ReflTransGen.tail h1 ⟨h2, hb, hc⟩

theorem RootInv.parent_vis {g : Graph} {t : State} (h : RootInv g t) {x p : Nat}
    (hx : t.visited x = true) (hp : t.parent x = (p : Int)) :
    t.visited p = true ∧ x ∈ g.adj p ∧ p ≠ x := by
  rcases h.par x hx with h0 | ⟨q, hq, h1, h2, h3⟩
  · rw [h0] at hp; exact absurd hp (NILL_ne_cast p)
  · have : q = p := by rw [hq] at hp; exact_mod_cast hp
    rw [← this]; exact ⟨h1, h2, h3⟩

theorem RootInv.parent_cases {g : Graph} {t : State} (h : RootInv g t)
    (ho : Rank t t.disc t.time) {x p : Nat}
    (hx : t.visited x = true) (hp : t.parent x = (p : Int)) :
    t.visited p = true ∧ x ∈ g.adj p ∧ t.disc p < t.disc x :=
  ⟨(h.parent_vis hx hp).1, (h.parent_vis hx hp).2.1, ho.par_lt x p hx hp⟩

theorem parent_unique {t : State} {x p q : Nat} (hp : t.parent x = (p : Int))
    (hq : t.parent x = (q : Int)) : p = q := by
  rw [hp] at hq; exact_mod_cast hq

theorem RootInv.root_anc_visited {g : Graph} {t : State} (h : RootInv g t) {a b : Nat}
    (hab : Anc t a b) (hb : t.visited b = true) : t.visited a = true := by
  induction hab with
  | refl => exact hb
  | tail _ h2 ih => exact ih (h.parent_vis hb h2).1

/-- Along the forest the rank grows: a proper ancestor is ranked below. -/
theorem RootInv.anc_rank {g : Graph} {t : State} (h : RootInv g t) {r : Nat → Int} {T : Int}
    (hk : Rank t r T) {a b : Nat}
    (hab : Anc t a b) (hb : t.visited b = true) : a = b ∨ r a < r b := by
  induction hab with
  | refl => exact Or.inl rfl
  | tail _ h2 ih =>
    have hpv := (h.parent_vis hb h2).1
    have hd := hk.par_lt _ _ hb h2
    rcases ih hpv with e | e
    · rw [e]; exact Or.inr hd
    · exact Or.inr (by omega)

theorem RootInv.anc_disc {g : Graph} {t : State} (h : RootInv g t)
    (ho : Rank t t.disc t.time) {a b : Nat}
    (hab : Anc t a b) (hb : t.visited b = true) : a = b ∨ t.disc a < t.disc b :=
  h.anc_rank ho hab hb

theorem RootInv.anc_disc_le {g : Graph} {t : State} (h : RootInv g t)
    (ho : Rank t t.disc t.time) {a b : Nat}
    (hab : Anc t a b) (hb : t.visited b = true) : t.disc a ≤ t.disc b := by
  rcases h.anc_disc ho hab hb with e | e
  · rw [e]
  · omega

theorem RootInv.anc_antisymm {g : Graph} {t : State} (h : RootInv g t) {r : Nat → Int}
    {T : Int} (hk : Rank t r T) {a b : Nat}
    (hab : Anc t a b) (hba : Anc t b a) (ha : t.visited a = true) (hb : t.visited b = true) :
    a = b := by
  rcases h.anc_rank hk hab hb with e | e
  · exact e
  · rcases h.anc_rank hk hba ha with e2 | e2
    · exact e2.symm
    · omega

/-- Two ancestors of one vertex lie on one chain. -/
theorem Anc.comparable {t : State} {a b x : Nat} (ha : Anc t a x) (hb : Anc t b x) :
    Anc t a b ∨ Anc t b a := by
  induction ha with
  | refl => exact Or.inr hb
  | tail h1 h2 ih =>
    rcases hb.cases_last with e | ⟨q, hq, hbq⟩
    · rw [e]; exact Or.inl (Anc.anc_step h1 h2)
    · have : q = _ := parent_unique hq h2
      rw [this] at hbq
      exact ih hbq

/-- First step of an ancestor chain: a proper descendant of `u` lies below a child of `u`. -/
theorem RootInv.anc_child {g : Graph} {t : State} (h : RootInv g t) {u x : Nat}
    (hux : Anc t u x) (hx : t.visited x = true) (hne : x ≠ u) :
    ∃ c, Child t u c ∧ Anc t c x := by
  rcases Relation.ReflTransGen.cases_head hux with e | ⟨c, hc, hcx⟩
  · exact absurd e.symm hne
  · exact ⟨c, ⟨h.root_anc_visited hcx hx, hc⟩, hcx⟩

theorem RootInv.low_mono {g : Graph} {t : State} (h : RootInv g t) {c x : Nat}
    (hcx : Anc t c x) (hx : t.visited x = true) : t.low c ≤ t.low x := by
  induction hcx with
  | refl => exact le_refl _
  | tail _ h2 ih =>
    obtain ⟨hpv, _, _⟩ := h.parent_vis hx h2
    have h1 := ih hpv
    have h3 := (h.fin _ hpv).low_le_child _ ⟨hx, h2⟩
    omega

/-- Tree path below `u`: from a vertex discovered after `u` down to a descendant. -/
theorem RootInv.conn_down {g : Graph} {t : State} (h : RootInv g t)
    (ho : Rank t t.disc t.time) {u a b : Nat}
    (hab : Anc t a b) (hb : t.visited b = true) (hd : t.disc u < t.disc a) :
    g.ConnAvoid u a b := by
  induction hab with
  | refl => exact Relation.ReflTransGen.refl
  | tail h1 h2 ih =>
    rename_i p b
    obtain ⟨hpv, hadj, hdp⟩ := h.parent_cases ho hb h2
    have hap := h.anc_disc_le ho h1 hpv
    refine (ih hpv).avoid_step ⟨h.vis_lt p hpv, h.vis_lt b hb, Or.inl hadj⟩ ?_ ?_
    · intro e; rw [e] at hap; omega
    · intro e; rw [e] at hdp; omega

/-- Tree path above `u`: from an ancestor down to a vertex discovered before `u`. -/
theorem RootInv.conn_up {g : Graph} {t : State} (h : RootInv g t)
    (ho : Rank t t.disc t.time) {u a b : Nat}
    (hab : Anc t a b) (hb : t.visited b = true) (hd : t.disc b < t.disc u) :
    g.ConnAvoid u a b := by
  induction hab with
  | refl => exact Relation.ReflTransGen.refl
  | tail h1 h2 ih =>
    rename_i p b
    obtain ⟨hpv, hadj, hdp⟩ := h.parent_cases ho hb h2
    refine (ih hpv (by omega)).avoid_step ⟨h.vis_lt p hpv, h.vis_lt b hb, Or.inl hadj⟩ ?_ ?_
    · intro e; rw [e] at hdp; omega
    · intro e; rw [e] at hd; omega

/-- A `low` value below the discovery time is the discovery time of the far end of an edge
leaving a vertex of the subtree, other than the entry for its parent. The forest is
well-founded by any rank. -/
theorem RootInv.low_witness {g : Graph} {t : State} (h : RootInv g t) {r : Nat → Int}
    {T : Int} (hk : Rank t r T) :
    ∀ (n : Nat) (c : Nat), t.visited c = true → T - r c ≤ (n : Int) →
      t.low c < t.disc c →
      ∃ x w, Anc t c x ∧ t.visited x = true ∧ w ∈ g.adj x ∧ (w : Int) ≠ t.parent x ∧
        t.disc w = t.low c := by
  have hchild : ∀ c x, t.visited c = true → Child t c x → (x : Int) ≠ t.parent c := by
    intro c x hc hx e
    have h1 := hk.par_lt x c hx.1 hx.2
    have h2 := hk.par_lt c x hc e.symm
    omega
  intro n
  induction n with
  | zero =>
    intro c hc hn hlow
    rcases (h.fin c hc).low_attained with h1 | ⟨x, hx, h1⟩ | ⟨w, hw, hne, h1⟩
    · omega
    · have := hk.par_lt x c hx.1 hx.2
      have := hk.le x hx.1
      omega
    · exact ⟨c, w, Anc.refl t c, hc, hw, hne, h1.symm⟩
  | succ n ih =>
    intro c hc hn hlow
    rcases (h.fin c hc).low_attained with h1 | ⟨x, hx, h1⟩ | ⟨w, hw, hne, h1⟩
    · omega
    · have hd := hk.par_lt x c hx.1 hx.2
      rcases lt_or_eq_of_le (h.fin x hx.1).low_le_disc with hlt | heq
      · obtain ⟨y, w, hy, hyv, hw, hne, hdw⟩ := ih x hx.1 (by omega) hlt
        exact ⟨y, w, (Anc.anc_step (Anc.refl t c) hx.2).anc_trans hy, hyv, hw, hne,
          by rw [hdw, h1]⟩
      · exact ⟨c, x, Anc.refl t c, hc, (h.parent_vis hx.1 hx.2).2.1, hchild c x hc hx,
          by rw [h1, heq]⟩
    · exact ⟨c, w, Anc.refl t c, hc, hw, hne, h1.symm⟩

/-! ### Flagged vertices are exactly the cut vertices -/

/-- The subtree of a child `c` of `u` is closed under the edges that avoid `u`, provided no
edge leaves it towards a proper ancestor of `c` other than `u`. -/
theorem RootInv.subtree_closed {g : Graph} {t : State} (h : RootInv g t) (hsym : g.Symm)
    (hall : ∀ x, x < g.V → t.visited x = true) {u c : Nat}
    (H : ∀ x w, Anc t c x → t.visited x = true → w ∈ g.adj x → w ≠ u → Anc t w c → w ≠ c →
      False)
    {a b : Nat} (hab : g.ConnAvoid u a b) (ha : Anc t c a) : Anc t c b := by
  induction hab with
  | refl => exact ha
  | @tail x w _ h2 ih =>
    obtain ⟨hedge, _, hwu⟩ := h2
    have hxv := hall x hedge.1
    have hwv := hall w hedge.2.1
    have hmem := hedge.mem hsym
    rcases h.cross hsym x w hxv hwv hmem with h1 | h1
    · rcases Anc.comparable h1 ih with h3 | h3
      · by_cases e : w = c
        · rw [e]; exact Anc.refl t c
        · exact (H x w ih hxv hmem hwu h3 e).elim
      · exact h3
    · exact ih.anc_trans h1

theorem RootInv.cut_of_ap {g : Graph} {t : State} (h : RootInv g t)
    (ho : Rank t t.disc t.time) (hsym : g.Symm)
    (hall : ∀ x, x < g.V → t.visited x = true) {u : Nat} (hu : u < g.V)
    (hap : t.ap u = true) : g.IsCut u := by
  have huv := hall u hu
  rcases (h.fin u huv).ap_iff.1 hap with ⟨hroot, c1, c2, hne, hc1, hc2⟩ | ⟨hnr, c, hc, hle⟩
  · -- root with two children
    obtain ⟨_, hadj1, hd1⟩ := h.parent_cases ho hc1.1 hc1.2
    obtain ⟨_, hadj2, hd2⟩ := h.parent_cases ho hc2.1 hc2.2
    have hc1u : c1 ≠ u := by intro e; rw [e] at hd1; omega
    have hc2u : c2 ≠ u := by intro e; rw [e] at hd2; omega
    have hc1V := h.vis_lt c1 hc1.1
    have hc2V := h.vis_lt c2 hc2.1
    refine ⟨c1, c2, hc1V, hc2V, hc1u, hc2u, ?_, ?_⟩
    · exact Relation.ReflTransGen.tail
        (Relation.ReflTransGen.single ⟨hc1V, hu, Or.inr hadj1⟩) ⟨hu, hc2V, Or.inl hadj2⟩
    · intro hconn
      have hcl : Anc t c1 c2 := by
        apply h.subtree_closed hsym hall _ hconn (Anc.refl t c1)
        intro x w _ _ _ hwu hwc hwne
        rcases hwc.cases_last with e | ⟨p, hp, hwp⟩
        · exact hwne e
        · have : p = u := parent_unique hp hc1.2
          rw [this] at hwp
          exact hwu (hwp.eq_of_root hroot)
      rcases hcl.cases_last with e | ⟨p, hp, hcp⟩
      · exact hne e
      · have : p = u := parent_unique hp hc2.2
        rw [this] at hcp
        exact hc1u (hcp.eq_of_root hroot)
  · -- non-root with a child that cannot climb above it
    obtain ⟨_, hadjc, hdc⟩ := h.parent_cases ho hc.1 hc.2
    rcases h.par u huv with h0 | ⟨p, hp, hpv, hadjp, hpu⟩
    · exact absurd h0 hnr
    · have hcu : c ≠ u := by intro e; rw [e] at hdc; omega
      have hdp : t.disc p < t.disc u := ho.par_lt u p huv hp
      have hcV := h.vis_lt c hc.1
      have hpV := h.vis_lt p hpv
      refine ⟨c, p, hcV, hpV, hcu, hpu, ?_, ?_⟩
      · exact Relation.ReflTransGen.tail
          (Relation.ReflTransGen.single ⟨hcV, hu, Or.inr hadjc⟩) ⟨hu, hpV, Or.inr hadjp⟩
      · intro hconn
        have hcl : Anc t c p := by
          apply h.subtree_closed hsym hall _ hconn (Anc.refl t c)
          intro x w hcx hxv hwx hwu hwc hwne
          have hwanc : Anc t w u := by
            rcases hwc.cases_last with e | ⟨q, hq, hwq⟩
            · exact absurd e hwne
            · have : q = u := parent_unique hq hc.2
              rw [this] at hwq; exact hwq
          have hdw : t.disc w < t.disc u := by
            rcases h.anc_disc ho hwanc huv with e | e
            · exact absurd e hwu
            · exact e
          have hlow := h.low_mono hcx hxv
          have hnp : (w : Int) ≠ t.parent x := by
            intro e
            rcases hcx.cases_last with e2 | ⟨q, hq, hcq⟩
            · rw [← e2, hc.2] at e
              exact hwu (by exact_mod_cast e)
            · have : q = w := by rw [hq] at e; exact_mod_cast e.symm
              rw [this] at hcq
              exact hwne (h.anc_antisymm ho hwc hcq (h.root_anc_visited hwc hc.1) hc.1)
          have := (h.fin x hxv).low_le_nbr w hwx hnp
          omega
        have := h.anc_disc_le ho hcl hpv
        omega

/-- When `u` is not flagged, any two neighbours of `u` are joined by a path avoiding `u`. -/
theorem RootInv.nbr_conn {g : Graph} {t : State} (h : RootInv g t)
    (ho : Rank t t.disc t.time) (hr : g.InRange)
    (hsym : g.Symm) (hall : ∀ x, x < g.V → t.visited x = true) {u : Nat} (hu : u < g.V)
    (hnap : ¬ t.ap u = true) {x y : Nat} (hx : x ∈ g.adj u) (hy : y ∈ g.adj u)
    (hxu : x ≠ u) (hyu : y ≠ u) : g.ConnAvoid u x y := by
  have huv := hall u hu
  have hrule := fun hh => hnap ((h.fin u huv).ap_iff.2 hh)
  have hchild_down : ∀ c z, Child t u c → Anc t c z → t.visited z = true →
      g.ConnAvoid u c z := by
    intro c z hc hcz hz
    exact h.conn_down ho hcz hz (h.parent_cases ho hc.1 hc.2).2.2
  by_cases hroot : t.parent u = NILL
  · -- root with at most one child: every neighbour lies below that child
    have key : ∀ z, z ∈ g.adj u → z ≠ u → ∃ c, Child t u c ∧ g.ConnAvoid u c z := by
      intro z hz hzu
      have hzv := hall z (hr u hu z hz)
      rcases h.cross hsym u z huv hzv hz with h1 | h1
      · exact absurd (h1.eq_of_root hroot) hzu
      · obtain ⟨c, hc, hcz⟩ := h.anc_child h1 hzv hzu
        exact ⟨c, hc, hchild_down c z hc hcz hzv⟩
    obtain ⟨c1, hc1, hp1⟩ := key x hx hxu
    obtain ⟨c2, hc2, hp2⟩ := key y hy hyu
    have : c1 = c2 := by
      by_contra hne
      exact hrule (Or.inl ⟨hroot, c1, c2, hne, hc1, hc2⟩)
    rw [this] at hp1
    exact hp1.avoid_symm.avoid_trans hp2
  · -- non-root: every neighbour reaches the parent
    rcases h.par u huv with h0 | ⟨p, hp, hpv, _, _⟩
    · exact absurd h0 hroot
    · have hdp : t.disc p < t.disc u := ho.par_lt u p huv hp
      have key : ∀ z, z ∈ g.adj u → z ≠ u → g.ConnAvoid u z p := by
        intro z hz hzu
        have hzv := hall z (hr u hu z hz)
        have above : ∀ w, Anc t w u → w ≠ u → g.ConnAvoid u w p := by
          intro w hw hwu
          rcases hw.cases_last with e | ⟨q, hq, hwq⟩
          · exact absurd e hwu
          · have : q = p := parent_unique hq hp
            rw [this] at hwq
            exact h.conn_up ho hwq hpv hdp
        rcases h.cross hsym u z huv hzv hz with h1 | h1
        · exact above z h1 hzu
        · obtain ⟨c, hc, hcz⟩ := h.anc_child h1 hzv hzu
          have hdc := (h.parent_cases ho hc.1 hc.2).2.2
          have hdcle := ho.le c hc.1
          have hlowc : t.low c < t.disc u := by
            by_contra hge
            exact hrule (Or.inr ⟨hroot, c, hc, by omega⟩)
          obtain ⟨a, w, hca, hav, hwa, _, hdw⟩ :=
            h.low_witness ho (t.time - t.disc c).toNat c hc.1 (by omega) (by omega)
          have hwv := hall w (hr a (h.vis_lt a hav) w hwa)
          have hdca := h.anc_disc_le ho hca hav
          have hau : a ≠ u := by intro e; rw [e] at hdca; omega
          have hwu : w ≠ u := by intro e; rw [e] at hdw; omega
          have hwanc : Anc t w u := by
            rcases h.cross hsym a w hav hwv hwa with h2 | h2
            · have hua : Anc t u a := (Anc.anc_step (Anc.refl t u) hc.2).anc_trans hca
              rcases Anc.comparable h2 hua with h3 | h3
              · exact h3
              · have := h.anc_disc_le ho h3 hwv
                omega
            · have := h.anc_disc_le ho h2 hwv
              omega
          have p1 : g.ConnAvoid u z c := (hchild_down c z hc hcz hzv).avoid_symm
          have p2 : g.ConnAvoid u c a := hchild_down c a hc hca hav
          have p3 : g.ConnAvoid u a w :=
            Relation.ReflTransGen.single
              ⟨⟨h.vis_lt a hav, h.vis_lt w hwv, Or.inl hwa⟩, hau, hwu⟩
          exact ((p1.avoid_trans p2).avoid_trans p3).avoid_trans (above w hwanc hwu)
      exact (key x hx hxu).avoid_trans (key y hy hyu).avoid_symm

/-- A path of the graph is rerouted around a vertex whose neighbours stay joined without
it. -/
theorem Graph.reroute {g : Graph} (hsym : g.Symm) {u : Nat}
    (hn : ∀ x y, x ∈ g.adj u → y ∈ g.adj u → x ≠ u → y ≠ u → g.ConnAvoid u x y)
    {a b : Nat} (hab : g.Conn a b) (ha : a ≠ u) :
    (b ≠ u → g.ConnAvoid u a b) ∧
      (b = u → ∃ x, x ∈ g.adj u ∧ x ≠ u ∧ g.ConnAvoid u a x) := by
  induction hab with
  | refl => exact ⟨fun _ => Relation.ReflTransGen.refl, fun e => absurd e ha⟩
  | @tail m b _ hedge ih =>
    by_cases hm : m = u
    · obtain ⟨x, hx, hxu, hax⟩ := ih.2 hm
      constructor
      · intro hb
        have hbm : b ∈ g.adj u := by rw [← hm]; exact hedge.mem hsym
        exact hax.avoid_trans (hn x b hx hbm hxu hb)
      · intro _; exact ⟨x, hx, hxu, hax⟩
    · constructor
      · intro hb; exact (ih.1 hm).avoid_step hedge hm hb
      · intro hb
        refine ⟨m, ?_, hm, ih.1 hm⟩
        rw [← hb]; exact hedge.edge_symm.mem hsym

/-- At the end of the run, on a well-formed graph, `ap[u]` is set exactly for the cut
vertices. -/
theorem RootInv.ap_iff_cut {g : Graph} {t : State} (h : RootInv g t)
    (ho : Rank t t.disc t.time) (hr : g.InRange)
    (hsym : g.Symm) (hall : ∀ x, x < g.V → t.visited x = true) {u : Nat} (hu : u < g.V) :
    t.ap u = true ↔ g.IsCut u := by
  constructor
  · exact h.cut_of_ap ho hsym hall hu
  · rintro ⟨a, b, _, _, hau, hbu, hconn, hnot⟩
    by_contra hnap
    exact hnot ((Graph.reroute hsym (fun x y hx hy hxu hyu =>
      h.nbr_conn ho hr hsym hall hu hnap hx hy hxu hyu) hconn hau).1 hbu)


/-! ### The 32-bit counter and the order of discovery -/

theorem wrap32_range (x : Int) : INT_MIN ≤ wrap32 x ∧ wrap32 x ≤ INT_MAX := by
  unfold wrap32 INT_MIN INT_MAX
  omega

theorem wrap32_eq_self {x : Int} (h1 : INT_MIN ≤ x) (h2 : x ≤ INT_MAX) : wrap32 x = x := by
  unfold wrap32
  unfold INT_MIN at h1
  unfold INT_MAX at h2
  omega

theorem wrap32_succ_congr {a b : Int} (h : wrap32 a = wrap32 b) :
    wrap32 (a + 1) = wrap32 (b + 1) := by
  unfold wrap32 at h ⊢
  omega

theorem wrap32_idem (x : Int) : wrap32 (wrap32 x) = wrap32 x :=
  wrap32_eq_self (wrap32_range x).1 (wrap32_range x).2

theorem unvisitedCount_enter {g : Graph} {s : State} {u : Nat} (hu : u < g.V)
    (hs : s.visited u = false) : unvisitedCount g (enter s u) + 1 = unvisitedCount g s := by
  have hpos := unvisitedCount_pos hu hs
  unfold unvisitedCount at hpos ⊢
  have e : (Finset.range g.V).filter (fun i => (enter s u).visited i = false)
      = ((Finset.range g.V).filter (fun i => s.visited i = false)).erase u := by
    ext i
    simp only [Finset.mem_filter, Finset.mem_range, Finset.mem_erase, enter,
      Function.update_apply]
    by_cases h : i = u
    · simp [h]
    · simp [h]
  rw [e, Finset.card_erase_of_mem (by simp [hu, hs])]
  omega

theorem unvisitedCount_congr {g : Graph} {s t : State} (h : t.visited = s.visited) :
    unvisitedCount g t = unvisitedCount g s := by
  unfold unvisitedCount; rw [h]

theorem afterChild_fields (u v c : Nat) (t : State) :
    (afterChild u v c t).visited = t.visited ∧ (afterChild u v c t).disc = t.disc ∧
    (afterChild u v c t).time = t.time ∧ (afterChild u v c t).parent = t.parent := by
  unfold afterChild
  dsimp only
  split_ifs <;> exact ⟨rfl, rfl, rfl, rfl⟩

theorem RInv.r_fields {s t : State} {r : Nat → Int} {T : Int} (h : RInv s r T)
    (hv : t.visited = s.visited) (hp : t.parent = s.parent) (hd : t.disc = s.disc)
    (ht : t.time = s.time) : RInv t r T where
  rank := ⟨by rw [hv]; exact h.rank.le, by rw [hv, hp]; exact h.rank.par_lt⟩
  par_vis := by rw [hv, hp]; exact h.par_vis
  disc_eq := by rw [hv, hd]; exact h.disc_eq
  time_eq := by rw [ht]; exact h.time_eq

theorem RRun.r_refl (g : Graph) (s : State) (r : Nat → Int) (T : Int) :
    RRun g s r T s r T where
  old := fun _ h => ⟨h, rfl⟩
  fresh := fun x _ h1 h2 => by rw [h1] at h2; exact absurd h2 (by simp)
  inj := fun x _ _ _ h1 _ h2 _ _ => by rw [h1] at h2; exact absurd h2 (by simp)
  count := rfl
  clock_le := le_refl _
  time_rng := Or.inl rfl

theorem RRun.r_trans {g : Graph} {s t q : State} {r r2 r3 : Nat → Int} {T T2 T3 : Int}
    (h1 : RRun g s r T t r2 T2) (hm : Rank t r2 T2) (h2 : RRun g t r2 T2 q r3 T3) :
    RRun g s r T q r3 T3 where
  old := fun x hx => by
    obtain ⟨a, b⟩ := h1.old x hx
    obtain ⟨c, d⟩ := h2.old x a
    exact ⟨c, d.trans b⟩
  fresh := fun x hxV hs hq => by
    cases ht : t.visited x with
    | true =>
      rw [(h2.old x ht).2]
      exact h1.fresh x hxV hs ht
    | false =>
      have a := h2.fresh x hxV ht hq
      have := h1.clock_le
      omega
  inj := fun x y hxV hyV hsx hsy hqx hqy e => by
    cases htx : t.visited x with
    | true =>
      cases hty : t.visited y with
      | true =>
        apply h1.inj x y hxV hyV hsx hsy htx hty
        rw [← (h2.old x htx).2, ← (h2.old y hty).2]; exact e
      | false =>
        have a := hm.le x htx
        have b := h2.fresh y hyV hty hqy
        rw [← (h2.old x htx).2, e] at a
        omega
    | false =>
      cases hty : t.visited y with
      | true =>
        have a := hm.le y hty
        have b := h2.fresh x hxV htx hqx
        rw [← (h2.old y hty).2, ← e] at a
        omega
      | false => exact h2.inj x y hxV hyV htx hty hqx hqy e
  count := h2.count.trans h1.count
  clock_le := le_trans h1.clock_le h2.clock_le
  time_rng := by
    rcases h2.time_rng with e | e
    · rw [e]; exact h1.time_rng
    · exact Or.inr e

theorem RRun.r_right {g : Graph} {s t q : State} {r r2 : Nat → Int} {T T2 : Int}
    (h : RRun g s r T t r2 T2) (hv : q.visited = t.visited) (ht : q.time = t.time) :
    RRun g s r T q r2 T2 where
  old := by rw [hv]; exact h.old
  fresh := by rw [hv]; exact h.fresh
  inj := by rw [hv]; exact h.inj
  count := by rw [unvisitedCount_congr hv]; exact h.count
  clock_le := h.clock_le
  time_rng := by rw [ht]; exact h.time_rng

theorem RRun.r_left {g : Graph} {s t q : State} {r r2 : Nat → Int} {T T2 : Int}
    (h : RRun g s r T t r2 T2) (hv : q.visited = s.visited) (ht : q.time = s.time) :
    RRun g q r T t r2 T2 where
  old := by rw [hv]; exact h.old
  fresh := by rw [hv]; exact h.fresh
  inj := by rw [hv]; exact h.inj
  count := by rw [unvisitedCount_congr hv]; exact h.count
  clock_le := h.clock_le
  time_rng := by rw [ht]; exact h.time_rng

theorem RInv.r_enter {s : State} {r : Nat → Int} {T : Int} {u : Nat} (h : RInv s r T)
    (hs : s.visited u = false) :
    RInv (enter s u) (Function.update r u (T + 1)) (T + 1) := by
  have hne : ∀ x, s.visited x = true → x ≠ u := by
    intro x hx e; rw [e, hs] at hx; exact absurd hx (by simp)
  have hvis : ∀ x, (enter s u).visited x = true → x = u ∨ s.visited x = true := by
    intro x hx
    by_cases e : x = u
    · exact Or.inl e
    · right
      have hx2 : Function.update s.visited u true x = true := hx
      rw [Function.update_noteq e] at hx2
      exact hx2
  refine ⟨⟨?_, ?_⟩, ?_, ?_, ?_⟩
  · intro x hx
    rcases hvis x hx with e | hx0
    · rw [e, Function.update_same]
    · rw [Function.update_noteq (hne x hx0)]
      have := h.rank.le x hx0
      omega
  · intro x p hx hp
    have hp0 : s.parent x = (p : Int) := hp
    have hpv := h.par_vis x p hp0
    rw [Function.update_noteq (hne p hpv)]
    rcases hvis x hx with e | hx0
    · rw [e, Function.update_same]
      have := h.rank.le p hpv
      omega
    · rw [Function.update_noteq (hne x hx0)]
      exact h.rank.par_lt x p hx0 hp0
  · intro x p hp
    have hpv := h.par_vis x p hp
    show Function.update s.visited u true p = true
    rw [Function.update_noteq (hne p hpv)]; exact hpv
  · intro x hx
    show Function.update s.disc u (wrap32 (s.time + 1)) x = _
    rcases hvis x hx with e | hx0
    · rw [e, Function.update_same, Function.update_same]
      exact wrap32_succ_congr ((wrap32_idem _).symm ▸ (wrap32_idem s.time).symm ▸ h.time_eq)
    · rw [Function.update_noteq (hne x hx0), Function.update_noteq (hne x hx0)]
      exact h.disc_eq x hx0
  · show wrap32 (wrap32 (s.time + 1)) = wrap32 (T + 1)
    rw [wrap32_idem]
    exact wrap32_succ_congr h.time_eq

theorem RRun.run_enter {g : Graph} {s : State} {u : Nat} (hu : u < g.V)
    (hs : s.visited u = false) (r : Nat → Int) (T : Int) :
    RRun g s r T (enter s u) (Function.update r u (T + 1)) (T + 1) := by
  have hne : ∀ x, s.visited x = true → x ≠ u := by
    intro x hx e; rw [e, hs] at hx; exact absurd hx (by simp)
  have hvis : ∀ x, s.visited x = false → (enter s u).visited x = true → x = u := by
    intro x hx0 hx
    by_contra e
    have hx2 : Function.update s.visited u true x = true := hx
    rw [Function.update_noteq e, hx0] at hx2
    exact absurd hx2 (by simp)
  refine ⟨?_, ?_, ?_, ?_, by omega, Or.inr (wrap32_range _)⟩
  · intro x hx
    refine ⟨?_, Function.update_noteq (hne x hx) _ _⟩
    show Function.update s.visited u true x = true
    rw [Function.update_noteq (hne x hx)]; exact hx
  · intro x _ hx0 hx
    rw [hvis x hx0 hx, Function.update_same]
    omega
  · intro x y _ _ hx0 hy0 hx hy _
    rw [hvis x hx0 hx, hvis y hy0 hy]
  · have := unvisitedCount_enter hu hs
    omega

theorem RInv.r_setParent {s : State} {r : Nat → Int} {T : Int} {u v : Nat} (h : RInv s r T)
    (hu : s.visited u = true) (hv : s.visited v = false) : RInv (setParent s v u) r T := by
  have hne : ∀ x, s.visited x = true → x ≠ v := by
    intro x hx e; rw [e, hv] at hx; exact absurd hx (by simp)
  refine ⟨⟨h.rank.le, ?_⟩, ?_, h.disc_eq, h.time_eq⟩
  · intro x p hx hp
    have hx0 : s.visited x = true := hx
    have hp0 : Function.update s.parent v (u : Int) x = (p : Int) := hp
    rw [Function.update_noteq (hne x hx0)] at hp0
    exact h.rank.par_lt x p hx0 hp0
  · intro x p hp
    have hp0 : Function.update s.parent v (u : Int) x = (p : Int) := hp
    show s.visited p = true
    by_cases e : x = v
    · rw [e, Function.update_same] at hp0
      have : u = p := by exact_mod_cast hp0
      rw [← this]; exact hu
    · rw [Function.update_noteq e] at hp0
      exact h.par_vis x p hp0

theorem APLoop_rrun {g : Graph} {call : Nat → State → Option State} {u : Nat}
    (hcall : ∀ v s t r T, v < g.V → s.visited v = false → call v s = some t → RInv s r T →
      ∃ r2 T2, RInv t r2 T2 ∧ RRun g s r T t r2 T2) :
    ∀ (l : List Nat) (c : Nat) (s t : State) (r : Nat → Int) (T : Int),
      (∀ v ∈ l, v < g.V) → s.visited u = true → APLoop call u l c s = some t →
      RInv s r T → ∃ r2 T2, RInv t r2 T2 ∧ RRun g s r T t r2 T2 := by
  intro l
  induction l with
  | nil =>
    intro c s t r T _ _ h hR
    rw [APLoop] at h
    rw [← Option.some.inj h]
    exact ⟨r, T, hR, RRun.r_refl g s r T⟩
  | cons v rest ih =>
    intro c s t r T hl hu h hR
    have hvV : v < g.V := hl v (by simp)
    have hl2 : ∀ w ∈ rest, w < g.V := fun w hw => hl w (by simp [hw])
    rw [APLoop] at h
    by_cases hvis : s.visited v = false
    · rw [if_pos hvis] at h
      cases hc : call v (setParent s v u) with
      | none => rw [hc] at h; exact absurd h (by simp)
      | some s1 =>
        rw [hc] at h
        obtain ⟨r1, T1, hR1, hrun1⟩ :=
          hcall v (setParent s v u) s1 r T hvV hvis hc (hR.r_setParent hu hvis)
        obtain ⟨a1, a2, a3, a4⟩ := afterChild_fields u v (c + 1) s1
        have hR2 : RInv (afterChild u v (c + 1) s1) r1 T1 := hR1.r_fields a1 a4 a2 a3
        have hu2 : (afterChild u v (c + 1) s1).visited u = true := by
          rw [a1]; exact (hrun1.old u hu).1
        obtain ⟨r2, T2, hR3, hrun2⟩ := ih _ _ _ r1 T1 hl2 hu2 h hR2
        refine ⟨r2, T2, hR3, ?_⟩
        have k0 : RRun g s r T s1 r1 T1 :=
          @RRun.r_left g (setParent s v u) s1 s r r1 T T1 hrun1 rfl rfl
        have k1 : RRun g s r T (afterChild u v (c + 1) s1) r1 T1 := k0.r_right a1 a3
        exact k1.r_trans hR2.rank hrun2
    · rw [if_neg hvis] at h
      by_cases hp : (v : Int) ≠ s.parent u
      · rw [if_pos hp] at h
        have hR2 : RInv (backEdge s u v) r T := hR.r_fields rfl rfl rfl rfl
        obtain ⟨r2, T2, hR3, hrun2⟩ := ih c (backEdge s u v) t r T hl2 hu h hR2
        exact ⟨r2, T2, hR3, @RRun.r_left g (backEdge s u v) t s r r2 T T2 hrun2 rfl rfl⟩
      · rw [if_neg hp] at h
        exact ih _ _ _ r T hl2 hu h hR

theorem APUtil_rrun {g : Graph} (hr : g.InRange) :
    ∀ (f u : Nat) (s t : State) (r : Nat → Int) (T : Int), u < g.V → s.visited u = false →
      APUtil g f u s = some t → RInv s r T →
      ∃ r2 T2, RInv t r2 T2 ∧ RRun g s r T t r2 T2 := by
  intro f
  induction f with
  | zero => intro u s t r T _ _ h; rw [APUtil] at h; exact absurd h (by simp)
  | succ f ih =>
    intro u s t r T hu hs h hR
    rw [APUtil] at h
    have hu1 : (enter s u).visited u = true := by
      show Function.update s.visited u true u = true
      rw [Function.update_same]
    obtain ⟨r2, T2, hR2, hrun⟩ :=
      APLoop_rrun (fun v s t r T hv hsv hc hR => ih v s t r T hv hsv hc hR) (g.adj u) 0
        (enter s u) t _ _ (hr u hu) hu1 h (hR.r_enter hs)
    exact ⟨r2, T2, hR2, (RRun.run_enter hu hs r T).r_trans (hR.r_enter hs).rank hrun⟩

theorem APRoots_rrun {g : Graph} (hr : g.InRange) (f : Nat) :
    ∀ (l : List Nat) (s t : State) (r : Nat → Int) (T : Int), (∀ i ∈ l, i < g.V) →
      APRoots g f l s = some t → RInv s r T →
      ∃ r2 T2, RInv t r2 T2 ∧ RRun g s r T t r2 T2 := by
  intro l
  induction l with
  | nil =>
    intro s t r T _ h hR
    rw [APRoots] at h
    rw [← Option.some.inj h]
    exact ⟨r, T, hR, RRun.r_refl g s r T⟩
  | cons i rest ih =>
    intro s t r T hl h hR
    have hl2 : ∀ j ∈ rest, j < g.V := fun j hj => hl j (by simp [hj])
    rw [APRoots] at h
    by_cases hi : s.visited i = false
    · rw [if_pos hi] at h
      cases hc : APUtil g f i s with
      | none => rw [hc] at h; exact absurd h (by simp)
      | some s1 =>
        rw [hc] at h
        obtain ⟨r1, T1, hR1, hrun1⟩ := APUtil_rrun hr f i s s1 r T (hl i (by simp)) hi hc hR
        obtain ⟨r2, T2, hR2, hrun2⟩ := ih s1 t r1 T1 hl2 h hR1
        exact ⟨r2, T2, hR2, hrun1.r_trans hR1.rank hrun2⟩
    · rw [if_neg hi] at h
      exact ih s t r T hl2 h hR

theorem unvisitedCount_initState (g : Graph) (time : Int) (disc0 low0 : Nat → Int) :
    unvisitedCount g (initState time disc0 low0) = g.V := by
  unfold unvisitedCount initState
  simp

theorem unvisitedCount_eq_zero {g : Graph} {s : State} (h : ∀ u, u < g.V → s.visited u = true) :
    unvisitedCount g s = 0 := by
  unfold unvisitedCount
  rw [Finset.card_eq_zero, Finset.filter_eq_empty_iff]
  intro i hi
  rw [h i (Finset.mem_range.1 hi)]
  simp

theorem RInv.r_init (time : Int) (disc0 low0 : Nat → Int) :
    RInv (initState time disc0 low0) (fun _ => time) time := by
  refine ⟨⟨fun _ _ => le_refl _, ?_⟩, ?_, ?_, rfl⟩
  · intro x p hx; simp [initState] at hx
  · intro x p hp
    have : NILL = (p : Int) := hp
    exact absurd this (NILL_ne_cast p)
  · intro x hx; simp [initState] at hx

/-- The order of discovery at the end of a run: with fuel at least `V`, `AP()` on a graph
with in-range adjacency entries, entered with the counter at `time`, ends in a state whose
forest is ordered by a rank `r` that takes every value of `time + 1 .. time + V` at most
once, with `disc[x]` the 32-bit image of `r x` and `time` that of `time + V`. -/
theorem AP_rank {g : Graph} (hr : g.InRange) {f : Nat} (hf : g.V ≤ f)
    (time : Int) (disc0 low0 : Nat → Int) :
    ∃ t r, AP g f time disc0 low0 = some t ∧ RootInv g t ∧
      (∀ x, x < g.V → t.visited x = true) ∧ Rank t r (time + g.V) ∧
      (∀ x, x < g.V → time < r x ∧ r x ≤ time + g.V) ∧
      (∀ x y, x < g.V → y < g.V → r x = r y → x = y) ∧
      (∀ x, x < g.V → t.disc x = wrap32 (r x)) ∧
      wrap32 t.time = wrap32 (time + g.V) ∧
      (t.time = time ∨ (INT_MIN ≤ t.time ∧ t.time ≤ INT_MAX)) := by
  obtain ⟨t, e, hR, hvis⟩ := AP_spec hr hf time disc0 low0
  obtain ⟨r, T, hRI, hrun⟩ :=
    APRoots_rrun hr f (List.range g.V) _ t _ _ (fun i hi => List.mem_range.1 hi) e
      (RInv.r_init time disc0 low0)
  have hT : T = time + g.V := by
    have := hrun.count
    rw [unvisitedCount_initState, unvisitedCount_eq_zero hvis] at this
    omega
  rw [hT] at hRI hrun
  refine ⟨t, r, e, hR, hvis, hRI.rank, ?_, ?_, ?_, hRI.time_eq, hrun.time_rng⟩
  · intro x hx
    exact ⟨hrun.fresh x hx rfl (hvis x hx), hRI.rank.le x (hvis x hx)⟩
  · intro x y hx hy
    exact hrun.inj x y hx hy rfl rfl (hvis x hx) (hvis y hy)
  · intro x hx
    exact hRI.disc_eq x (hvis x hx)

/-- As long as the counter does not pass `INT_MAX` during the run, the discovery times
themselves order the forest at the end, and the counter has advanced by `V`. -/
theorem AP_ord {g : Graph} (hr : g.InRange) {f : Nat} (hf : g.V ≤ f)
    (time : Int) (hlo : INT_MIN ≤ time) (hhi : time + g.V ≤ INT_MAX)
    (disc0 low0 : Nat → Int) :
    ∃ t, AP g f time disc0 low0 = some t ∧ RootInv g t ∧
      (∀ x, x < g.V → t.visited x = true) ∧ Rank t t.disc t.time ∧
      t.time = time + g.V ∧
      (∀ x, x < g.V → time < t.disc x ∧ t.disc x ≤ time + g.V) ∧
      (∀ x y, x < g.V → y < g.V → t.disc x = t.disc y → x = y) := by
  obtain ⟨t, r, e, hR, hvis, hk, hrng, hinj, hdisc, htime, htr⟩ :=
    AP_rank hr hf time disc0 low0
  have hd : ∀ x, x < g.V → t.disc x = r x := by
    intro x hx
    rw [hdisc x hx]
    have := hrng x hx
    exact wrap32_eq_self (by omega) (by omega)
  have hV : (0 : Int) ≤ g.V := Int.ofNat_nonneg _
  have ht : t.time = time + g.V := by
    have h1 : wrap32 t.time = t.time := by
      rcases htr with e1 | e1
      · rw [e1]; exact wrap32_eq_self hlo (by omega)
      · exact wrap32_eq_self e1.1 e1.2
    rw [← h1, htime]
    exact wrap32_eq_self (by omega) hhi
  refine ⟨t, e, hR, hvis, ⟨?_, ?_⟩, ht, ?_, ?_⟩
  · intro x hx
    have hxV := hR.vis_lt x hx
    rw [hd x hxV, ht]
    exact hk.le x hx
  · intro x p hx hp
    have hxV := hR.vis_lt x hx
    have hpV := hR.vis_lt p (hR.parent_vis hx hp).1
    rw [hd x hxV, hd p hpV]
    exact hk.par_lt x p hx hp
  · intro x hx
    rw [hd x hx]; exact hrng x hx
  · intro x y hx hy hxy
    rw [hd x hx, hd y hy] at hxy
    exact hinj x y hx hy hxy

/-- Correctness of `AP()`: with fuel at least `V`, on a well-formed graph, entered with the
counter at a value from which it does not pass `INT_MAX` during the run, the run returns
and flags exactly the cut vertices. -/
theorem AP_correct {g : Graph} (hw : g.WellFormed) {f : Nat} (hf : g.V ≤ f)
    (time : Int) (hlo : INT_MIN ≤ time) (hhi : time + g.V ≤ INT_MAX)
    (disc0 low0 : Nat → Int) :
    ∃ t, AP g f time disc0 low0 = some t ∧ ∀ u, u < g.V → (t.ap u = true ↔ g.IsCut u) := by
  obtain ⟨t, h1, h2, h3, ho, _⟩ := AP_ord hw.1 hf time hlo hhi disc0 low0
  exact ⟨t, h1, fun u hu => h2.ap_iff_cut ho hw.1 hw.2 h3 hu⟩

/-! ### Cut vertices and the number of connected components -/

theorem Graph.reachable_iff_conn (g : Graph) (a b : Fin g.V) :
    g.toSimple.Reachable a b ↔ g.Conn a.val b.val := by
  rw [SimpleGraph.reachable_iff_reflTransGen]
  constructor
  · intro h
    induction h with
    | refl => exact Relation.ReflTransGen.refl
    | @tail x y _ hxy ih =>
      exact Relation.ReflTransGen.tail ih ⟨x.isLt, y.isLt, hxy.2⟩
  · intro h
    have key : ∀ y, g.Conn a.val y → ∀ hy : y < g.V,
        Relation.ReflTransGen g.toSimple.Adj a ⟨y, hy⟩ := by
      intro y hy
      induction hy with
      | refl => intro _; exact Relation.ReflTransGen.refl
      | @tail x y _ hxy ih =>
        intro hy
        have h1 := ih hxy.1
        by_cases e : x = y
        · subst e; exact h1
        · refine Relation.ReflTransGen.tail h1 ⟨?_, hxy.2.2⟩
          intro e2; exact e (Fin.mk.inj e2)
    exact key b.val h b.isLt

theorem Graph.reachable_remove_iff (g : Graph) (u : Nat)
    (a b : {x : Fin g.V | x.val ≠ u}) :
    (g.removeVertex u).Reachable a b ↔ g.ConnAvoid u a.val.val b.val.val := by
  rw [SimpleGraph.reachable_iff_reflTransGen]
  constructor
  · intro h
    induction h with
    | refl => exact Relation.ReflTransGen.refl
    | @tail x y _ hxy ih =>
      have hadj : g.toSimple.Adj x.val y.val := hxy
      exact Relation.ReflTransGen.tail ih ⟨⟨x.val.isLt, y.val.isLt, hadj.2⟩, x.2, y.2⟩
  · intro h
    have key : ∀ y, g.ConnAvoid u a.val.val y → ∀ (hy : y < g.V) (hyu : y ≠ u),
        Relation.ReflTransGen (g.removeVertex u).Adj a ⟨⟨y, hy⟩, hyu⟩ := by
      intro y hy
      induction hy with
      | refl => intro _ _; exact Relation.ReflTransGen.refl
      | @tail x y _ hxy ih =>
        intro hy hyu
        have h1 := ih hxy.1.1 hxy.2.1
        by_cases e : x = y
        · subst e; exact h1
        · refine Relation.ReflTransGen.tail h1 ?_
          show g.toSimple.Adj ⟨x, _⟩ ⟨y, _⟩
          exact ⟨fun e2 => e (Fin.mk.inj e2), hxy.1.2.2⟩
    exact key b.val.val h b.val.isLt b.2

/-- A path either avoids `u` or leads to `u`. -/
theorem Graph.conn_avoid_or {g : Graph} {u a b : Nat} (hab : g.Conn a b) :
    g.ConnAvoid u a b ∨ g.Conn a u := by
  induction hab with
  | refl => exact Or.inl Relation.ReflTransGen.refl
  | @tail m b hm hedge ih =>
    rcases ih with h1 | h1
    · by_cases hb : b = u
      · right; rw [← hb]; exact Relation.ReflTransGen.tail hm hedge
      · by_cases hmu : m = u
        · right; rw [← hmu]; exact hm
        · exact Or.inl (h1.avoid_step hedge hmu hb)
    · exact Or.inr h1

theorem Graph.ConnAvoid.conn {g : Graph} {u a b : Nat} (h : g.ConnAvoid u a b) :
    g.Conn a b :=
  Relation.ReflTransGen.mono (fun _ _ hxy => hxy.1) h

/-- Removing `u` increases the number of connected components exactly when `u` separates
two vertices that a path joins. -/
theorem Graph.removalIncreases_iff_isCut (g : Graph) (u : Nat) :
    g.RemovalIncreasesComponents u ↔ g.IsCut u := by
  let S : Set (Fin g.V) := {x : Fin g.V | x.val ≠ u}
  let φ : (g.removeVertex u).ConnectedComponent → g.toSimple.ConnectedComponent :=
    SimpleGraph.ConnectedComponent.map (SimpleGraph.Embedding.induce S).toHom
  have hφ : ∀ a : S, φ ((g.removeVertex u).connectedComponentMk a) =
      g.toSimple.connectedComponentMk a.val := fun a => rfl
  constructor
  · intro hlt
    have hninj : ¬ Function.Injective φ := by
      intro hinj
      have := Nat.card_le_card_of_injective φ hinj
      have hlt2 : Nat.card g.toSimple.ConnectedComponent <
          Nat.card (g.removeVertex u).ConnectedComponent := hlt
      omega
    obtain ⟨x, y, hxy, hne⟩ := Function.not_injective_iff.1 hninj
    induction x using SimpleGraph.ConnectedComponent.ind with | h a =>
    induction y using SimpleGraph.ConnectedComponent.ind with | h b =>
    rw [hφ, hφ, SimpleGraph.ConnectedComponent.eq, Graph.reachable_iff_conn] at hxy
    refine ⟨a.val.val, b.val.val, a.val.isLt, b.val.isLt, a.2, b.2, hxy, ?_⟩
    intro hc
    apply hne
    rw [SimpleGraph.ConnectedComponent.eq, Graph.reachable_remove_iff]
    exact hc
  · rintro ⟨a, b, ha, hb, hau, hbu, hconn, hnot⟩
    have hninj : ¬ Function.Injective φ := by
      intro hinj
      have : (g.removeVertex u).connectedComponentMk ⟨⟨a, ha⟩, hau⟩ =
          (g.removeVertex u).connectedComponentMk ⟨⟨b, hb⟩, hbu⟩ := by
        apply hinj
        rw [hφ, hφ, SimpleGraph.ConnectedComponent.eq, Graph.reachable_iff_conn]
        exact hconn
      rw [SimpleGraph.ConnectedComponent.eq, Graph.reachable_remove_iff] at this
      exact hnot this
    have hsurj : Function.Surjective φ := by
      intro c
      induction c using SimpleGraph.ConnectedComponent.ind with | h v =>
      by_cases hv : v.val = u
      · refine ⟨(g.removeVertex u).connectedComponentMk ⟨⟨a, ha⟩, hau⟩, ?_⟩
        rw [hφ, SimpleGraph.ConnectedComponent.eq, Graph.reachable_iff_conn]
        rcases Graph.conn_avoid_or hconn with h1 | h1
        · exact absurd h1 hnot
        · rw [hv]; exact h1
      · exact ⟨(g.removeVertex u).connectedComponentMk ⟨v, hv⟩, hφ _⟩
    by_contra hle
    have hle2 : Nat.card (g.removeVertex u).ConnectedComponent ≤
        Nat.card g.toSimple.ConnectedComponent := not_lt.1 hle
    have hge := Nat.card_le_card_of_surjective φ hsurj
    have hbij : Function.Bijective φ :=
      (Nat.bijective_iff_surjective_and_card φ).2 ⟨hsurj, le_antisymm hle2 hge⟩
    exact hninj hbij.1

/-! ### Graphs built by `addEdge` -/

theorem Graph.mem_addEdge_adj (g : Graph) (a b v w : Nat) :
    w ∈ (g.addEdge a b).adj v ↔ w ∈ g.adj v ∨ (v = a ∧ w = b) ∨ (v = b ∧ w = a) := by
  unfold Graph.addEdge
  by_cases h1 : v = b <;> by_cases h2 : v = a
  · subst h1; subst h2
    simp [Function.update_apply]
  · subst h1
    have : ¬ a = v := fun e => h2 e.symm
    simp [Function.update_apply, h2, this]
  · subst h2
    have : ¬ b = v := fun e => h1 e.symm
    simp [Function.update_apply, h1, this]
  · simp [Function.update_apply, h1, h2]

theorem Graph.foldl_addEdge_V (edges : List (Nat × Nat)) (g : Graph) :
    (edges.foldl (fun g e => g.addEdge e.1 e.2) g).V = g.V := by
  induction edges generalizing g with
  | nil => rfl
  | cons e rest ih => rw [List.foldl_cons, ih]; rfl

theorem Graph.mem_foldl_addEdge_adj (edges : List (Nat × Nat)) (g : Graph) (v w : Nat) :
    w ∈ (edges.foldl (fun g e => g.addEdge e.1 e.2) g).adj v ↔
      w ∈ g.adj v ∨ (v, w) ∈ edges ∨ (w, v) ∈ edges := by
  induction edges generalizing g with
  | nil => simp
  | cons e rest ih =>
    rw [List.foldl_cons, ih, Graph.mem_addEdge_adj]
    obtain ⟨a, b⟩ := e
    simp only [List.mem_cons, Prod.mk.injEq]
    tauto

theorem Graph.build_V (V : Nat) (edges : List (Nat × Nat)) : (Graph.build V edges).V = V :=
  Graph.foldl_addEdge_V edges (Graph.new V)

theorem Graph.mem_build_adj (V : Nat) (edges : List (Nat × Nat)) (v w : Nat) :
    w ∈ (Graph.build V edges).adj v ↔ (v, w) ∈ edges ∨ (w, v) ∈ edges := by
  unfold Graph.build
  rw [Graph.mem_foldl_addEdge_adj]
  simp [Graph.new]

/-- A graph built by in-range `addEdge` calls is well-formed. -/
theorem Graph.build_wellFormed (V : Nat) (edges : List (Nat × Nat))
    (hE : ∀ e ∈ edges, e.1 < V ∧ e.2 < V) : (Graph.build V edges).WellFormed := by
  constructor
  · intro v _ w hw
    rw [Graph.build_V]
    rcases (Graph.mem_build_adj V edges v w).1 hw with h | h
    · exact (hE _ h).2
    · exact (hE _ h).1
  · intro v _ w hw
    rw [Graph.mem_build_adj] at hw ⊢
    exact hw.symm

/-- C1: for every graph built by `Graph(V)` and in-range `addEdge` calls, `AP()` (given
fuel at least `V`, entered with the 32-bit counter at a value `time` from which its `V`
increments do not pass `INT_MAX`, as in the first run of a process where it is `0`, and
with any contents of the uninitialised arrays) returns, and it flags a vertex `u < V` if
and only if removing `u` and its incident edges increases the number of connected
components of the undirected graph. -/
theorem C1_flags_iff_removal_increases_components (V : Nat) (edges : List (Nat × Nat))
    (hE : ∀ e ∈ edges, e.1 < V ∧ e.2 < V) (fuel : Nat) (hf : V ≤ fuel)
    (time : Int) (hlo : INT_MIN ≤ time) (hhi : time + V ≤ INT_MAX)
    (disc0 low0 : Nat → Int) :
    ∃ t, AP (Graph.build V edges) fuel time disc0 low0 = some t ∧
      ∀ u, u < V →
        (t.ap u = true ↔ (Graph.build V edges).RemovalIncreasesComponents u) := by
  have hf2 : (Graph.build V edges).V ≤ fuel := by rw [Graph.build_V]; exact hf
  have hhi2 : time + (Graph.build V edges).V ≤ INT_MAX := by rw [Graph.build_V]; exact hhi
  obtain ⟨t, h1, h2⟩ :=
    AP_correct (Graph.build_wellFormed V edges hE) hf2 time hlo hhi2 disc0 low0
  refine ⟨t, h1, fun u hu => ?_⟩
  rw [Graph.removalIncreases_iff_isCut]
  exact h2 u (by rw [Graph.build_V]; exact hu)

/-! ### More fuel changes nothing -/

theorem APLoop_mono {call call2 : Nat → State → Option State}
    (h : ∀ v s r, call v s = some r → call2 v s = some r) (u : Nat) :
    ∀ (l : List Nat) (c : Nat) (s r : State),
      APLoop call u l c s = some r → APLoop call2 u l c s = some r := by
  intro l
  induction l with
  | nil => intro c s r hr; simpa [APLoop] using hr
  | cons v rest ih =>
    intro c s r hr
    unfold APLoop at hr ⊢
    split_ifs at hr ⊢ with h1 h2
    · cases hc : call v (setParent s v u) with
      | none => simp [hc] at hr
      | some s1 =>
        simp only [hc] at hr
        simp only [h _ _ _ hc]
        exact ih _ _ _ hr
    · exact ih _ _ _ hr
    · exact ih _ _ _ hr

theorem APUtil_succ (g : Graph) : ∀ (f u : Nat) (s r : State),
    APUtil g f u s = some r → APUtil g (f + 1) u s = some r := by
  intro f
  induction f with
  | zero => intro u s r h; simp [APUtil] at h
  | succ f ih =>
    intro u s r h
    rw [APUtil] at h ⊢
    exact APLoop_mono (fun v s r hr => ih v s r hr) u _ _ _ _ h

theorem APUtil_mono (g : Graph) {f f2 : Nat} (hf : f ≤ f2) (u : Nat) (s r : State)
    (h : APUtil g f u s = some r) : APUtil g f2 u s = some r := by
  induction hf with
  | refl => exact h
  | step _ ih => exact APUtil_succ g _ u s r ih

theorem APRoots_mono (g : Graph) {f f2 : Nat} (hf : f ≤ f2) :
    ∀ (l : List Nat) (s r : State), APRoots g f l s = some r → APRoots g f2 l s = some r := by
  intro l
  induction l with
  | nil => intro s r h; simpa [APRoots] using h
  | cons i rest ih =>
    intro s r h
    unfold APRoots at h ⊢
    split_ifs at h ⊢ with h1
    · cases hc : APUtil g f i s with
      | none => simp [hc] at h
      | some s1 =>
        simp only [hc] at h
        simp only [APUtil_mono g hf i s s1 hc]
        exact ih _ _ h
    · exact ih _ _ h

theorem AP_mono (g : Graph) {f f2 : Nat} (hf : f ≤ f2) (t : Int) (d l : Nat → Int)
    (r : State) (h : AP g f t d l = some r) : AP g f2 t d l = some r :=
  APRoots_mono g hf _ _ _ h

/-! ### The printed list -/

theorem APout_eq_some {g : Graph} {f : Nat} {t : Int} {d l : Nat → Int} {s : State}
    (h : AP g f t d l = some s) : APout g f t d l = some (flagged g s) := by
  unfold APout; rw [h]; rfl

theorem mem_flagged {g : Graph} {s : State} {u : Nat} :
    u ∈ flagged g s ↔ u < g.V ∧ s.ap u = true := by
  unfold flagged; simp

theorem flagged_congr {g h : Graph} {s r : State} (hV : g.V = h.V)
    (hap : ∀ u, u < g.V → (s.ap u = true ↔ r.ap u = true)) : flagged g s = flagged h r := by
  unfold flagged
  rw [← hV]
  apply List.filter_congr
  intro u hu
  have := hap u (List.mem_range.1 hu)
  cases h1 : s.ap u <;> cases h2 : r.ap u <;> simp_all

/-- The flagged list is determined by a description of the flagged vertices. -/
theorem flagged_eq_of_iff {g : Graph} {s : State} {l : List Nat}
    (hs : l.Sorted (· < ·)) (hl : ∀ u, u ∈ l ↔ u < g.V ∧ s.ap u = true) :
    flagged g s = l := by
  apply List.eq_of_perm_of_sorted _ _ hs
  · rw [List.perm_ext_iff_of_nodup _ hs.nodup]
    · intro u; rw [mem_flagged, hl]
    · exact (List.nodup_range g.V).filter _
  · exact (List.sorted_lt_range g.V).filter _

/-- On a well-formed graph the output of `AP()` depends neither on the fuel beyond `V`, nor on
the initial counter as long as it does not pass `INT_MAX` during the run, nor on the
contents of the uninitialised arrays. -/
theorem APout_indep {g : Graph} (hw : g.WellFormed) (f1 f2 : Nat) (h1 : g.V ≤ f1)
    (h2 : g.V ≤ f2) (t1 t2 : Int) (hlo1 : INT_MIN ≤ t1) (hhi1 : t1 + g.V ≤ INT_MAX)
    (hlo2 : INT_MIN ≤ t2) (hhi2 : t2 + g.V ≤ INT_MAX) (d1 l1 d2 l2 : Nat → Int) :
    ∃ r, APout g f1 t1 d1 l1 = some r ∧ APout g f2 t2 d2 l2 = some r := by
  obtain ⟨s1, e1, c1⟩ := AP_correct hw h1 t1 hlo1 hhi1 d1 l1
  obtain ⟨s2, e2, c2⟩ := AP_correct hw h2 t2 hlo2 hhi2 d2 l2
  refine ⟨flagged g s1, APout_eq_some e1, ?_⟩
  rw [APout_eq_some e2]
  congr 1
  exact flagged_congr rfl (fun u hu => by rw [c2 u hu, c1 u hu])

theorem g1_wellFormed : g1.WellFormed := Graph.build_wellFormed _ _ (by decide)

theorem g3_wellFormed : g3.WellFormed := Graph.build_wellFormed _ _ (by decide)

/-- C4: on the first graph of the driver (`Graph(5)` with the edges (1,0), (0,2), (2,1),
(0,3), (3,4) added in that order) `AP()` returns and prints exactly the vertices 0 and 3,
whatever the uninitialised arrays hold, when entered with the 32-bit counter at a value
`time` from which its five increments do not pass `INT_MAX` (in the driver it is `0`). -/
theorem C4_first_graph_flags_0_3 (fuel : Nat) (hf : 5 ≤ fuel) (time : Int)
    (hlo : INT_MIN ≤ time) (hhi : time + 5 ≤ INT_MAX) (disc0 low0 : Nat → Int) :
    APout (Graph.build 5 [(1, 0), (0, 2), (2, 1), (0, 3), (3, 4)]) fuel time disc0 low0
      = some [0, 3] := by
  obtain ⟨r, e1, e2⟩ := APout_indep g1_wellFormed fuel 5 hf (le_refl _)
    time 0 hlo hhi (by decide) (by decide) disc0 low0 (fun _ => 0) (fun _ => 0)
  have e3 : APout g1 5 0 (fun _ => 0) (fun _ => 0) = some [0, 3] := by decide
  rw [e3] at e2
  rw [← e2] at e1
  exact e1

/-- The run of the driver: the first call of `AP()` in the process, the counter at `0`. -/
theorem C4_witness :
    5 ≤ 5 ∧ INT_MIN ≤ 0 ∧ (0 : Int) + 5 ≤ INT_MAX ∧
    APout (Graph.build 5 [(1, 0), (0, 2), (2, 1), (0, 3), (3, 4)]) 5 0 (fun _ => 0)
      (fun _ => 0) = some [0, 3] :=
  ⟨by decide, by decide, by decide,
    C4_first_graph_flags_0_3 5 (by decide) 0 (by decide) (by decide) (fun _ => 0)
      (fun _ => 0)⟩

/-- C5: on the third graph of the driver (`Graph(7)` with the edges (0,1), (1,2), (2,0),
(1,3), (1,4), (1,6), (3,5), (4,5) added in that order) `AP()` returns with `ap[1]` set and
`ap[0]` not set, when entered with the 32-bit counter at a value `time` from which its
seven increments do not pass `INT_MAX` (in the driver it is `9`, left by the two runs
before). -/
theorem C5_third_graph_flags_1_not_0 (fuel : Nat) (hf : 7 ≤ fuel) (time : Int)
    (hlo : INT_MIN ≤ time) (hhi : time + 7 ≤ INT_MAX) (disc0 low0 : Nat → Int) :
    ∃ s, AP (Graph.build 7 [(0, 1), (1, 2), (2, 0), (1, 3), (1, 4), (1, 6), (3, 5), (4, 5)])
        fuel time disc0 low0 = some s ∧ s.ap 1 = true ∧ s.ap 0 = false := by
  have hf7 : g3.V ≤ fuel := hf
  obtain ⟨s, e, _⟩ := AP_correct g3_wellFormed hf7 time hlo hhi disc0 low0
  obtain ⟨r, e1, e2⟩ := APout_indep g3_wellFormed fuel 7 hf (le_refl _)
    time 0 hlo hhi (by decide) (by decide) disc0 low0 (fun _ => 0) (fun _ => 0)
  have e3 : APout g3 7 0 (fun _ => 0) (fun _ => 0) = some [1] := by decide
  rw [e3] at e2
  rw [← e2, APout_eq_some e] at e1
  have hfl : flagged g3 s = [1] := Option.some.inj e1
  refine ⟨s, e, ?_, ?_⟩
  · have : 1 ∈ flagged g3 s := by rw [hfl]; simp
    exact (mem_flagged.1 this).2
  · have h0 : 0 ∉ flagged g3 s := by rw [hfl]; simp
    cases h : s.ap 0 with
    | false => rfl
    | true => exact absurd (mem_flagged.2 ⟨by decide, h⟩) h0

/-- The run of the driver: the third call of `AP()` in the process, the counter at `9`. -/
theorem C5_witness :
    7 ≤ 7 ∧ INT_MIN ≤ 9 ∧ (9 : Int) + 7 ≤ INT_MAX ∧
    ∃ s, AP (Graph.build 7 [(0, 1), (1, 2), (2, 0), (1, 3), (1, 4), (1, 6), (3, 5),
      (4, 5)]) 7 9 (fun _ => 0) (fun _ => 0) = some s ∧ s.ap 1 = true ∧ s.ap 0 = false :=
  ⟨by decide, by decide, by decide,
    C5_third_graph_flags_1_not_0 7 (by decide) 9 (by decide) (by decide) (fun _ => 0)
      (fun _ => 0)⟩

/-! ### Disjoint unions -/

theorem Graph.disjointUnion_adj_left (a b : Graph) {v : Nat} (hv : v < a.V) :
    (a.disjointUnion b).adj v = a.adj v := by
  simp [Graph.disjointUnion, hv]

theorem Graph.disjointUnion_adj_right (a b : Graph) (v : Nat) :
    (a.disjointUnion b).adj (v + a.V) = (b.adj v).map (· + a.V) := by
  simp [Graph.disjointUnion]

/-! ### Simulation between runs -/

theorem OptRel.imp {P Q : State → State → Prop} (h : ∀ a b, P a b → Q a b)
    {x y : Option State} (hxy : OptRel P x y) : OptRel Q x y := by
  cases x <;> cases y <;> simp only [OptRel] at hxy ⊢
  exact h _ _ hxy

theorem Outside.out_refl (D : Nat → Prop) (f : Nat → Nat) (s : State) : Outside D f s s :=
  fun _ _ => ⟨rfl, rfl, rfl, rfl, rfl⟩

theorem Outside.comp {D : Nat → Prop} {f : Nat → Nat} {a b c : State}
    (h1 : Outside D f a b) (h2 : Outside D f b c) : Outside D f a c := by
  intro x hx
  obtain ⟨a1, a2, a3, a4, a5⟩ := h1 x hx
  obtain ⟨b1, b2, b3, b4, b5⟩ := h2 x hx
  exact ⟨b1.trans a1, b2.trans a2, b3.trans a3, b4.trans a4, b5.trans a5⟩

theorem Outside.out_enter {D : Nat → Prop} {f : Nat → Nat} (s : State) {u : Nat} (hu : D u) :
    Outside D f s (enter s (f u)) := by
  intro x hx
  have : x ≠ f u := hx u hu
  simp [ArticulationPoints.enter, Function.update_apply, this]

theorem Outside.out_setParent {D : Nat → Prop} {f : Nat → Nat} (s : State) {v : Nat} (hv : D v)
    (u : Nat) : Outside D f s (setParent s (f v) u) := by
  intro x hx
  have : x ≠ f v := hx v hv
  simp [ArticulationPoints.setParent, Function.update_apply, this]

theorem Outside.out_backEdge {D : Nat → Prop} {f : Nat → Nat} (s : State) {u : Nat} (hu : D u)
    (v : Nat) : Outside D f s (backEdge s (f u) v) := by
  intro x hx
  have : x ≠ f u := hx u hu
  simp [ArticulationPoints.backEdge, Function.update_apply, this]

theorem Outside.out_afterChild {D : Nat → Prop} {f : Nat → Nat} (s : State) {u : Nat} (hu : D u)
    {v : Nat} (c : Nat) (hvu : v ≠ f u) : Outside D f s (afterChild (f u) v c s) := by
  intro x hx
  have hxu : x ≠ f u := hx u hu
  obtain ⟨h1, h2, h3, _, h5, _, h7, _⟩ := afterChild_spec (f u) v c s hvu
  exact ⟨by rw [h1], by rw [h2], h5 x hxu, by rw [h3], h7 x hxu⟩

theorem Sim.parent_nill_iff {D : Nat → Prop} {f : Nat → Nat} {sg sh : State}
    (h : Sim D f sg sh) {u : Nat} (hu : D u) :
    sg.parent (f u) = NILL ↔ sh.parent u = NILL := by
  rcases h.par u hu with ⟨h1, h2⟩ | ⟨p, _, h1, h2⟩
  · simp [h1, h2]
  · rw [h1, h2]
    constructor
    · intro e; exact absurd e (cast_ne_NILL _)
    · intro e; exact absurd e (cast_ne_NILL _)

theorem Sim.parent_eq_iff {D : Nat → Prop} {f : Nat → Nat} {sg sh : State}
    (hinj : ∀ a b, D a → D b → f a = f b → a = b)
    (h : Sim D f sg sh) {u v : Nat} (hu : D u) (hv : D v) :
    (f v : Int) = sg.parent (f u) ↔ (v : Int) = sh.parent u := by
  rcases h.par u hu with ⟨h1, h2⟩ | ⟨p, hp, h1, h2⟩
  · rw [h1, h2]
    constructor
    · intro e; exact absurd e (cast_ne_NILL _)
    · intro e; exact absurd e (cast_ne_NILL _)
  · rw [h1, h2]
    constructor
    · intro e
      have e2 : f v = f p := by exact_mod_cast e
      rw [hinj v p hv hp e2]
    · intro e
      have e2 : v = p := by exact_mod_cast e
      rw [e2]

theorem Sim.sim_enter {D : Nat → Prop} {f : Nat → Nat} {sg sh : State}
    (hinj : ∀ a b, D a → D b → f a = f b → a = b)
    (h : Sim D f sg sh) {u : Nat} (hu : D u) :
    Sim D f (enter sg (f u)) (enter sh u) := by
  have hne : ∀ v, D v → v ≠ u → f v ≠ f u := fun v hv hvu e => hvu (hinj v u hv hu e)
  refine ⟨?_, ?_, ?_, ?_, ?_⟩
  · simp only [ArticulationPoints.enter]
    rw [h.time]
  · intro v hv
    by_cases e : v = u
    · subst e; simp [ArticulationPoints.enter]
    · simp [ArticulationPoints.enter, Function.update_apply, e, hne v hv e, h.vis v hv]
  · intro v hv; exact h.ap v hv
  · intro v hv; exact h.par v hv
  · intro v hv hvis
    by_cases e : v = u
    · subst e
      simp only [ArticulationPoints.enter, Function.update_same]
      rw [h.time]
      constructor <;> omega
    · have hvis0 : sh.visited v = true := by
        simpa [ArticulationPoints.enter, Function.update_apply, e] using hvis
      simp only [ArticulationPoints.enter, Function.update_apply, e, hne v hv e, if_false]
      exact h.num v hv hvis0

theorem Sim.sim_setParent {D : Nat → Prop} {f : Nat → Nat} {sg sh : State}
    (hinj : ∀ a b, D a → D b → f a = f b → a = b)
    (h : Sim D f sg sh) {u v : Nat} (hu : D u) (hv : D v) :
    Sim D f (setParent sg (f v) (f u)) (setParent sh v u) := by
  have hne : ∀ w, D w → w ≠ v → f w ≠ f v := fun w hw hwv e => hwv (hinj w v hw hv e)
  refine ⟨h.time, h.vis, h.ap, ?_, h.num⟩
  intro w hw
  by_cases e : w = v
  · subst e
    right
    exact ⟨u, hu, by simp [ArticulationPoints.setParent],
      by simp [ArticulationPoints.setParent]⟩
  · simp only [ArticulationPoints.setParent, Function.update_apply, e, hne w hw e, if_false]
    exact h.par w hw

theorem Sim.sim_backEdge {D : Nat → Prop} {f : Nat → Nat} {sg sh : State}
    (hinj : ∀ a b, D a → D b → f a = f b → a = b)
    (h : Sim D f sg sh) {u v : Nat} (hu : D u) (hv : D v)
    (huv : sh.visited u = true) (hvv : sh.visited v = true) :
    Sim D f (backEdge sg (f u) (f v)) (backEdge sh u v) := by
  have hne : ∀ w, D w → w ≠ u → f w ≠ f u := fun w hw hwu e => hwu (hinj w u hw hu e)
  refine ⟨h.time, h.vis, h.ap, h.par, ?_⟩
  intro w hw hwv
  have hwv0 : sh.visited w = true := hwv
  by_cases e : w = u
  · subst e
    simp only [ArticulationPoints.backEdge, Function.update_same]
    have h1 := h.num w hw huv
    have h2 := h.num v hv hvv
    refine ⟨h1.1, ?_⟩
    rw [h1.2, h2.1]
  · simp only [ArticulationPoints.backEdge, Function.update_apply, e, hne w hw e, if_false]
    exact h.num w hw hwv0

theorem Sim.sim_afterChild {D : Nat → Prop} {f : Nat → Nat} {tg th : State}
    (hinj : ∀ a b, D a → D b → f a = f b → a = b)
    (h : Sim D f tg th) {u v : Nat} (hu : D u) (hv : D v) (hvu : v ≠ u)
    (huv : th.visited u = true) (hvv : th.visited v = true) (c : Nat) :
    Sim D f (afterChild (f u) (f v) c tg) (afterChild u v c th) := by
  have hne : ∀ w, D w → w ≠ u → f w ≠ f u := fun w hw hwu e => hwu (hinj w u hw hu e)
  obtain ⟨g1, g2, g3, g4, g5, g6, g7, g8⟩ :=
    afterChild_spec (f u) (f v) c tg (hne v hv hvu)
  obtain ⟨h1, h2, h3, h4, h5, h6, h7, h8⟩ := afterChild_spec u v c th hvu
  have nu := h.num u hu huv
  have nv := h.num v hv hvv
  refine ⟨?_, ?_, ?_, ?_, ?_⟩
  · rw [g4, h4]; exact h.time
  · intro w hw; rw [g1, h1]; exact h.vis w hw
  · intro w hw
    by_cases e : w = u
    · subst e
      have key : (ArticulationPoints.afterChild (f w) (f v) c tg).ap (f w) = true ↔
          (ArticulationPoints.afterChild w v c th).ap w = true := by
        have pn := h.parent_nill_iff hu
        rw [g8, h8, h.ap w hu, nv.2, nu.1]
        constructor
        · rintro (a | ⟨a1, a2⟩ | ⟨a1, a2⟩)
          · exact Or.inl a
          · exact Or.inr (Or.inl ⟨pn.1 a1, a2⟩)
          · exact Or.inr (Or.inr ⟨fun e => a1 (pn.2 e), by omega⟩)
        · rintro (a | ⟨a1, a2⟩ | ⟨a1, a2⟩)
          · exact Or.inl a
          · exact Or.inr (Or.inl ⟨pn.2 a1, a2⟩)
          · exact Or.inr (Or.inr ⟨fun e => a1 (pn.1 e), by omega⟩)
      cases e1 : (ArticulationPoints.afterChild (f w) (f v) c tg).ap (f w) <;>
        cases e2 : (ArticulationPoints.afterChild w v c th).ap w <;> simp_all
    · rw [g7 _ (hne w hw e), h7 _ e]; exact h.ap w hw
  · intro w hw; rw [g3, h3]; exact h.par w hw
  · intro w hw hwv
    rw [h1] at hwv
    rw [g2, h2]
    by_cases e : w = u
    · subst e
      refine ⟨nu.1, ?_⟩
      rw [g6, h6, nu.2, nv.2]
    · rw [g5 _ (hne w hw e), h5 _ e]
      exact h.num w hw hwv

theorem APLoop_sim {D : Nat → Prop} {f : Nat → Nat}
    (hinj : ∀ a b, D a → D b → f a = f b → a = b)
    {callh callg : Nat → State → Option State}
    (IH : ∀ v sg sh, D v → Sim D f sg sh →
      OptRel (fun th tg => SimPost D f sg sh th tg ∧ th.visited v = true)
        (callh v sh) (callg (f v) sg))
    {u : Nat} (hu : D u) :
    ∀ (l : List Nat) (c : Nat) (sg sh : State), (∀ v ∈ l, D v) → Sim D f sg sh →
      sh.visited u = true →
      OptRel (SimPost D f sg sh) (APLoop callh u l c sh)
        (APLoop callg (f u) (l.map f) c sg) := by
  intro l
  induction l with
  | nil =>
    intro c sg sh _ h _
    exact ⟨h, fun _ hw => hw, Outside.out_refl D f sg⟩
  | cons v rest ih =>
    intro c sg sh hl h huv
    have hv : D v := hl v (by simp)
    have hrest : ∀ w ∈ rest, D w := fun w hw => hl w (by simp [hw])
    rw [List.map_cons, APLoop, APLoop]
    by_cases hvis : sh.visited v = false
    · have hvisg : sg.visited (f v) = false := by rw [h.vis v hv]; exact hvis
      have hvu : v ≠ u := by
        intro e; rw [e, huv] at hvis; exact absurd hvis (by simp)
      rw [if_pos hvis, if_pos hvisg]
      have IHv := IH v (setParent sg (f v) (f u)) (setParent sh v u) hv
        (h.sim_setParent hinj hu hv)
      cases e1 : callh v (setParent sh v u) with
      | none =>
        cases e2 : callg (f v) (setParent sg (f v) (f u)) with
        | none => trivial
        | some tg1 => rw [e1, e2] at IHv; exact IHv.elim
      | some th1 =>
        cases e2 : callg (f v) (setParent sg (f v) (f u)) with
        | none => rw [e1, e2] at IHv; exact IHv.elim
        | some tg1 =>
          rw [e1, e2] at IHv
          obtain ⟨⟨hsim, hmono, hout⟩, hvv⟩ := IHv
          have hu1 : th1.visited u = true := hmono u huv
          have hsim2 := hsim.sim_afterChild hinj hu hv hvu hu1 hvv (c + 1)
          have hfvu : f v ≠ f u := fun e => hvu (hinj v u hv hu e)
          have hvis2 : (afterChild u v (c + 1) th1).visited = th1.visited :=
            (afterChild_spec u v (c + 1) th1 hvu).1
          refine OptRel.imp ?_ (ih (c + 1) _ _ hrest hsim2 (by rw [hvis2]; exact hu1))
          rintro a b ⟨k1, k2, k3⟩
          refine ⟨k1, fun w hw => k2 w (by rw [hvis2]; exact hmono w hw), ?_⟩
          exact (((Outside.out_setParent sg hv (f u)).comp hout).comp
            (Outside.out_afterChild tg1 hu (c + 1) hfvu)).comp k3
    · have hvt : sh.visited v = true := by
        cases hh : sh.visited v with
        | true => rfl
        | false => exact absurd hh hvis
      have hvisg : ¬ sg.visited (f v) = false := by rw [h.vis v hv]; exact hvis
      rw [if_neg hvis, if_neg hvisg]
      have hpar := h.parent_eq_iff hinj hu hv
      by_cases hp : (v : Int) ≠ sh.parent u
      · have hpg : (f v : Int) ≠ sg.parent (f u) := fun e => hp (hpar.1 e)
        rw [if_pos hp, if_pos hpg]
        refine OptRel.imp ?_ (ih c _ _ hrest (h.sim_backEdge hinj hu hv huv hvt) huv)
        rintro a b ⟨k1, k2, k3⟩
        exact ⟨k1, k2, (Outside.out_backEdge sg hu (f v)).comp k3⟩
      · have hpg : ¬ (f v : Int) ≠ sg.parent (f u) := fun e => e (hpar.2 (not_not.1 hp))
        rw [if_neg hp, if_neg hpg]
        exact ih c sg sh hrest h huv

/-- Runs of `APUtil` from simulating states on corresponding vertices simulate each other. -/
theorem APUtil_sim {g h : Graph} {D : Nat → Prop} {f : Nat → Nat}
    (hinj : ∀ a b, D a → D b → f a = f b → a = b)
    (hadj : ∀ v, D v → g.adj (f v) = (h.adj v).map f)
    (hD : ∀ v, D v → ∀ w ∈ h.adj v, D w) :
    ∀ (fuel u : Nat) (sg sh : State), D u → Sim D f sg sh →
      OptRel (fun th tg => SimPost D f sg sh th tg ∧ th.visited u = true)
        (APUtil h fuel u sh) (APUtil g fuel (f u) sg) := by
  intro fuel
  induction fuel with
  | zero => intro u sg sh _ _; trivial
  | succ fuel ih =>
    intro u sg sh hu hsim
    rw [APUtil, APUtil, hadj u hu]
    have hvu : (enter sh u).visited u = true := by simp [enter]
    refine OptRel.imp ?_
      (APLoop_sim hinj ih hu (h.adj u) 0 _ _ (hD u hu) (hsim.sim_enter hinj hu) hvu)
    rintro a b ⟨k1, k2, k3⟩
    refine ⟨⟨k1, fun w hw => k2 w ?_, (Outside.out_enter sg hu).comp k3⟩, k2 u hvu⟩
    by_cases e : w = u
    · rw [e]; exact hvu
    · simp [enter, Function.update_apply, e, hw]

theorem APRoots_sim {g h : Graph} {D : Nat → Prop} {f : Nat → Nat}
    (hinj : ∀ a b, D a → D b → f a = f b → a = b)
    (hadj : ∀ v, D v → g.adj (f v) = (h.adj v).map f)
    (hD : ∀ v, D v → ∀ w ∈ h.adj v, D w) (fuel : Nat) :
    ∀ (l : List Nat) (sg sh : State), (∀ i ∈ l, D i) → Sim D f sg sh →
      OptRel (SimPost D f sg sh) (APRoots h fuel l sh) (APRoots g fuel (l.map f) sg) := by
  intro l
  induction l with
  | nil => intro sg sh _ hsim; exact ⟨hsim, fun _ hw => hw, Outside.out_refl D f sg⟩
  | cons i rest ih =>
    intro sg sh hl hsim
    have hi : D i := hl i (by simp)
    have hrest : ∀ w ∈ rest, D w := fun w hw => hl w (by simp [hw])
    rw [List.map_cons, APRoots, APRoots]
    by_cases hvis : sh.visited i = false
    · have hvisg : sg.visited (f i) = false := by rw [hsim.vis i hi]; exact hvis
      rw [if_pos hvis, if_pos hvisg]
      have key := APUtil_sim hinj hadj hD fuel i sg sh hi hsim
      cases e1 : APUtil h fuel i sh with
      | none =>
        cases e2 : APUtil g fuel (f i) sg with
        | none => trivial
        | some tg1 => rw [e1, e2] at key; exact key.elim
      | some th1 =>
        cases e2 : APUtil g fuel (f i) sg with
        | none => rw [e1, e2] at key; exact key.elim
        | some tg1 =>
          rw [e1, e2] at key
          obtain ⟨⟨hsim1, hmono, hout⟩, _⟩ := key
          refine OptRel.imp ?_ (ih tg1 th1 hrest hsim1)
          rintro a b ⟨k1, k2, k3⟩
          exact ⟨k1, fun w hw => k2 w (hmono w hw), hout.comp k3⟩
    · have hvisg : ¬ sg.visited (f i) = false := by rw [hsim.vis i hi]; exact hvis
      rw [if_neg hvis, if_neg hvisg]
      exact ih sg sh hrest hsim

/-- Two runs of `AP()` on the same graph, from the same counter value and any contents of
the uninitialised arrays, return together with the same arrays on the visited vertices
and the same flags. -/
theorem AP_same (g : Graph) (fuel : Nat) (t : Int) (d1 l1 d2 l2 : Nat → Int) :
    OptRel (fun th tg => Sim (fun _ => True) id tg th)
      (AP g fuel t d1 l1) (AP g fuel t d2 l2) := by
  have hsim : Sim (fun _ => True) id (initState t d2 l2) (initState t d1 l1) := by
    refine ⟨rfl, fun _ _ => rfl, fun _ _ => rfl, fun _ _ => Or.inl ⟨rfl, rfl⟩, ?_⟩
    intro v _ hv; simp [initState] at hv
  have key := @APRoots_sim g g (fun _ => True) id
    (fun _ _ _ _ e => e) (fun v _ => (List.map_id _).symm) (fun _ _ _ _ => trivial) fuel
    (List.range g.V) (initState t d2 l2) (initState t d1 l1) (fun _ _ => trivial) hsim
  rw [List.map_id] at key
  exact OptRel.imp (fun a b hab => hab.1) key

/-- The output of `AP()` does not depend on the contents of the uninitialised arrays. -/
theorem APout_same (g : Graph) (fuel : Nat) (t : Int) (d1 l1 d2 l2 : Nat → Int) :
    APout g fuel t d1 l1 = APout g fuel t d2 l2 := by
  have key := AP_same g fuel t d1 l1 d2 l2
  unfold APout
  cases e1 : AP g fuel t d1 l1 with
  | none =>
    cases e2 : AP g fuel t d2 l2 with
    | none => rfl
    | some b => rw [e1, e2] at key; exact key.elim
  | some a =>
    cases e2 : AP g fuel t d2 l2 with
    | none => rw [e1, e2] at key; exact key.elim
    | some b =>
      rw [e1, e2] at key
      simp only [Option.map_some']
      congr 1
      exact flagged_congr rfl (fun u _ => by rw [← key.ap u trivial]; rfl)

theorem APRoots_append (g : Graph) (fuel : Nat) :
    ∀ (l1 l2 : List Nat) (s : State),
      APRoots g fuel (l1 ++ l2) s = (APRoots g fuel l1 s).bind (APRoots g fuel l2) := by
  intro l1
  induction l1 with
  | nil => intro l2 s; rfl
  | cons i rest ih =>
    intro l2 s
    rw [List.cons_append, APRoots, APRoots]
    by_cases hvis : s.visited i = false
    · rw [if_pos hvis, if_pos hvis]
      cases e : APUtil g fuel i s with
      | none => rfl
      | some s1 => exact ih l2 s1
    · rw [if_neg hvis, if_neg hvis]
      exact ih l2 s

/-- The state `AP()` returns does not depend on the fuel, once it is enough. -/
theorem AP_fuel_indep {g : Graph} {f1 f2 : Nat} {t : Int} {d l : Nat → Int} {r1 r2 : State}
    (h1 : AP g f1 t d l = some r1) (h2 : AP g f2 t d l = some r2) : r1 = r2 := by
  have e1 := AP_mono g (Nat.le_max_left f1 f2) t d l r1 h1
  have e2 := AP_mono g (Nat.le_max_right f1 f2) t d l r2 h2
  rw [e1] at e2
  exact Option.some.inj e2

/-- The run of `AP()` on a disjoint union returns, and on each part it sets the flags that
the run on that part alone sets when the first part is entered with the same counter
value and the second with the value the first run leaves. Symmetry of the adjacency lists
is not needed. -/
theorem AP_disjointUnion {a b : Graph} (ha : a.InRange) (hb : b.InRange) {fuel : Nat}
    (hf : a.V + b.V ≤ fuel) (time : Int) (disc0 low0 da la db lb : Nat → Int) :
    ∃ s sa sb, AP (a.disjointUnion b) fuel time disc0 low0 = some s ∧
      AP a fuel time da la = some sa ∧ AP b fuel sa.time db lb = some sb ∧
      (∀ u, u < a.V → s.ap u = sa.ap u) ∧ (∀ u, u < b.V → s.ap (a.V + u) = sb.ap u) := by
  obtain ⟨sa, ea, _⟩ := AP_spec ha (le_trans (Nat.le_add_right _ _) hf) time da la
  obtain ⟨sb, eb, _⟩ := AP_spec hb (le_trans (Nat.le_add_left _ _) hf) sa.time db lb
  have hV : (a.disjointUnion b).V = a.V + b.V := rfl
  have hrange : List.range (a.V + b.V) =
      (List.range a.V).map id ++ (List.range b.V).map (· + a.V) := by
    rw [List.range_add, List.map_id]
    congr 1
    apply List.map_congr_left
    intro x _
    exact Nat.add_comm _ _
  -- the roots below `a.V`
  have simA : Sim (· < a.V) id (initState time disc0 low0) (initState time da la) := by
    refine ⟨rfl, fun _ _ => rfl, fun _ _ => rfl, fun _ _ => Or.inl ⟨rfl, rfl⟩, ?_⟩
    intro v _ hv; simp [initState] at hv
  have keyA := @APRoots_sim (a.disjointUnion b) a (· < a.V) id
    (fun _ _ _ _ e => e)
    (fun v hv => by
      show (a.disjointUnion b).adj v = List.map id (a.adj v)
      rw [Graph.disjointUnion_adj_left a b hv, List.map_id])
    ha fuel (List.range a.V) (initState time disc0 low0) (initState time da la)
    (fun i hi => List.mem_range.1 hi) simA
  have ea2 : APRoots a fuel (List.range a.V) (initState time da la) = some sa := ea
  rw [ea2] at keyA
  cases eA : APRoots (a.disjointUnion b) fuel ((List.range a.V).map id)
      (initState time disc0 low0) with
  | none => rw [eA] at keyA; exact keyA.elim
  | some sA =>
    rw [eA] at keyA
    obtain ⟨hsimA, _, houtA⟩ := keyA
    -- the roots from `a.V` on
    have simB : Sim (· < b.V) (· + a.V) sA (initState sa.time db lb) := by
      have hout : ∀ v, v < b.V → sA.visited (v + a.V) = false ∧
          sA.parent (v + a.V) = NILL ∧ sA.ap (v + a.V) = false := by
        intro v _
        obtain ⟨o1, _, _, o4, o5⟩ := houtA (v + a.V) (fun w hw => by
          have hw2 : w < a.V := hw
          show v + a.V ≠ w
          omega)
        exact ⟨o1, o4, o5⟩
      refine ⟨hsimA.time, fun v hv => (hout v hv).1, fun v hv => (hout v hv).2.2,
        fun v hv => Or.inl ⟨rfl, (hout v hv).2.1⟩, ?_⟩
      intro v _ hv; simp [initState] at hv
    have keyB := @APRoots_sim (a.disjointUnion b) b (· < b.V) (· + a.V)
      (fun x y _ _ e => by have e2 : x + a.V = y + a.V := e; omega)
      (fun v _ => Graph.disjointUnion_adj_right a b v)
      hb fuel (List.range b.V) sA (initState sa.time db lb)
      (fun i hi => List.mem_range.1 hi) simB
    have eb2 : APRoots b fuel (List.range b.V) (initState sa.time db lb) = some sb := eb
    rw [eb2] at keyB
    cases eB : APRoots (a.disjointUnion b) fuel ((List.range b.V).map (· + a.V)) sA with
    | none => rw [eB] at keyB; exact keyB.elim
    | some s =>
      rw [eB] at keyB
      obtain ⟨hsimB, _, houtB⟩ := keyB
      refine ⟨s, sa, sb, ?_, ea, eb, ?_, ?_⟩
      · unfold AP
        rw [hV, hrange, APRoots_append, eA]
        exact eB
      · intro u hu
        obtain ⟨_, _, _, _, o5⟩ := houtB u (fun w _ => by show u ≠ w + a.V; omega)
        rw [o5]
        exact hsimA.ap u hu
      · intro u hu
        rw [Nat.add_comm]
        exact hsimB.ap u hu

/-- C6: on a graph whose adjacency entries are in range, `AP()` returns and never flags a
vertex whose adjacency list is empty; in particular `Graph(V)` without any `addEdge` call
yields the empty output, for every `V`. -/
theorem C6_isolated_vertex_never_flagged :
    (∀ (g : Graph), g.InRange → ∀ (fuel : Nat), g.V ≤ fuel →
      ∀ (time : Int) (disc0 low0 : Nat → Int),
      ∃ s, AP g fuel time disc0 low0 = some s ∧
        ∀ u, u < g.V → g.adj u = [] → s.ap u = false) ∧
    (∀ (V fuel : Nat), V ≤ fuel → ∀ (time : Int) (disc0 low0 : Nat → Int),
      APout (Graph.new V) fuel time disc0 low0 = some []) := by
  have part1 : ∀ (g : Graph), g.InRange → ∀ (fuel : Nat), g.V ≤ fuel →
      ∀ (time : Int) (disc0 low0 : Nat → Int),
      ∃ s, AP g fuel time disc0 low0 = some s ∧
        ∀ u, u < g.V → g.adj u = [] → s.ap u = false := by
    intro g hr fuel hf time disc0 low0
    obtain ⟨s, e, hR, hall⟩ := AP_spec hr hf time disc0 low0
    refine ⟨s, e, fun u hu hadj => ?_⟩
    have nochild : ∀ c, ¬ Child s u c := by
      intro c hc
      have := (hR.parent_vis hc.1 hc.2).2.1
      rw [hadj] at this
      simp at this
    cases h : s.ap u with
    | false => rfl
    | true =>
      rcases (hR.fin u (hall u hu)).ap_iff.1 h with ⟨_, c1, _, _, hc1, _⟩ | ⟨_, c, hc, _⟩
      · exact absurd hc1 (nochild c1)
      · exact absurd hc (nochild c)
  refine ⟨part1, ?_⟩
  intro V fuel hf time disc0 low0
  have hr : (Graph.new V).InRange := by
    intro v _ w hw
    simp [Graph.new] at hw
  obtain ⟨s, e, hs⟩ := part1 (Graph.new V) hr fuel hf time disc0 low0
  rw [APout_eq_some e]
  congr 1
  apply flagged_eq_of_iff List.sorted_nil
  intro u
  constructor
  · intro h; simp at h
  · rintro ⟨hu, hap⟩
    rw [hs u hu rfl] at hap
    exact absurd hap (by simp)

/-- C7: on a well-formed graph, two distinct vertices `a`, `b` whose adjacency lists are
exactly `[b]` and `[a]` (a component of two vertices joined by one edge) are both left
unflagged by `AP()`. -/
theorem C7_single_edge_component_unflagged (g : Graph) (hw : g.WellFormed) (a b : Nat)
    (ha : a < g.V) (hb : b < g.V) (hab : a ≠ b) (hadja : g.adj a = [b])
    (hadjb : g.adj b = [a]) (fuel : Nat) (hf : g.V ≤ fuel) (time : Int)
    (disc0 low0 : Nat → Int) :
    ∃ s, AP g fuel time disc0 low0 = some s ∧ s.ap a = false ∧ s.ap b = false := by
  obtain ⟨s, r, e, hR, hall, hk, _⟩ := AP_rank hw.1 hf time disc0 low0
  have kid : ∀ x y c, g.adj x = [y] → Child s x c → c = y := by
    intro x y c hadj hc
    have := (hR.parent_vis hc.1 hc.2).2.1
    rw [hadj] at this
    simpa using this
  have key : ∀ x y, x < g.V → g.adj x = [y] → s.ap x = false := by
    intro x y hx hadj
    cases h : s.ap x with
    | false => rfl
    | true =>
      exfalso
      rcases (hR.fin x (hall x hx)).ap_iff.1 h with ⟨_, c1, c2, hne, hc1, hc2⟩ | ⟨hp, c, hc, _⟩
      · exact hne ((kid x y c1 hadj hc1).trans (kid x y c2 hadj hc2).symm)
      · have hcy := kid x y c hadj hc
        subst hcy
        rcases hR.par x (hall x hx) with h0 | ⟨p, hpx, hpv, hmem, _⟩
        · exact hp h0
        · have hpc : p = c := by
            have := hw.2 p (hR.vis_lt p hpv) x hmem
            rw [hadj] at this
            simpa using this
          subst hpc
          have h1 := hk.par_lt x p (hall x hx) hpx
          have h2 := hk.par_lt p x hc.1 hc.2
          omega
  exact ⟨s, e, key a b ha hadja, key b a hb hadjb⟩

/-- Two vertices joined by one edge: `Graph(2)` with `addEdge(0, 1)`. -/
theorem C7_witness :
    (Graph.build 2 [(0, 1)]).WellFormed ∧ 0 < (Graph.build 2 [(0, 1)]).V ∧
    1 < (Graph.build 2 [(0, 1)]).V ∧ 0 ≠ 1 ∧ (Graph.build 2 [(0, 1)]).adj 0 = [1] ∧
    (Graph.build 2 [(0, 1)]).adj 1 = [0] ∧ (Graph.build 2 [(0, 1)]).V ≤ 2 ∧
    ∃ s, AP (Graph.build 2 [(0, 1)]) 2 0 (fun _ => 0) (fun _ => 0) = some s ∧
      s.ap 0 = false ∧ s.ap 1 = false :=
  ⟨Graph.build_wellFormed 2 [(0, 1)] (by decide), by decide, by decide, by decide, rfl, rfl,
    by decide,
    C7_single_edge_component_unflagged (Graph.build 2 [(0, 1)])
      (Graph.build_wellFormed 2 [(0, 1)] (by decide)) 0 1 (by decide) (by decide)
      (by decide) rfl rfl 2 (by decide) 0 (fun _ => 0) (fun _ => 0)⟩

/-- On the triangle `Graph(3)` with `addEdge(0, 1)`, `addEdge(1, 2)`, `addEdge(2, 0)` the
output of `AP()` depends on the counter value it is entered with once the counter passes
`INT_MAX`: entered at 0 the run prints nothing, entered at `INT_MAX - 1` it prints vertex 1;
and of two runs in a row, the first entered at `INT_MAX - 4`, the first prints nothing and
the second prints vertex 1. -/
theorem C8_counterexample :
    (Graph.build 3 [(0, 1), (1, 2), (2, 0)]).WellFormed ∧
    APout (Graph.build 3 [(0, 1), (1, 2), (2, 0)]) 3 0 (fun _ => 0) (fun _ => 0) = some [] ∧
    APout (Graph.build 3 [(0, 1), (1, 2), (2, 0)]) 3 2147483646 (fun _ => 0) (fun _ => 0)
      = some [1] ∧
    (∃ s1 s2,
      AP (Graph.build 3 [(0, 1), (1, 2), (2, 0)]) 3 2147483643 (fun _ => 0) (fun _ => 0)
        = some s1 ∧
      AP (Graph.build 3 [(0, 1), (1, 2), (2, 0)]) 3 s1.time (fun _ => 0) (fun _ => 0)
        = some s2 ∧
      flagged (Graph.build 3 [(0, 1), (1, 2), (2, 0)]) s1 = [] ∧
      flagged (Graph.build 3 [(0, 1), (1, 2), (2, 0)]) s2 = [1]) := by
  refine ⟨Graph.build_wellFormed 3 [(0, 1), (1, 2), (2, 0)] (by decide), by decide, by decide,
    ?_⟩
  obtain ⟨s1, e1, _, _, _, ht, _⟩ := AP_ord
    (Graph.build_wellFormed 3 [(0, 1), (1, 2), (2, 0)] (by decide)).1 (le_refl 3)
    2147483643 (by decide) (by decide) (fun _ => 0) (fun _ => 0)
  have ht2 : s1.time = 2147483646 := by rw [ht]; rfl
  have h1 : APout (Graph.build 3 [(0, 1), (1, 2), (2, 0)]) 3 2147483643 (fun _ => 0)
      (fun _ => 0) = some [] := by decide
  have h2 : APout (Graph.build 3 [(0, 1), (1, 2), (2, 0)]) 3 2147483646 (fun _ => 0)
      (fun _ => 0) = some [1] := by decide
  obtain ⟨s2, e2, _⟩ := AP_spec
    (Graph.build_wellFormed 3 [(0, 1), (1, 2), (2, 0)] (by decide)).1 (le_refl 3)
    2147483646 (fun _ => 0) (fun _ => 0)
  refine ⟨s1, s2, e1, ?_, ?_, ?_⟩
  · rw [ht2]; exact e2
  · rw [APout_eq_some e1] at h1; exact Option.some.inj h1
  · rw [APout_eq_some e2] at h2; exact Option.some.inj h2

/-- C8 (as amended): on a well-formed graph, two successive runs of `AP()` print the same
list, the second run starting from the counter value the first one left in `time`,
provided the 32-bit counter does not pass `INT_MAX` during the two runs
(`time + 2 V ≤ INT_MAX`); more generally the printed list is the same for every two initial
counter values from which a run does not pass `INT_MAX` (and every content of the
uninitialised arrays `disc`, `low`). -/
theorem C8_runs_idempotent (g : Graph) (hw : g.WellFormed) (fuel : Nat) (hf : g.V ≤ fuel) :
    (∀ (time : Int), INT_MIN ≤ time → time + 2 * g.V ≤ INT_MAX →
      ∀ (disc0 low0 disc1 low1 : Nat → Int),
      ∃ s1 s2, AP g fuel time disc0 low0 = some s1 ∧
        AP g fuel s1.time disc1 low1 = some s2 ∧ flagged g s1 = flagged g s2) ∧
    (∀ (time1 time2 : Int), INT_MIN ≤ time1 → time1 + g.V ≤ INT_MAX →
      INT_MIN ≤ time2 → time2 + g.V ≤ INT_MAX →
      ∀ (disc1 low1 disc2 low2 : Nat → Int),
      ∃ r, APout g fuel time1 disc1 low1 = some r ∧
        APout g fuel time2 disc2 low2 = some r) := by
  constructor
  · intro time hlo hhi disc0 low0 disc1 low1
    obtain ⟨s1, e1, _, _, _, ht, _⟩ :=
      AP_ord hw.1 hf time hlo (by omega) disc0 low0
    obtain ⟨s2, e2, _⟩ := AP_spec hw.1 hf s1.time disc1 low1
    refine ⟨s1, s2, e1, e2, ?_⟩
    obtain ⟨r, k1, k2⟩ := APout_indep hw fuel fuel hf hf time s1.time hlo (by omega)
      (by rw [ht]; omega) (by rw [ht]; omega) disc0 low0 disc1 low1
    rw [APout_eq_some e1] at k1
    rw [APout_eq_some e2] at k2
    exact Option.some.inj (k1.trans k2.symm)
  · intro time1 time2 hlo1 hhi1 hlo2 hhi2 disc1 low1 disc2 low2
    exact APout_indep hw fuel fuel hf hf time1 time2 hlo1 hhi1 hlo2 hhi2 disc1 low1 disc2 low2

theorem C8_witness :
    (Graph.build 3 [(0, 1), (1, 2)]).WellFormed ∧ (Graph.build 3 [(0, 1), (1, 2)]).V ≤ 3 ∧
    ((∀ (time : Int), INT_MIN ≤ time →
      time + 2 * (Graph.build 3 [(0, 1), (1, 2)]).V ≤ INT_MAX →
      ∀ (disc0 low0 disc1 low1 : Nat → Int),
      ∃ s1 s2, AP (Graph.build 3 [(0, 1), (1, 2)]) 3 time disc0 low0 = some s1 ∧
        AP (Graph.build 3 [(0, 1), (1, 2)]) 3 s1.time disc1 low1 = some s2 ∧
        flagged (Graph.build 3 [(0, 1), (1, 2)]) s1
          = flagged (Graph.build 3 [(0, 1), (1, 2)]) s2) ∧
    (∀ (time1 time2 : Int), INT_MIN ≤ time1 →
      time1 + (Graph.build 3 [(0, 1), (1, 2)]).V ≤ INT_MAX →
      INT_MIN ≤ time2 → time2 + (Graph.build 3 [(0, 1), (1, 2)]).V ≤ INT_MAX →
      ∀ (disc1 low1 disc2 low2 : Nat → Int),
      ∃ r, APout (Graph.build 3 [(0, 1), (1, 2)]) 3 time1 disc1 low1 = some r ∧
        APout (Graph.build 3 [(0, 1), (1, 2)]) 3 time2 disc2 low2 = some r)) :=
  ⟨Graph.build_wellFormed 3 [(0, 1), (1, 2)] (by decide), by decide,
    C8_runs_idempotent (Graph.build 3 [(0, 1), (1, 2)])
      (Graph.build_wellFormed 3 [(0, 1), (1, 2)] (by decide)) 3 (by decide)⟩

theorem Graph.conn_congr {g h : Graph} (hE : ∀ a b, g.Edge a b → h.Edge a b) {a b : Nat}
    (hab : g.Conn a b) : h.Conn a b :=
  Relation.ReflTransGen.mono hE hab

theorem Graph.connAvoid_congr {g h : Graph} (hE : ∀ a b, g.Edge a b → h.Edge a b)
    {u a b : Nat} (hab : g.ConnAvoid u a b) : h.ConnAvoid u a b :=
  Relation.ReflTransGen.mono (fun x y hxy => ⟨hE x y hxy.1, hxy.2⟩) hab

/-- Graphs with the same vertices and the same edges have the same cut vertices. -/
theorem Graph.isCut_congr {g h : Graph} (hV : g.V = h.V)
    (hE : ∀ a b, g.Edge a b ↔ h.Edge a b) (u : Nat) : g.IsCut u ↔ h.IsCut u := by
  constructor
  · rintro ⟨a, b, ha, hb, hau, hbu, hc, hn⟩
    exact ⟨a, b, hV ▸ ha, hV ▸ hb, hau, hbu, Graph.conn_congr (fun x y => (hE x y).1) hc,
      fun hc2 => hn (Graph.connAvoid_congr (fun x y => (hE x y).2) hc2)⟩
  · rintro ⟨a, b, ha, hb, hau, hbu, hc, hn⟩
    exact ⟨a, b, hV ▸ ha, hV ▸ hb, hau, hbu, Graph.conn_congr (fun x y => (hE x y).2) hc,
      fun hc2 => hn (Graph.connAvoid_congr (fun x y => (hE x y).1) hc2)⟩

/-- C9: two well-formed graphs on the same vertex set, the adjacency list of every vertex
in the second being a permutation of its adjacency list in the first, make `AP()` print
the same list, each run entered with a counter value from which the 32-bit counter does
not pass `INT_MAX` (`time + V ≤ INT_MAX`). -/
theorem C9_adjacency_order_independent (g h : Graph) (hg : g.WellFormed) (hh : h.WellFormed)
    (hV : g.V = h.V) (hperm : ∀ v, v < g.V → (h.adj v).Perm (g.adj v))
    (fuel : Nat) (hf : g.V ≤ fuel) (time1 time2 : Int)
    (hlo1 : INT_MIN ≤ time1) (hhi1 : time1 + g.V ≤ INT_MAX)
    (hlo2 : INT_MIN ≤ time2) (hhi2 : time2 + g.V ≤ INT_MAX)
    (disc1 low1 disc2 low2 : Nat → Int) :
    ∃ r, APout g fuel time1 disc1 low1 = some r ∧ APout h fuel time2 disc2 low2 = some r := by
  obtain ⟨s1, e1, c1⟩ := AP_correct hg hf time1 hlo1 hhi1 disc1 low1
  obtain ⟨s2, e2, c2⟩ := AP_correct hh (hV ▸ hf) time2 hlo2 (hV ▸ hhi2) disc2 low2
  refine ⟨flagged g s1, APout_eq_some e1, ?_⟩
  rw [APout_eq_some e2]
  congr 1
  apply flagged_congr hV.symm
  intro u hu
  have hE : ∀ a b, h.Edge a b ↔ g.Edge a b := by
    intro a b
    unfold Graph.Edge
    rw [← hV]
    constructor
    · rintro ⟨ha, hb, hm⟩
      refine ⟨ha, hb, ?_⟩
      rcases hm with hm | hm
      · exact Or.inl ((hperm a ha).mem_iff.1 hm)
      · exact Or.inr ((hperm b hb).mem_iff.1 hm)
    · rintro ⟨ha, hb, hm⟩
      refine ⟨ha, hb, ?_⟩
      rcases hm with hm | hm
      · exact Or.inl ((hperm a ha).mem_iff.2 hm)
      · exact Or.inr ((hperm b hb).mem_iff.2 hm)
  rw [c2 u hu, c1 u (hV ▸ hu)]
  exact Graph.isCut_congr hV.symm hE u

/-! ### Paths and cycles -/

theorem mem_chainEdges (n v w : Nat) :
    (v, w) ∈ (List.range (n - 1)).map (fun i => (i, i + 1)) ↔ v + 1 < n ∧ w = v + 1 := by
  simp only [List.mem_map, List.mem_range, Prod.mk.injEq]
  constructor
  · rintro ⟨i, hi, h1, h2⟩
    omega
  · rintro ⟨h1, h2⟩
    exact ⟨v, by omega, rfl, h2.symm⟩

theorem pathGraph_edge (n a b : Nat) :
    (pathGraph n).Edge a b ↔ a < n ∧ b < n ∧ (b = a + 1 ∨ a = b + 1) := by
  unfold Graph.Edge pathGraph
  rw [Graph.build_V, Graph.mem_build_adj, Graph.mem_build_adj]
  simp only [mem_chainEdges]
  constructor
  · rintro ⟨ha, hb, h⟩; refine ⟨ha, hb, ?_⟩; omega
  · rintro ⟨ha, hb, h⟩; refine ⟨ha, hb, ?_⟩; omega

theorem cycleGraph_edge (n a b : Nat) :
    (cycleGraph n).Edge a b ↔ a < n ∧ b < n ∧
      (b = a + 1 ∨ a = b + 1 ∨ (a = n - 1 ∧ b = 0) ∨ (b = n - 1 ∧ a = 0)) := by
  unfold Graph.Edge cycleGraph
  rw [Graph.build_V, Graph.mem_build_adj, Graph.mem_build_adj]
  simp only [List.mem_append, mem_chainEdges, List.mem_singleton, Prod.mk.injEq]
  constructor
  · rintro ⟨ha, hb, h⟩; refine ⟨ha, hb, ?_⟩; omega
  · rintro ⟨ha, hb, h⟩; refine ⟨ha, hb, ?_⟩; omega

theorem pathGraph_wellFormed (n : Nat) : (pathGraph n).WellFormed := by
  apply Graph.build_wellFormed
  rintro ⟨v, w⟩ h
  rw [mem_chainEdges] at h
  simp only
  omega

theorem cycleGraph_wellFormed (n : Nat) (hn : 0 < n) : (cycleGraph n).WellFormed := by
  apply Graph.build_wellFormed
  rintro ⟨v, w⟩ h
  rw [List.mem_append, mem_chainEdges, List.mem_singleton, Prod.mk.injEq] at h
  simp only
  omega

/-- Consecutive vertices joined by edges form a path avoiding any vertex outside the
interval. -/
theorem Graph.chain_conn {g : Graph} (hchain : ∀ i, i + 1 < g.V → g.Edge i (i + 1))
    (u : Nat) : ∀ (k lo : Nat), lo + k < g.V → (∀ j, lo ≤ j → j ≤ lo + k → j ≠ u) →
      g.ConnAvoid u lo (lo + k) := by
  intro k
  induction k with
  | zero => intro lo _ _; exact Relation.ReflTransGen.refl
  | succ k ih =>
    intro lo hlt hne
    have h1 := ih lo (by omega) (fun j hj1 hj2 => hne j hj1 (by omega))
    exact h1.avoid_step (hchain (lo + k) (by omega)) (hne _ (by omega) (by omega))
      (hne _ (by omega) (by omega))

theorem pathGraph_isCut (n u : Nat) (hu : u < n) :
    (pathGraph n).IsCut u ↔ 1 ≤ u ∧ u + 1 < n := by
  have hV : (pathGraph n).V = n := Graph.build_V _ _
  have hchain : ∀ i, i + 1 < (pathGraph n).V → (pathGraph n).Edge i (i + 1) := by
    intro i hi
    rw [hV] at hi
    exact (pathGraph_edge n i (i + 1)).2 ⟨by omega, hi, Or.inl rfl⟩
  constructor
  · rintro ⟨a, b, ha, hb, hau, hbu, _, hnot⟩
    rw [hV] at ha hb
    by_contra hc
    apply hnot
    by_cases h0 : u = 0
    · have p1 := Graph.chain_conn hchain u (a - 1) 1 (by rw [hV]; omega)
        (fun j hj _ => by omega)
      have p2 := Graph.chain_conn hchain u (b - 1) 1 (by rw [hV]; omega)
        (fun j hj _ => by omega)
      have ea : 1 + (a - 1) = a := by omega
      have eb : 1 + (b - 1) = b := by omega
      rw [ea] at p1
      rw [eb] at p2
      exact p1.avoid_symm.avoid_trans p2
    · have p1 := Graph.chain_conn hchain u a 0 (by rw [hV]; omega)
        (fun j _ hj => by omega)
      have p2 := Graph.chain_conn hchain u b 0 (by rw [hV]; omega)
        (fun j _ hj => by omega)
      rw [Nat.zero_add] at p1 p2
      exact p1.avoid_symm.avoid_trans p2
  · rintro ⟨h1, h2⟩
    refine ⟨u - 1, u + 1, by rw [hV]; omega, by rw [hV]; omega, by omega, by omega, ?_, ?_⟩
    · exact Relation.ReflTransGen.tail
        (Relation.ReflTransGen.single
          ((pathGraph_edge n (u - 1) u).2 ⟨by omega, hu, by omega⟩))
        ((pathGraph_edge n u (u + 1)).2 ⟨hu, h2, Or.inl rfl⟩)
    · intro hc
      have key : ∀ y, (pathGraph n).ConnAvoid u (u - 1) y → y < u := by
        intro y hy
        induction hy with
        | refl => omega
        | @tail x y _ hxy ih =>
          have := (pathGraph_edge n x y).1 hxy.1
          have := hxy.2.2
          omega
      have := key _ hc
      omega

theorem cycleGraph_not_isCut (n u : Nat) : ¬ (cycleGraph n).IsCut u := by
  have hV : (cycleGraph n).V = n := Graph.build_V _ _
  have hchain : ∀ i, i + 1 < (cycleGraph n).V → (cycleGraph n).Edge i (i + 1) := by
    intro i hi
    rw [hV] at hi
    exact (cycleGraph_edge n i (i + 1)).2 ⟨by omega, hi, Or.inl rfl⟩
  rintro ⟨a, b, ha, hb, hau, hbu, _, hnot⟩
  rw [hV] at ha hb
  apply hnot
  by_cases h0 : u = 0
  · have p1 := Graph.chain_conn hchain u (a - 1) 1 (by rw [hV]; omega)
      (fun j hj _ => by omega)
    have p2 := Graph.chain_conn hchain u (b - 1) 1 (by rw [hV]; omega)
      (fun j hj _ => by omega)
    have ea : 1 + (a - 1) = a := by omega
    have eb : 1 + (b - 1) = b := by omega
    rw [ea] at p1
    rw [eb] at p2
    exact p1.avoid_symm.avoid_trans p2
  · have anchor : ∀ x, x < n → x ≠ u → (cycleGraph n).ConnAvoid u x 0 := by
      intro x hx hxu
      by_cases hlt : x < u
      · have p := Graph.chain_conn hchain u x 0 (by rw [hV]; omega) (fun j _ hj => by omega)
        rw [Nat.zero_add] at p
        exact p.avoid_symm
      · have p := Graph.chain_conn hchain u (n - 1 - x) x (by rw [hV]; omega)
          (fun j hj _ => by omega)
        have e : x + (n - 1 - x) = n - 1 := by omega
        rw [e] at p
        refine p.avoid_step ((cycleGraph_edge n (n - 1) 0).2 ⟨by omega, by omega, ?_⟩)
          (by omega) (fun e0 => h0 e0.symm)
        exact Or.inr (Or.inr (Or.inl ⟨rfl, rfl⟩))
    exact (anchor a ha hau).avoid_trans (anchor b hb hbu).avoid_symm

/-- C2: on the path `0 - 1 - ... - (n-1)` with `n ≥ 3`, built by `addEdge(i, i+1)` for
`i = 0..n-2`, `AP()` prints exactly the internal vertices `1, ..., n-2` (neither endpoint);
on the second graph of the driver (`n = 4`) it prints exactly 1 and 2. The run is entered
with the 32-bit counter at a value `time` from which its `n` increments do not pass
`INT_MAX` (`time + n ≤ INT_MAX`; in the driver `time = 5`). -/
theorem C2_path_flags_internal_vertices :
    (∀ (n fuel : Nat), 3 ≤ n → n ≤ fuel →
      ∀ (time : Int), INT_MIN ≤ time → time + n ≤ INT_MAX → ∀ (disc0 low0 : Nat → Int),
      APout (pathGraph n) fuel time disc0 low0 = some (List.range' 1 (n - 2))) ∧
    (∀ (fuel : Nat), 4 ≤ fuel →
      ∀ (time : Int), INT_MIN ≤ time → time + 4 ≤ INT_MAX → ∀ (disc0 low0 : Nat → Int),
      APout (Graph.build 4 [(0, 1), (1, 2), (2, 3)]) fuel time disc0 low0 = some [1, 2]) := by
  have part1 : ∀ (n fuel : Nat), 3 ≤ n → n ≤ fuel →
      ∀ (time : Int), INT_MIN ≤ time → time + n ≤ INT_MAX → ∀ (disc0 low0 : Nat → Int),
      APout (pathGraph n) fuel time disc0 low0 = some (List.range' 1 (n - 2)) := by
    intro n fuel hn hf time hlo hhi disc0 low0
    have hV : (pathGraph n).V = n := Graph.build_V _ _
    have hf2 : (pathGraph n).V ≤ fuel := by rw [hV]; exact hf
    obtain ⟨s, e, hs⟩ :=
      AP_correct (pathGraph_wellFormed n) hf2 time hlo (by rw [hV]; exact hhi) disc0 low0
    rw [APout_eq_some e]
    congr 1
    apply flagged_eq_of_iff (List.pairwise_lt_range' 1 (n - 2))
    intro u
    rw [List.mem_range'_1, hV]
    constructor
    · rintro ⟨h1, h2⟩
      have hu : u < n := by omega
      refine ⟨hu, (hs u (by rw [hV]; exact hu)).2 ((pathGraph_isCut n u hu).2 ?_)⟩
      omega
    · rintro ⟨hu, hap⟩
      have := (pathGraph_isCut n u hu).1 ((hs u (by rw [hV]; exact hu)).1 hap)
      omega
  exact ⟨part1, fun fuel hf time hlo hhi disc0 low0 =>
    part1 4 fuel (by decide) hf time hlo hhi disc0 low0⟩

/-- C3: on the cycle `0 - 1 - ... - (n-1) - 0` with `n ≥ 3`, built by `addEdge(i, i+1)` for
`i = 0..n-2` and `addEdge(n-1, 0)`, `AP()` prints nothing; so it does on the triangle with
edges (0,1), (1,2), (2,0). The run is entered with the 32-bit counter at a value `time`
from which its `n` increments do not pass `INT_MAX` (`time + n ≤ INT_MAX`). -/
theorem C3_cycle_flags_nothing :
    (∀ (n fuel : Nat), 3 ≤ n → n ≤ fuel →
      ∀ (time : Int), INT_MIN ≤ time → time + n ≤ INT_MAX → ∀ (disc0 low0 : Nat → Int),
      APout (cycleGraph n) fuel time disc0 low0 = some []) ∧
    (∀ (fuel : Nat), 3 ≤ fuel →
      ∀ (time : Int), INT_MIN ≤ time → time + 3 ≤ INT_MAX → ∀ (disc0 low0 : Nat → Int),
      APout (Graph.build 3 [(0, 1), (1, 2), (2, 0)]) fuel time disc0 low0 = some []) := by
  have part1 : ∀ (n fuel : Nat), 3 ≤ n → n ≤ fuel →
      ∀ (time : Int), INT_MIN ≤ time → time + n ≤ INT_MAX → ∀ (disc0 low0 : Nat → Int),
      APout (cycleGraph n) fuel time disc0 low0 = some [] := by
    intro n fuel hn hf time hlo hhi disc0 low0
    have hV : (cycleGraph n).V = n := Graph.build_V _ _
    have hf2 : (cycleGraph n).V ≤ fuel := by rw [hV]; exact hf
    obtain ⟨s, e, hs⟩ := AP_correct (cycleGraph_wellFormed n (by omega)) hf2 time hlo
      (by rw [hV]; exact hhi) disc0 low0
    rw [APout_eq_some e]
    congr 1
    apply flagged_eq_of_iff List.sorted_nil
    intro u
    constructor
    · intro h; simp at h
    · rintro ⟨hu, hap⟩
      exact absurd ((hs u hu).1 hap) (cycleGraph_not_isCut n u)
  exact ⟨part1, fun fuel hf time hlo hhi disc0 low0 =>
    part1 3 fuel (by decide) hf time hlo hhi disc0 low0⟩

/-- C10: in the disjoint union of two well-formed graphs `a` (vertices `0..n-1`, `n = a.V`)
and `b` (vertices shifted by `n`), `AP()` flags a vertex `u < n` exactly when `AP()` on `a`
alone flags `u`, and flags `n + u` exactly when `AP()` on `b` alone flags `u`; each of the
three runs is entered with a counter value from which the 32-bit counter does not pass
`INT_MAX` during that run. -/
theorem C10_disjoint_union_independent (a b : Graph) (ha : a.WellFormed) (hb : b.WellFormed)
    (fuel fa fb : Nat) (hf : a.V + b.V ≤ fuel) (hfa : a.V ≤ fa) (hfb : b.V ≤ fb)
    (time ta tb : Int)
    (hlo : INT_MIN ≤ time) (hhi : time + (a.V + b.V : Nat) ≤ INT_MAX)
    (hloa : INT_MIN ≤ ta) (hhia : ta + a.V ≤ INT_MAX)
    (hlob : INT_MIN ≤ tb) (hhib : tb + b.V ≤ INT_MAX)
    (disc0 low0 da la db lb : Nat → Int) :
    ∃ s sa sb, AP (a.disjointUnion b) fuel time disc0 low0 = some s ∧
      AP a fa ta da la = some sa ∧ AP b fb tb db lb = some sb ∧
      (∀ u, u < a.V → (s.ap u = true ↔ sa.ap u = true)) ∧
      (∀ u, u < b.V → (s.ap (a.V + u) = true ↔ sb.ap u = true)) := by
  have hhi2 : time + a.V + b.V ≤ INT_MAX := by push_cast at hhi; omega
  obtain ⟨s, sa0, sb0, e, ea0, eb0, h1, h2⟩ :=
    AP_disjointUnion ha.1 hb.1 hf time disc0 low0 da la db lb
  obtain ⟨sa1, ea1, _, _, _, hta, _⟩ :=
    AP_ord ha.1 (le_trans (Nat.le_add_right _ _) hf) time hlo (by omega) da la
  have e01 : sa1 = sa0 := Option.some.inj (ea1.symm.trans ea0)
  subst e01
  obtain ⟨sa2, ea2, ca0⟩ :=
    AP_correct ha (le_trans (Nat.le_add_right _ _) hf) time hlo (by omega) da la
  have e02 : sa2 = sa1 := Option.some.inj (ea2.symm.trans ea0)
  subst e02
  obtain ⟨sb2, eb2, cb0⟩ :=
    AP_correct hb (le_trans (Nat.le_add_left _ _) hf) sa2.time (by rw [hta]; omega)
      (by rw [hta]; omega) db lb
  have e03 : sb2 = sb0 := Option.some.inj (eb2.symm.trans eb0)
  subst e03
  obtain ⟨sa, ea, ca⟩ := AP_correct ha hfa ta hloa hhia da la
  obtain ⟨sb, eb, cb⟩ := AP_correct hb hfb tb hlob hhib db lb
  refine ⟨s, sa, sb, e, ea, eb, fun u hu => ?_, fun u hu => ?_⟩
  · rw [h1 u hu, ca0 u hu, ca u hu]
  · rw [h2 u hu, cb0 u hu, cb u hu]

/-- On the first graph of the driver the component count behaves as the output says:
removing vertex 0 increases it, removing vertex 1 does not. -/
theorem g1_removal_components :
    g1.RemovalIncreasesComponents 0 ∧ ¬ g1.RemovalIncreasesComponents 1 := by
  obtain ⟨s, e, hs⟩ := AP_correct g1_wellFormed (le_refl g1.V) 0 (by decide) (by decide) (fun _ => 0) (fun _ => 0)
  have hout : APout g1 5 0 (fun _ => 0) (fun _ => 0) = some [0, 3] := by decide
  have e5 : AP g1 5 0 (fun _ => 0) (fun _ => 0) = some s := e
  rw [APout_eq_some e5] at hout
  have hfl : flagged g1 s = [0, 3] := Option.some.inj hout
  rw [Graph.removalIncreases_iff_isCut, Graph.removalIncreases_iff_isCut]
  constructor
  · apply (hs 0 (by decide)).1
    have : 0 ∈ flagged g1 s := by rw [hfl]; simp
    exact (mem_flagged.1 this).2
  · intro h
    have h1 := (hs 1 (by decide)).2 h
    have : 1 ∈ flagged g1 s := mem_flagged.2 ⟨by decide, h1⟩
    rw [hfl] at this
    simp at this

theorem C1_witness :
    (∀ e ∈ [((0 : Nat), (1 : Nat)), (1, 2)], e.1 < 3 ∧ e.2 < 3) ∧ 3 ≤ 3 ∧
    INT_MIN ≤ 0 ∧ (0 : Int) + (3 : Nat) ≤ INT_MAX ∧
    ∃ t, AP (Graph.build 3 [(0, 1), (1, 2)]) 3 0 (fun _ => 0) (fun _ => 0) = some t ∧
      ∀ u, u < 3 →
        (t.ap u = true ↔ (Graph.build 3 [(0, 1), (1, 2)]).RemovalIncreasesComponents u) :=
  ⟨by decide, by decide, by decide, by decide,
    C1_flags_iff_removal_increases_components 3 [(0, 1), (1, 2)] (by decide) 3 (by decide)
      0 (by decide) (by decide) (fun _ => 0) (fun _ => 0)⟩

/-! ### Instances -/

theorem C2_witness :
    3 ≤ 5 ∧ 5 ≤ 5 ∧ INT_MIN ≤ 0 ∧ (0 : Int) + (5 : Nat) ≤ INT_MAX ∧
    APout (pathGraph 5) 5 0 (fun _ => 0) (fun _ => 0) = some (List.range' 1 (5 - 2)) :=
  ⟨by decide, by decide, by decide, by decide,
    C2_path_flags_internal_vertices.1 5 5 (by decide) (by decide) 0 (by decide) (by decide)
      (fun _ => 0) (fun _ => 0)⟩

theorem C3_witness :
    3 ≤ 4 ∧ 4 ≤ 4 ∧ INT_MIN ≤ 0 ∧ (0 : Int) + (4 : Nat) ≤ INT_MAX ∧
    APout (cycleGraph 4) 4 0 (fun _ => 0) (fun _ => 0) = some [] :=
  ⟨by decide, by decide, by decide, by decide,
    C3_cycle_flags_nothing.1 4 4 (by decide) (by decide) 0 (by decide) (by decide)
      (fun _ => 0) (fun _ => 0)⟩

/-- An isolated vertex next to an edge: `Graph(3)` with `addEdge(0, 1)`. -/
theorem C6_witness :
    (Graph.build 3 [(0, 1)]).InRange ∧ (Graph.build 3 [(0, 1)]).V ≤ 3 ∧
    ∃ s, AP (Graph.build 3 [(0, 1)]) 3 0 (fun _ => 0) (fun _ => 0) = some s ∧
      ∀ u, u < (Graph.build 3 [(0, 1)]).V → (Graph.build 3 [(0, 1)]).adj u = [] →
        s.ap u = false :=
  ⟨(Graph.build_wellFormed 3 [(0, 1)] (by decide)).1, by decide,
    C6_isolated_vertex_never_flagged.1 (Graph.build 3 [(0, 1)])
      (Graph.build_wellFormed 3 [(0, 1)] (by decide)).1 3 (by decide) 0 (fun _ => 0)
      (fun _ => 0)⟩

theorem perm_adj_example : ∀ v, v < (Graph.build 3 [(0, 1), (1, 2)]).V →
    ((Graph.build 3 [(1, 2), (0, 1)]).adj v).Perm ((Graph.build 3 [(0, 1), (1, 2)]).adj v) := by
  intro v hv
  have hv3 : v < 3 := hv
  interval_cases v
  · exact List.Perm.refl _
  · exact List.Perm.swap 0 2 []
  · exact List.Perm.refl _

/-- The path `0 - 1 - 2` built in two orders: the adjacency list of vertex 1 is `[0, 2]` in
one and `[2, 0]` in the other. -/
theorem C9_witness :
    (Graph.build 3 [(0, 1), (1, 2)]).WellFormed ∧ (Graph.build 3 [(1, 2), (0, 1)]).WellFormed ∧
    (Graph.build 3 [(0, 1), (1, 2)]).V = (Graph.build 3 [(1, 2), (0, 1)]).V ∧
    (∀ v, v < (Graph.build 3 [(0, 1), (1, 2)]).V →
      ((Graph.build 3 [(1, 2), (0, 1)]).adj v).Perm
        ((Graph.build 3 [(0, 1), (1, 2)]).adj v)) ∧
    (Graph.build 3 [(0, 1), (1, 2)]).V ≤ 3 ∧
    INT_MIN ≤ 0 ∧ (0 : Int) + (Graph.build 3 [(0, 1), (1, 2)]).V ≤ INT_MAX ∧
    INT_MIN ≤ 7 ∧ (7 : Int) + (Graph.build 3 [(0, 1), (1, 2)]).V ≤ INT_MAX ∧
    ∃ r, APout (Graph.build 3 [(0, 1), (1, 2)]) 3 0 (fun _ => 0) (fun _ => 0) = some r ∧
      APout (Graph.build 3 [(1, 2), (0, 1)]) 3 7 (fun _ => 1) (fun _ => 2) = some r :=
  ⟨Graph.build_wellFormed 3 [(0, 1), (1, 2)] (by decide),
    Graph.build_wellFormed 3 [(1, 2), (0, 1)] (by decide), rfl, perm_adj_example, by decide,
    by decide, by decide, by decide, by decide,
    C9_adjacency_order_independent (Graph.build 3 [(0, 1), (1, 2)])
      (Graph.build 3 [(1, 2), (0, 1)])
      (Graph.build_wellFormed 3 [(0, 1), (1, 2)] (by decide))
      (Graph.build_wellFormed 3 [(1, 2), (0, 1)] (by decide)) rfl perm_adj_example
      3 (by decide) 0 7 (by decide) (by decide) (by decide) (by decide)
      (fun _ => 0) (fun _ => 0) (fun _ => 1) (fun _ => 2)⟩

/-- An edge next to a path of three vertices. -/
theorem C10_witness :
    (Graph.build 2 [(0, 1)]).WellFormed ∧ (Graph.build 3 [(0, 1), (1, 2)]).WellFormed ∧
    (Graph.build 2 [(0, 1)]).V + (Graph.build 3 [(0, 1), (1, 2)]).V ≤ 5 ∧
    (Graph.build 2 [(0, 1)]).V ≤ 2 ∧ (Graph.build 3 [(0, 1), (1, 2)]).V ≤ 3 ∧
    INT_MIN ≤ 0 ∧
    (0 : Int) + ((Graph.build 2 [(0, 1)]).V + (Graph.build 3 [(0, 1), (1, 2)]).V : Nat)
      ≤ INT_MAX ∧
    (0 : Int) + (Graph.build 2 [(0, 1)]).V ≤ INT_MAX ∧
    (0 : Int) + (Graph.build 3 [(0, 1), (1, 2)]).V ≤ INT_MAX ∧
    ∃ s sa sb,
      AP ((Graph.build 2 [(0, 1)]).disjointUnion (Graph.build 3 [(0, 1), (1, 2)])) 5 0
        (fun _ => 0) (fun _ => 0) = some s ∧
      AP (Graph.build 2 [(0, 1)]) 2 0 (fun _ => 0) (fun _ => 0) = some sa ∧
      AP (Graph.build 3 [(0, 1), (1, 2)]) 3 0 (fun _ => 0) (fun _ => 0) = some sb ∧
      (∀ u, u < (Graph.build 2 [(0, 1)]).V → (s.ap u = true ↔ sa.ap u = true)) ∧
      (∀ u, u < (Graph.build 3 [(0, 1), (1, 2)]).V →
        (s.ap ((Graph.build 2 [(0, 1)]).V + u) = true ↔ sb.ap u = true)) :=
  ⟨Graph.build_wellFormed 2 [(0, 1)] (by decide),
    Graph.build_wellFormed 3 [(0, 1), (1, 2)] (by decide), by decide, by decide,
    by decide, by decide, by decide, by decide, by decide,
    C10_disjoint_union_independent (Graph.build 2 [(0, 1)]) (Graph.build 3 [(0, 1), (1, 2)])
      (Graph.build_wellFormed 2 [(0, 1)] (by decide))
      (Graph.build_wellFormed 3 [(0, 1), (1, 2)] (by decide)) 5 2 3 (by decide) (by decide)
      (by decide) 0 0 0 (by decide) (by decide) (by decide) (by decide) (by decide)
      (by decide) (fun _ => 0) (fun _ => 0) (fun _ => 0) (fun _ => 0) (fun _ => 0)
      (fun _ => 0)⟩

/-! ### `addEdge` on the adjacency lists -/

/-- The adjacency list of `x` after `addEdge(a, b)`: the old entries in their order, then `b`
if `x = a`, then `a` if `x = b`. -/
theorem Graph.addEdge_adj (g : Graph) (a b x : Nat) :
    (g.addEdge a b).adj x =
      g.adj x ++ (if x = a then [b] else []) ++ (if x = b then [a] else []) := by
  unfold Graph.addEdge
  by_cases h1 : x = b <;> by_cases h2 : x = a
  · subst h1; subst h2
    simp [Function.update_apply]
  · subst h1
    have : ¬ a = x := fun e => h2 e.symm
    simp [Function.update_apply, h2, this]
  · subst h2
    have : ¬ b = x := fun e => h1 e.symm
    simp [Function.update_apply, h1, this]
  · simp [Function.update_apply, h1, h2]

theorem Graph.addEdge_V (g : Graph) (a b : Nat) : (g.addEdge a b).V = g.V := rfl

/-- C14: `addEdge(v, w)` with in-range ids appends `w` at the end of the neighbour sequence of
`v` and then `v` at the end of the neighbour sequence of `w`, keeping the earlier entries in
their order (for `v = w` the one sequence gets `v` twice), and leaves `V` and the neighbour
sequence of every other vertex unchanged. -/
theorem C14_addEdge_appends_and_frames (g : Graph) (v w : Nat) (hv : v < g.V) (hw : w < g.V) :
    (g.addEdge v w).V = g.V ∧
    (∀ x, x ≠ v → x ≠ w → (g.addEdge v w).adj x = g.adj x) ∧
    (v ≠ w → (g.addEdge v w).adj v = g.adj v ++ [w] ∧
      (g.addEdge v w).adj w = g.adj w ++ [v]) ∧
    (v = w → (g.addEdge v w).adj v = g.adj v ++ [w] ++ [v]) := by
  refine ⟨rfl, ?_, ?_, ?_⟩
  · intro x h1 h2
    rw [Graph.addEdge_adj]
    simp [h1, h2]
  · intro hne
    constructor
    · rw [Graph.addEdge_adj]; simp [hne]
    · rw [Graph.addEdge_adj]; simp [Ne.symm hne]
  · intro he
    rw [Graph.addEdge_adj]; simp [he]

theorem C14_witness :
    0 < (Graph.build 3 [(0, 1)]).V ∧ 2 < (Graph.build 3 [(0, 1)]).V ∧
    (((Graph.build 3 [(0, 1)]).addEdge 0 2).V = (Graph.build 3 [(0, 1)]).V ∧
    (∀ x, x ≠ 0 → x ≠ 2 →
      ((Graph.build 3 [(0, 1)]).addEdge 0 2).adj x = (Graph.build 3 [(0, 1)]).adj x) ∧
    (0 ≠ 2 → ((Graph.build 3 [(0, 1)]).addEdge 0 2).adj 0
        = (Graph.build 3 [(0, 1)]).adj 0 ++ [2] ∧
      ((Graph.build 3 [(0, 1)]).addEdge 0 2).adj 2 = (Graph.build 3 [(0, 1)]).adj 2 ++ [0]) ∧
    (0 = 2 → ((Graph.build 3 [(0, 1)]).addEdge 0 2).adj 0
        = (Graph.build 3 [(0, 1)]).adj 0 ++ [2] ++ [0])) :=
  ⟨by decide, by decide,
    C14_addEdge_appends_and_frames (Graph.build 3 [(0, 1)]) 0 2 (by decide) (by decide)⟩

/-- Every `addEdge` keeps the occurrence counts symmetric. -/
theorem Graph.addEdge_count_symm (g : Graph) (a b : Nat)
    (h : ∀ v w, v ≠ w → (g.adj v).count w = (g.adj w).count v) :
    ∀ v w, v ≠ w → ((g.addEdge a b).adj v).count w = ((g.addEdge a b).adj w).count v := by
  intro v w hvw
  have hwv : w ≠ v := Ne.symm hvw
  rw [Graph.addEdge_adj, Graph.addEdge_adj]
  simp only [List.count_append, h v w hvw]
  by_cases h1 : v = a <;> by_cases h2 : v = b <;> by_cases h3 : w = a <;> by_cases h4 : w = b <;>
    simp_all [List.count_cons, List.count_nil]

theorem Graph.foldl_addEdge_count_symm (edges : List (Nat × Nat)) :
    ∀ (g : Graph), (∀ v w, v ≠ w → (g.adj v).count w = (g.adj w).count v) →
      ∀ v w, v ≠ w →
        ((edges.foldl (fun g e => g.addEdge e.1 e.2) g).adj v).count w =
          ((edges.foldl (fun g e => g.addEdge e.1 e.2) g).adj w).count v := by
  induction edges with
  | nil => intro g h; exact h
  | cons e rest ih =>
    intro g h
    rw [List.foldl_cons]
    exact ih _ (Graph.addEdge_count_symm g e.1 e.2 h)

/-- C13: in a graph obtained from `Graph(V)` by in-range `addEdge` calls, for distinct
vertices `v`, `w` the number of occurrences of `w` in `adj[v]` equals the number of
occurrences of `v` in `adj[w]`; so `w` is a neighbour of `v` iff `v` is a neighbour of `w`. -/
theorem C13_edge_symmetry_invariant (V : Nat) (edges : List (Nat × Nat))
    (hE : ∀ e ∈ edges, e.1 < V ∧ e.2 < V) :
    (∀ v w, v ≠ w →
      ((Graph.build V edges).adj v).count w = ((Graph.build V edges).adj w).count v) ∧
    (∀ v w, w ∈ (Graph.build V edges).adj v ↔ v ∈ (Graph.build V edges).adj w) := by
  constructor
  · exact Graph.foldl_addEdge_count_symm edges (Graph.new V)
      (fun v w _ => by simp [Graph.new])
  · intro v w
    rw [Graph.mem_build_adj, Graph.mem_build_adj]
    exact Or.comm

theorem C13_witness :
    (∀ e ∈ [((0 : Nat), (1 : Nat)), (1, 2), (0, 1), (2, 2)], e.1 < 3 ∧ e.2 < 3) ∧
    ((∀ v w, v ≠ w →
      ((Graph.build 3 [(0, 1), (1, 2), (0, 1), (2, 2)]).adj v).count w
        = ((Graph.build 3 [(0, 1), (1, 2), (0, 1), (2, 2)]).adj w).count v) ∧
    (∀ v w, w ∈ (Graph.build 3 [(0, 1), (1, 2), (0, 1), (2, 2)]).adj v ↔
      v ∈ (Graph.build 3 [(0, 1), (1, 2), (0, 1), (2, 2)]).adj w)) :=
  ⟨by decide, C13_edge_symmetry_invariant 3 [(0, 1), (1, 2), (0, 1), (2, 2)] (by decide)⟩

/-! ### Repeated edges and self-loops -/

theorem Graph.addEdge_wellFormed {g : Graph} (hg : g.WellFormed) {v w : Nat}
    (hv : v < g.V) (hw : w < g.V) : (g.addEdge v w).WellFormed := by
  constructor
  · intro x hx y hy
    rw [Graph.mem_addEdge_adj] at hy
    rcases hy with h | ⟨_, h⟩ | ⟨_, h⟩
    · exact hg.1 x hx y h
    · rw [h]; exact hw
    · rw [h]; exact hv
  · intro x hx y hy
    rw [Graph.mem_addEdge_adj] at hy ⊢
    rcases hy with h | ⟨h1, h2⟩ | ⟨h1, h2⟩
    · exact Or.inl (hg.2 x hx y h)
    · exact Or.inr (Or.inr ⟨h2, h1⟩)
    · exact Or.inr (Or.inl ⟨h2, h1⟩)

/-- Adding edges of the form `(a, a)` to the edge relation changes no cut vertex. -/
theorem Graph.isCut_congr_loops {g h : Graph} (hV : g.V = h.V)
    (h1 : ∀ a b, g.Edge a b → h.Edge a b) (h2 : ∀ a b, h.Edge a b → g.Edge a b ∨ a = b)
    (u : Nat) : g.IsCut u ↔ h.IsCut u := by
  have conn : ∀ a b, h.Conn a b → g.Conn a b := by
    intro a b hab
    induction hab with
    | refl => exact Relation.ReflTransGen.refl
    | @tail x y _ hxy ih =>
      rcases h2 x y hxy with e | e
      · exact Relation.ReflTransGen.tail ih e
      · rw [← e]; exact ih
  have avoid : ∀ a b, h.ConnAvoid u a b → g.ConnAvoid u a b := by
    intro a b hab
    induction hab with
    | refl => exact Relation.ReflTransGen.refl
    | @tail x y _ hxy ih =>
      rcases h2 x y hxy.1 with e | e
      · exact Relation.ReflTransGen.tail ih ⟨e, hxy.2⟩
      · rw [← e]; exact ih
  constructor
  · rintro ⟨a, b, ha, hb, hau, hbu, hc, hn⟩
    exact ⟨a, b, hV ▸ ha, hV ▸ hb, hau, hbu, Graph.conn_congr h1 hc,
      fun hc2 => hn (avoid a b hc2)⟩
  · rintro ⟨a, b, ha, hb, hau, hbu, hc, hn⟩
    exact ⟨a, b, hV ▸ ha, hV ▸ hb, hau, hbu, conn a b hc,
      fun hc2 => hn (Graph.connAvoid_congr h1 hc2)⟩

/-- C11: on a well-formed graph in which the edge `(v, w)` is already present, calling
`addEdge(v, w)` again (a duplicate entry in both adjacency lists) does not change the list
that `AP()` prints, each of the two runs being entered with a counter value from which the
32-bit counter does not pass `INT_MAX` (`time + V ≤ INT_MAX`). -/
theorem C11_repeated_edge_idempotent (g : Graph) (hg : g.WellFormed) (v w : Nat)
    (hv : v < g.V) (hw : w < g.V) (hpres : w ∈ g.adj v) (fuel : Nat) (hf : g.V ≤ fuel)
    (time1 time2 : Int) (hlo1 : INT_MIN ≤ time1) (hhi1 : time1 + g.V ≤ INT_MAX)
    (hlo2 : INT_MIN ≤ time2) (hhi2 : time2 + g.V ≤ INT_MAX)
    (disc1 low1 disc2 low2 : Nat → Int) :
    ∃ r, APout g fuel time1 disc1 low1 = some r ∧
      APout (g.addEdge v w) fuel time2 disc2 low2 = some r := by
  have hg2 := Graph.addEdge_wellFormed hg hv hw
  have hf2 : (g.addEdge v w).V ≤ fuel := hf
  obtain ⟨s1, e1, c1⟩ := AP_correct hg hf time1 hlo1 hhi1 disc1 low1
  obtain ⟨s2, e2, c2⟩ := AP_correct hg2 hf2 time2 hlo2 hhi2 disc2 low2
  refine ⟨flagged g s1, APout_eq_some e1, ?_⟩
  rw [APout_eq_some e2]
  congr 1
  have hV : (g.addEdge v w).V = g.V := rfl
  apply flagged_congr hV
  intro u hu
  have hback : v ∈ g.adj w := hg.2 v hv w hpres
  have hmem : ∀ a b, b ∈ (g.addEdge v w).adj a ↔ b ∈ g.adj a := by
    intro a b
    rw [Graph.mem_addEdge_adj]
    constructor
    · rintro (h | ⟨h1, h2⟩ | ⟨h1, h2⟩)
      · exact h
      · rw [h1, h2]; exact hpres
      · rw [h1, h2]; exact hback
    · intro h; exact Or.inl h
  have hE : ∀ a b, (g.addEdge v w).Edge a b ↔ g.Edge a b := by
    intro a b
    unfold Graph.Edge
    rw [hV, hmem, hmem]
  rw [c2 u hu, c1 u hu]
  exact Graph.isCut_congr hV hE u

/-- The triangle with the edge `(0, 1)` given a second time. -/
theorem C11_witness :
    (Graph.build 3 [(0, 1), (1, 2), (2, 0)]).WellFormed ∧
    0 < (Graph.build 3 [(0, 1), (1, 2), (2, 0)]).V ∧
    1 < (Graph.build 3 [(0, 1), (1, 2), (2, 0)]).V ∧
    1 ∈ (Graph.build 3 [(0, 1), (1, 2), (2, 0)]).adj 0 ∧
    (Graph.build 3 [(0, 1), (1, 2), (2, 0)]).V ≤ 3 ∧
    INT_MIN ≤ 0 ∧ (0 : Int) + (Graph.build 3 [(0, 1), (1, 2), (2, 0)]).V ≤ INT_MAX ∧
    INT_MIN ≤ 3 ∧ (3 : Int) + (Graph.build 3 [(0, 1), (1, 2), (2, 0)]).V ≤ INT_MAX ∧
    ∃ r, APout (Graph.build 3 [(0, 1), (1, 2), (2, 0)]) 3 0 (fun _ => 0) (fun _ => 0) = some r ∧
      APout ((Graph.build 3 [(0, 1), (1, 2), (2, 0)]).addEdge 0 1) 3 3 (fun _ => 0)
        (fun _ => 0) = some r :=
  ⟨Graph.build_wellFormed 3 [(0, 1), (1, 2), (2, 0)] (by decide), by decide, by decide,
    by decide, by decide, by decide, by decide, by decide, by decide,
    C11_repeated_edge_idempotent (Graph.build 3 [(0, 1), (1, 2), (2, 0)])
      (Graph.build_wellFormed 3 [(0, 1), (1, 2), (2, 0)] (by decide)) 0 1 (by decide)
      (by decide) (by decide) 3 (by decide) 0 3 (by decide) (by decide) (by decide)
      (by decide) (fun _ => 0) (fun _ => 0) (fun _ => 0) (fun _ => 0)⟩

/-- The assignment `low[u] = min(low[u], disc[u])` changes nothing when `low[u] ≤ disc[u]`. -/
theorem backEdge_self {s : State} {u : Nat} (h : s.low u ≤ s.disc u) : backEdge s u u = s := by
  cases s with
  | mk visited disc low parent ap time =>
    simp only [backEdge, State.mk.injEq, true_and, and_true]
    simp only at h
    rw [min_eq_left h]
    exact Function.update_eq_self u low

/-- Meeting `u` itself in the neighbour loop of `APUtil(u)` is a step without effect: no child
is counted and no array changes. -/
theorem APLoop_self {call : Nat → State → Option State} {u : Nat} {s : State}
    (hu : s.visited u = true) (hl : s.low u ≤ s.disc u) (rest : List Nat) (c : Nat) :
    APLoop call u (u :: rest) c s = APLoop call u rest c s := by
  rw [APLoop]
  have hvis : ¬ s.visited u = false := by rw [hu]; simp
  rw [if_neg hvis]
  by_cases hp : (u : Int) ≠ s.parent u
  · rw [if_pos hp, backEdge_self hl]
  · rw [if_neg hp]

theorem APLoop_selfs {call : Nat → State → Option State} {u : Nat} :
    ∀ (extra : List Nat) (c : Nat) (s : State), (∀ x ∈ extra, x = u) →
      s.visited u = true → s.low u ≤ s.disc u → APLoop call u extra c s = some s := by
  intro extra
  induction extra with
  | nil => intro c s _ _ _; rfl
  | cons x rest ih =>
    intro c s hx hu hl
    have e : x = u := hx x (by simp)
    rw [e, APLoop_self hu hl]
    exact ih c s (fun y hy => hx y (by simp [hy])) hu hl

/-- The neighbour loop on a list followed by entries equal to `u` itself, with recursive
calls on a graph `h`, runs as the loop on the list alone with calls on `g`, once the calls
on `h` and on `g` agree. -/
theorem APLoop_append_selfs {g h : Graph} (hr : g.InRange) (f : Nat)
    (IHeq : ∀ v s, v < g.V → s.visited v = false → unvisitedCount g s ≤ f → Inv g s v →
      APUtil h f v s = APUtil g f v s)
    (s0 : State) (u : Nat) (huV : u < g.V) (extra : List Nat) (hextra : ∀ x ∈ extra, x = u) :
    ∀ (rest done : List Nat) (c : Nat) (s : State), g.adj u = done ++ rest →
      LoopInv g s0 u done c s → unvisitedCount g s ≤ f →
      APLoop (APUtil h f) u (rest ++ extra) c s = APLoop (APUtil g f) u rest c s := by
  intro rest
  induction rest with
  | nil =>
    intro done c s _ hL _
    rw [List.nil_append, APLoop_selfs extra c s hextra hL.vis_u hL.low_le_disc]
    rfl
  | cons v rest ih =>
    intro done c s hadj hL hcnt
    have hvin : v ∈ g.adj u := by rw [hadj]; simp
    have hvV : v < g.V := hr u huV v hvin
    have hadj2 : g.adj u = (done ++ [v]) ++ rest := by rw [hadj]; simp
    rw [List.cons_append, APLoop, APLoop]
    by_cases hvis : s.visited v = false
    · rw [if_pos hvis, if_pos hvis]
      have hinv := hL.inv.setParent hL.vis_u hvis hvin
      rw [IHeq v (setParent s v u) hvV hvis hcnt hinv]
      obtain ⟨t, ht, hinvt, htv, hfin, hfr⟩ :=
        APUtil_spec hr f v (setParent s v u) hvV hvis hcnt hinv
      rw [ht]
      apply ih (done ++ [v]) (c + 1) _ hadj2 (hL.child hvis hinvt htv hfin hfr)
      refine le_trans (unvisitedCount_le ?_) hcnt
      intro x hx
      rw [(afterChild_spec u v (c + 1) t
        (by intro e; rw [e, hL.vis_u] at hvis; exact absurd hvis (by simp))).1]
      exact (hfr.old x hx).1
    · rw [if_neg hvis, if_neg hvis]
      have hvt : s.visited v = true := by
        cases hh : s.visited v with
        | true => rfl
        | false => exact absurd hh hvis
      by_cases hp : (v : Int) ≠ s.parent u
      · rw [if_pos hp, if_pos hp]
        exact ih (done ++ [v]) c _ hadj2 (hL.back hvt hp) hcnt
      · rw [if_neg hp, if_neg hp]
        exact ih (done ++ [v]) c _ hadj2 (hL.skip hvt (not_not.1 hp)) hcnt

theorem APUtil_append_selfs {g h : Graph} (hr : g.InRange)
    (hadj : ∀ u, u < g.V → ∃ extra, h.adj u = g.adj u ++ extra ∧ ∀ x ∈ extra, x = u) :
    ∀ (f u : Nat) (s : State), u < g.V → s.visited u = false → unvisitedCount g s ≤ f →
      Inv g s u → APUtil h f u s = APUtil g f u s := by
  intro f
  induction f with
  | zero => intro u s _ _ _ _; rfl
  | succ f ih =>
    intro u s huV hu hcnt hinv
    obtain ⟨extra, he, hx⟩ := hadj u huV
    rw [APUtil, APUtil, he]
    have hcnt1 : unvisitedCount g (enter s u) ≤ f := by
      have : unvisitedCount g (enter s u) < unvisitedCount g s := by
        apply unvisitedCount_lt _ huV hu (by simp [enter])
        intro x hx
        have : x ≠ u := by intro e; rw [e, hu] at hx; exact absurd hx (by simp)
        simp [enter, Function.update_apply, this, hx]
      omega
    exact APLoop_append_selfs hr f ih s u huV extra hx (g.adj u) [] 0 (enter s u) rfl
      (LoopInv.init hinv hu huV) hcnt1

theorem APRoots_append_selfs {g h : Graph} (hr : g.InRange)
    (hadj : ∀ u, u < g.V → ∃ extra, h.adj u = g.adj u ++ extra ∧ ∀ x ∈ extra, x = u)
    {f : Nat} (hf : g.V ≤ f) :
    ∀ (l : List Nat) (s : State), (∀ i ∈ l, i < g.V) → RootInv g s →
      APRoots h f l s = APRoots g f l s := by
  intro l
  induction l with
  | nil => intro s _ _; rfl
  | cons i rest ih =>
    intro s hl hR
    have hiV : i < g.V := hl i (by simp)
    have hl2 : ∀ j ∈ rest, j < g.V := fun j hj => hl j (by simp [hj])
    rw [APRoots, APRoots]
    by_cases hi : s.visited i = false
    · rw [if_pos hi, if_pos hi]
      have hcnt := le_trans (unvisitedCount_le_V g s) hf
      rw [APUtil_append_selfs hr hadj f i s hiV hi hcnt (hR.toInv i)]
      obtain ⟨t, ht, hinv, hti, hfin, hfr⟩ := APUtil_spec hr f i s hiV hi hcnt (hR.toInv i)
      rw [ht]
      exact ih t hl2 (hR.ofPost hi hinv hti hfin hfr)
    · rw [if_neg hi, if_neg hi]
      exact ih s hl2 hR

/-- C12: on a graph with in-range adjacency entries, `addEdge(v, v)` changes nothing of what
`AP()` computes: entered with the same counter value (any value, the 32-bit counter may
wrap around) the run on the graph with the self-loop returns the very same arrays, hence
prints the same list, whatever the uninitialised arrays hold; on a well-formed graph the
two runs print the same list also when entered with two different counter values from
which the counter does not pass `INT_MAX`; and when the neighbour loop of `APUtil(u)` meets
`u` itself (with `visited[u]` set and `low[u] ≤ disc[u]`, as they are throughout that loop)
the step leaves the state and the `children` counter as they were. -/
theorem C12_self_loop_ignored :
    (∀ (g : Graph), g.InRange → ∀ (v fuel : Nat), v < g.V → g.V ≤ fuel →
      ∀ (time : Int) (disc0 low0 : Nat → Int),
      (∃ s, AP g fuel time disc0 low0 = some s ∧
        AP (g.addEdge v v) fuel time disc0 low0 = some s) ∧
      (∀ (disc2 low2 : Nat → Int),
        ∃ r, APout g fuel time disc0 low0 = some r ∧
          APout (g.addEdge v v) fuel time disc2 low2 = some r) ∧
      (g.Symm → INT_MIN ≤ time → time + g.V ≤ INT_MAX →
        ∀ (time2 : Int), INT_MIN ≤ time2 → time2 + g.V ≤ INT_MAX →
        ∀ (disc2 low2 : Nat → Int),
        ∃ r, APout g fuel time disc0 low0 = some r ∧
          APout (g.addEdge v v) fuel time2 disc2 low2 = some r)) ∧
    (∀ (call : Nat → State → Option State) (u : Nat) (s : State) (rest : List Nat)
      (children : Nat), s.visited u = true → s.low u ≤ s.disc u →
      APLoop call u (u :: rest) children s = APLoop call u rest children s) ∧
    (∀ (g : Graph) (s0 : State) (u : Nat) (done : List Nat) (children : Nat) (s : State),
      LoopInv g s0 u done children s → s.visited u = true ∧ s.low u ≤ s.disc u) := by
  refine ⟨?_, ?_, ?_⟩
  · intro g hr v fuel hv hf time disc0 low0
    obtain ⟨s, e, _⟩ := AP_spec hr hf time disc0 low0
    have hadj : ∀ u, u < g.V →
        ∃ extra, (g.addEdge v v).adj u = g.adj u ++ extra ∧ ∀ x ∈ extra, x = u := by
      intro u _
      refine ⟨(if u = v then [v] else []) ++ (if u = v then [v] else []), ?_, ?_⟩
      · rw [Graph.addEdge_adj, List.append_assoc]
      · intro x hx
        by_cases e : u = v
        · simp [e] at hx; rw [hx, e]
        · simp [e] at hx
    have key : AP (g.addEdge v v) fuel time disc0 low0 = AP g fuel time disc0 low0 :=
      APRoots_append_selfs hr hadj hf (List.range g.V) (initState time disc0 low0)
        (fun i hi => List.mem_range.1 hi) (RootInv.initState g time disc0 low0)
    have e2 : AP (g.addEdge v v) fuel time disc0 low0 = some s := by rw [key]; exact e
    refine ⟨⟨s, e, e2⟩, ?_, ?_⟩
    · intro disc2 low2
      refine ⟨flagged g s, APout_eq_some e, ?_⟩
      rw [APout_same (g.addEdge v v) fuel time disc2 low2 disc0 low0, APout_eq_some e2]
      rfl
    · intro hsym hlo hhi time2 hlo2 hhi2 disc2 low2
      refine ⟨flagged g s, APout_eq_some e, ?_⟩
      obtain ⟨r, k1, k2⟩ := APout_indep (Graph.addEdge_wellFormed ⟨hr, hsym⟩ hv hv) fuel fuel
        hf hf time time2 hlo hhi hlo2 hhi2 disc0 low0 disc2 low2
      rw [k2, ← k1, APout_eq_some e2]
      rfl
  · intro call u s rest children hu hl
    exact APLoop_self hu hl rest children
  · intro g s0 u done children s hL
    exact ⟨hL.vis_u, hL.low_le_disc⟩

/-- A self-loop added at an endpoint of the path `0 - 1 - 2`. -/
theorem C12_witness :
    (Graph.build 3 [(0, 1), (1, 2)]).InRange ∧ 0 < (Graph.build 3 [(0, 1), (1, 2)]).V ∧
    (Graph.build 3 [(0, 1), (1, 2)]).V ≤ 3 ∧
    ((∃ s, AP (Graph.build 3 [(0, 1), (1, 2)]) 3 0 (fun _ => 0) (fun _ => 0) = some s ∧
        AP ((Graph.build 3 [(0, 1), (1, 2)]).addEdge 0 0) 3 0 (fun _ => 0) (fun _ => 0)
          = some s) ∧
      (∀ (disc2 low2 : Nat → Int),
        ∃ r, APout (Graph.build 3 [(0, 1), (1, 2)]) 3 0 (fun _ => 0) (fun _ => 0) = some r ∧
          APout ((Graph.build 3 [(0, 1), (1, 2)]).addEdge 0 0) 3 0 disc2 low2 = some r) ∧
      ((Graph.build 3 [(0, 1), (1, 2)]).Symm → INT_MIN ≤ 0 →
        (0 : Int) + (Graph.build 3 [(0, 1), (1, 2)]).V ≤ INT_MAX →
        ∀ (time2 : Int), INT_MIN ≤ time2 →
        time2 + (Graph.build 3 [(0, 1), (1, 2)]).V ≤ INT_MAX →
        ∀ (disc2 low2 : Nat → Int),
        ∃ r, APout (Graph.build 3 [(0, 1), (1, 2)]) 3 0 (fun _ => 0) (fun _ => 0) = some r ∧
          APout ((Graph.build 3 [(0, 1), (1, 2)]).addEdge 0 0) 3 time2 disc2 low2
            = some r)) :=
  ⟨(Graph.build_wellFormed 3 [(0, 1), (1, 2)] (by decide)).1, by decide, by decide,
    C12_self_loop_ignored.1 (Graph.build 3 [(0, 1), (1, 2)])
      (Graph.build_wellFormed 3 [(0, 1), (1, 2)] (by decide)).1 0 3 (by decide) (by decide)
      0 (fun _ => 0) (fun _ => 0)⟩

/-! ### `addEdge` has no range check -/

/-- C15 (as amended): `addEdge(v, w)` performs no range check and reports no `OutOfRange`
condition. With both ids below `V` the checked run meets no fault and is the run of
`addEdge`: `w` is appended to `adj[v]`, then `v` to `adj[w]`, and `V` and every other list
are as before. With an id not below `V` the run makes an access outside the array `adj`:
at `adj[v]` in the first statement if `v` is out of range, with the graph as it was;
otherwise at `adj[w]` in the second statement, after `w` has been appended to `adj[v]`,
so the graph is not left unchanged. -/
theorem C15_addEdge_unchecked (g : Graph) (v w : Nat) :
    ((g.addEdgeC v w).2 = none ↔ v < g.V ∧ w < g.V) ∧
    (v < g.V → w < g.V → g.addEdgeC v w = (g.addEdge v w, none) ∧
      (g.addEdge v w).V = g.V ∧
      (∀ x, x ≠ v → x ≠ w → (g.addEdge v w).adj x = g.adj x) ∧
      (v ≠ w → (g.addEdge v w).adj v = g.adj v ++ [w] ∧
        (g.addEdge v w).adj w = g.adj w ++ [v]) ∧
      (v = w → (g.addEdge v w).adj v = g.adj v ++ [w] ++ [v])) ∧
    (¬ v < g.V → g.addEdgeC v w = (g, some Fault.outOfBounds)) ∧
    (v < g.V → ¬ w < g.V → (g.addEdgeC v w).2 = some Fault.outOfBounds ∧
      (g.addEdgeC v w).1.V = g.V ∧
      (g.addEdgeC v w).1.adj v = g.adj v ++ [w] ∧
      (∀ x, x ≠ v → (g.addEdgeC v w).1.adj x = g.adj x) ∧
      (g.addEdgeC v w).1.adj v ≠ g.adj v) := by
  refine ⟨?_, ?_, ?_, ?_⟩
  · unfold Graph.addEdgeC
    by_cases hv : v < g.V <;> by_cases hw : w < g.V <;> simp [hv, hw]
  · intro hv hw
    refine ⟨?_, rfl, ?_, ?_, ?_⟩
    · unfold Graph.addEdgeC Graph.addEdge
      simp [hv, hw]
    · intro x h1 h2
      rw [Graph.addEdge_adj]
      simp [h1, h2]
    · intro hne
      constructor
      · rw [Graph.addEdge_adj]; simp [hne]
      · rw [Graph.addEdge_adj]; simp [Ne.symm hne]
    · intro he
      rw [Graph.addEdge_adj]; simp [he]
  · intro hv
    unfold Graph.addEdgeC
    simp [hv]
  · intro hv hw
    have e : g.addEdgeC v w
        = (⟨g.V, Function.update g.adj v (g.adj v ++ [w])⟩, some Fault.outOfBounds) := by
      unfold Graph.addEdgeC
      simp [hv, hw]
    rw [e]
    refine ⟨rfl, rfl, ?_, ?_, ?_⟩
    · simp
    · intro x hx
      simp [Function.update_apply, hx]
    · intro h
      have := congrArg List.length h
      simp at this

/-- The amended statement at `addEdge(0, 5)` and at `addEdge(0, 1)` on a graph of two
vertices: the first call leaves `5` in the list of vertex `0` and makes an access outside the
array, the second meets no fault. -/
theorem C15_witness :
    (0 < (Graph.new 2).V ∧ ¬ 5 < (Graph.new 2).V ∧
      ((Graph.new 2).addEdgeC 0 5).2 = some Fault.outOfBounds ∧
      ((Graph.new 2).addEdgeC 0 5).1.V = (Graph.new 2).V ∧
      ((Graph.new 2).addEdgeC 0 5).1.adj 0 = (Graph.new 2).adj 0 ++ [5] ∧
      (∀ x, x ≠ 0 → ((Graph.new 2).addEdgeC 0 5).1.adj x = (Graph.new 2).adj x) ∧
      ((Graph.new 2).addEdgeC 0 5).1.adj 0 ≠ (Graph.new 2).adj 0) ∧
    (0 < (Graph.new 2).V ∧ 1 < (Graph.new 2).V ∧
      (Graph.new 2).addEdgeC 0 1 = ((Graph.new 2).addEdge 0 1, none)) :=
  ⟨⟨by decide, by decide,
      (C15_addEdge_unchecked (Graph.new 2) 0 5).2.2.2 (by decide) (by decide)⟩,
    by decide, by decide,
    ((C15_addEdge_unchecked (Graph.new 2) 0 1).2.1 (by decide) (by decide)).1⟩

/-- On the graph of one vertex, `addEdge(0, 5)` has the id `5` outside `[0, V)`. The call does
not leave the graph unchanged: statement `adj[v].push_back(w)` has run, and the list of
vertex `0`, empty before, holds `5` when `adj[5]` is accessed outside the array. -/
theorem C15_counterexample :
    ¬ (5 < (Graph.new 1).V) ∧ (Graph.new 1).adj 0 = [] ∧
    ((Graph.new 1).addEdgeC 0 5).2 = some Fault.outOfBounds ∧
    ((Graph.new 1).addEdgeC 0 5).1.adj 0 = [5] ∧
    ((Graph.new 1).addEdgeC 0 5).1.adj 0 ≠ (Graph.new 1).adj 0 := by
  refine ⟨by decide, rfl, by decide, by decide, by decide⟩

/-! ### Runs entered with different counter values -/

theorem wrap32_shift {a b d : Int} (h : wrap32 a = wrap32 (b + d)) :
    wrap32 (a + 1) = wrap32 (wrap32 (b + 1) + d) := by
  unfold wrap32 at *
  omega

theorem Shift.of_fields {d : Int} {sg sh sg2 sh2 : State} (h : Shift d sg sh)
    (g1 : sg2.visited = sg.visited) (g2 : sg2.disc = sg.disc) (g3 : sg2.time = sg.time)
    (g4 : sg2.parent = sg.parent) (h1 : sh2.visited = sh.visited) (h2 : sh2.disc = sh.disc)
    (h3 : sh2.time = sh.time) (h4 : sh2.parent = sh.parent) : Shift d sg2 sh2 := by
  refine ⟨?_, ?_, ?_, ?_⟩
  · rw [g1, h1]; exact h.vis
  · rw [g4, h4]; exact h.par
  · rw [g3, h3]; exact h.time
  · intro v hv
    rw [g2, h2]
    rw [h1] at hv
    exact h.disc v hv

theorem Shift.sh_enter {d : Int} {sg sh : State} (h : Shift d sg sh) (u : Nat) :
    Shift d (enter sg u) (enter sh u) := by
  refine ⟨?_, h.par, ?_, ?_⟩
  · show Function.update sg.visited u true = Function.update sh.visited u true
    rw [h.vis]
  · show wrap32 (wrap32 (sg.time + 1)) = wrap32 (wrap32 (sh.time + 1) + d)
    rw [wrap32_idem]
    exact wrap32_shift h.time
  · intro v hv
    show Function.update sg.disc u (wrap32 (sg.time + 1)) v
      = wrap32 (Function.update sh.disc u (wrap32 (sh.time + 1)) v + d)
    by_cases e : v = u
    · subst e
      simp only [Function.update_same]
      exact wrap32_shift h.time
    · rw [Function.update_noteq e, Function.update_noteq e]
      apply h.disc
      have hv2 : Function.update sh.visited u true v = true := hv
      rw [Function.update_noteq e] at hv2
      exact hv2

theorem Shift.sh_setParent {d : Int} {sg sh : State} (h : Shift d sg sh) (v u : Nat) :
    Shift d (setParent sg v u) (setParent sh v u) := by
  refine ⟨h.vis, ?_, h.time, h.disc⟩
  show Function.update sg.parent v (u : Int) = Function.update sh.parent v (u : Int)
  rw [h.par]

theorem APLoop_shift {d : Int} {call : Nat → State → Option State}
    (IH : ∀ v sg sh, Shift d sg sh →
      OptRel (fun th tg => Shift d tg th) (call v sh) (call v sg)) (u : Nat) :
    ∀ (l : List Nat) (c : Nat) (sg sh : State), Shift d sg sh →
      OptRel (fun th tg => Shift d tg th) (APLoop call u l c sh) (APLoop call u l c sg) := by
  intro l
  induction l with
  | nil =>
    intro c sg sh h
    exact h
  | cons v rest ih =>
    intro c sg sh h
    rw [APLoop, APLoop]
    by_cases hvis : sh.visited v = false
    · have hvisg : sg.visited v = false := by rw [h.vis]; exact hvis
      rw [if_pos hvis, if_pos hvisg]
      have IHv := IH v (setParent sg v u) (setParent sh v u) (h.sh_setParent v u)
      cases e1 : call v (setParent sh v u) with
      | none =>
        cases e2 : call v (setParent sg v u) with
        | none => trivial
        | some tg1 => rw [e1, e2] at IHv; exact IHv.elim
      | some th1 =>
        cases e2 : call v (setParent sg v u) with
        | none => rw [e1, e2] at IHv; exact IHv.elim
        | some tg1 =>
          rw [e1, e2] at IHv
          have hs : Shift d tg1 th1 := IHv
          obtain ⟨a1, a2, a3, a4⟩ := afterChild_fields u v (c + 1) tg1
          obtain ⟨b1, b2, b3, b4⟩ := afterChild_fields u v (c + 1) th1
          exact ih (c + 1) _ _ (hs.of_fields a1 a2 a3 a4 b1 b2 b3 b4)
    · have hvisg : ¬ sg.visited v = false := by rw [h.vis]; exact hvis
      rw [if_neg hvis, if_neg hvisg]
      by_cases hp : (v : Int) ≠ sh.parent u
      · have hpg : (v : Int) ≠ sg.parent u := by rw [h.par]; exact hp
        rw [if_pos hp, if_pos hpg]
        exact ih c _ _ (h.of_fields rfl rfl rfl rfl rfl rfl rfl rfl)
      · have hpg : ¬ (v : Int) ≠ sg.parent u := by rw [h.par]; exact hp
        rw [if_neg hp, if_neg hpg]
        exact ih c sg sh h

theorem APUtil_shift (g : Graph) (d : Int) :
    ∀ (fuel u : Nat) (sg sh : State), Shift d sg sh →
      OptRel (fun th tg => Shift d tg th) (APUtil g fuel u sh) (APUtil g fuel u sg) := by
  intro fuel
  induction fuel with
  | zero => intro u sg sh _; trivial
  | succ fuel ih =>
    intro u sg sh h
    rw [APUtil, APUtil]
    exact APLoop_shift (fun v sg sh hs => ih v sg sh hs) u (g.adj u) 0 _ _ (h.sh_enter u)

theorem APRoots_shift (g : Graph) (d : Int) (fuel : Nat) :
    ∀ (l : List Nat) (sg sh : State), Shift d sg sh →
      OptRel (fun th tg => Shift d tg th) (APRoots g fuel l sh) (APRoots g fuel l sg) := by
  intro l
  induction l with
  | nil => intro sg sh h; exact h
  | cons i rest ih =>
    intro sg sh h
    rw [APRoots, APRoots]
    by_cases hvis : sh.visited i = false
    · have hvisg : sg.visited i = false := by rw [h.vis]; exact hvis
      rw [if_pos hvis, if_pos hvisg]
      have key := APUtil_shift g d fuel i sg sh h
      cases e1 : APUtil g fuel i sh with
      | none =>
        cases e2 : APUtil g fuel i sg with
        | none => trivial
        | some tg1 => rw [e1, e2] at key; exact key.elim
      | some th1 =>
        cases e2 : APUtil g fuel i sg with
        | none => rw [e1, e2] at key; exact key.elim
        | some tg1 =>
          rw [e1, e2] at key
          exact ih tg1 th1 key
    · have hvisg : ¬ sg.visited i = false := by rw [h.vis]; exact hvis
      rw [if_neg hvis, if_neg hvisg]
      exact ih sg sh h

/-- Two runs of `AP()` on the same graph entered with the counter at `t1` and at `t2`:
they return together, visit the same vertices along the same forest, and the discovery
times of the second are those of the first advanced by `t2 - t1` as a 32-bit `int`. -/
theorem AP_timeshift (g : Graph) (fuel : Nat) (t1 t2 : Int) (d1 l1 d2 l2 : Nat → Int) :
    OptRel (fun th tg => Shift (t2 - t1) tg th)
      (AP g fuel t1 d1 l1) (AP g fuel t2 d2 l2) := by
  have h0 : Shift (t2 - t1) (initState t2 d2 l2) (initState t1 d1 l1) := by
    refine ⟨rfl, rfl, ?_, ?_⟩
    · show wrap32 t2 = wrap32 (t1 + (t2 - t1))
      congr 1; omega
    · intro v hv; simp [initState] at hv
  exact APRoots_shift g (t2 - t1) fuel (List.range g.V) _ _ h0
/-! ### The counter is never reset -/

/-- The first root: with `V ≥ 1` the restart loop calls `APUtil(0)` first, which gives
vertex `0` the 32-bit successor of the counter value the run was entered with. -/
theorem AP_disc_zero {g : Graph} (hr : g.InRange) (hV : 1 ≤ g.V) {f : Nat} {time : Int}
    {disc0 low0 : Nat → Int} {t : State} (h : AP g f time disc0 low0 = some t) :
    t.disc 0 = wrap32 (time + 1) := by
  unfold AP at h
  obtain ⟨n, hn⟩ : ∃ n, g.V = n + 1 := ⟨g.V - 1, by omega⟩
  have hl : ∀ j ∈ List.map Nat.succ (List.range n), j < g.V := by
    intro j hj
    simp only [List.mem_map, List.mem_range] at hj
    obtain ⟨a, ha, e⟩ := hj
    omega
  rw [hn, List.range_succ_eq_map, APRoots,
    if_pos (show (initState time disc0 low0).visited 0 = false from rfl)] at h
  cases hc : APUtil g f 0 (initState time disc0 low0) with
  | none => rw [hc] at h; exact absurd h (by simp)
  | some s1 =>
    rw [hc] at h
    cases f with
    | zero => rw [APUtil] at hc; exact absurd hc (by simp)
    | succ f =>
      rw [APUtil] at hc
      have hR0 := (RInv.r_init time disc0 low0).r_enter
        (show (initState time disc0 low0).visited 0 = false from rfl)
      have e0 : (enter (initState time disc0 low0) 0).visited 0 = true := by simp [enter]
      obtain ⟨r1, T1, hR1, run1⟩ :=
        APLoop_rrun (fun v s t r T hv hsv hc hR => APUtil_rrun hr f v s t r T hv hsv hc hR)
          (g.adj 0) 0 _ s1 _ _ (hr 0 (by omega)) e0 hc hR0
      obtain ⟨r2, T2, hR2, run2⟩ := APRoots_rrun hr (f + 1) _ s1 t r1 T1 hl h hR1
      obtain ⟨a1, b1⟩ := run1.old 0 e0
      obtain ⟨a2, b2⟩ := run2.old 0 a1
      rw [hR2.disc_eq 0 a2, b2, b1]
      simp

/-- C16 (as amended): the counter of discovery times is a static of `APUtil` and is never
reset. On a graph with in-range entries and `V ≥ 1`, a run of `AP()` entered with the
counter at `time`, where `time + V ≤ INT_MAX` so that the 32-bit counter does not wrap
around, returns with the counter at `time + V`, gives vertex `0` the discovery time
`time + 1` and gives the `V` vertices exactly the values `time + 1 .. time + V`, each
once. The next run, entered with the counter the first one left (and
`time + 2 V ≤ INT_MAX`), gives every vertex the time of the first run plus `V`. Only a run
entered with the counter at `0` assigns `1..V`. -/
theorem C16_counter_carries_over (g : Graph) (hr : g.InRange) (hV : 1 ≤ g.V) (fuel : Nat)
    (hf : g.V ≤ fuel) (time : Int) (hlo : INT_MIN ≤ time) (hhi : time + g.V ≤ INT_MAX)
    (disc0 low0 : Nat → Int) :
    ∃ s, AP g fuel time disc0 low0 = some s ∧ s.time = time + g.V ∧
      s.disc 0 = time + 1 ∧
      (∀ u, u < g.V → time < s.disc u ∧ s.disc u ≤ time + g.V) ∧
      (∀ u v, u < g.V → v < g.V → s.disc u = s.disc v → u = v) ∧
      (∀ k : Int, time < k → k ≤ time + g.V → ∃ u, u < g.V ∧ s.disc u = k) ∧
      (time + 2 * g.V ≤ INT_MAX → ∀ (disc2 low2 : Nat → Int),
        ∃ s2, AP g fuel s.time disc2 low2 = some s2 ∧
          s2.time = s.time + g.V ∧ ∀ u, u < g.V → s2.disc u = s.disc u + g.V) := by
  have hV0 : (1 : Int) ≤ g.V := by exact_mod_cast hV
  obtain ⟨s, e, _, hvis, _, htime, hrange, hinj⟩ := AP_ord hr hf time hlo hhi disc0 low0
  have hzero : s.disc 0 = time + 1 := by
    rw [AP_disc_zero hr hV e]
    exact wrap32_eq_self (by omega) (by omega)
  refine ⟨s, e, htime, hzero, hrange, hinj, ?_, ?_⟩
  · intro k hk1 hk2
    have hsub : (Finset.range g.V).image s.disc ⊆ Finset.Ioc time (time + g.V) := by
      intro x hx
      obtain ⟨u, hu, rfl⟩ := Finset.mem_image.1 hx
      exact Finset.mem_Ioc.2 (hrange u (Finset.mem_range.1 hu))
    have hcard : ((Finset.range g.V).image s.disc).card = g.V := by
      rw [Finset.card_image_of_injOn, Finset.card_range]
      intro u hu v hv huv
      exact hinj u v (Finset.mem_range.1 hu) (Finset.mem_range.1 hv) huv
    have hIoc : (Finset.Ioc time (time + g.V)).card = g.V := by
      rw [Int.card_Ioc]; simp
    have heq := Finset.eq_of_subset_of_card_le hsub (by rw [hcard, hIoc])
    have hk : k ∈ (Finset.range g.V).image s.disc := by
      rw [heq]; exact Finset.mem_Ioc.2 ⟨hk1, hk2⟩
    obtain ⟨u, hu, huk⟩ := Finset.mem_image.1 hk
    exact ⟨u, Finset.mem_range.1 hu, huk⟩
  · intro hhi2 disc2 low2
    obtain ⟨s2, e2, _, _, _, htime2, _⟩ :=
      AP_ord hr hf s.time (by rw [htime]; omega) (by rw [htime]; omega) disc2 low2
    refine ⟨s2, e2, htime2, ?_⟩
    intro u hu
    have key := AP_timeshift g fuel time s.time disc0 low0 disc2 low2
    rw [e, e2] at key
    have hs : Shift (s.time - time) s2 s := key
    have e3 : s.disc u + (s.time - time) = s.disc u + g.V := by rw [htime]; ring
    rw [hs.disc u (hvis u hu), e3]
    have := hrange u hu
    exact wrap32_eq_self (by omega) (by omega)

/-- The amended statement on the graph of the single edge `0 - 1`, entered with the counter
at `0`. -/
theorem C16_witness :
    (Graph.build 2 [(0, 1)]).InRange ∧ 1 ≤ (Graph.build 2 [(0, 1)]).V ∧
    (Graph.build 2 [(0, 1)]).V ≤ 2 ∧ INT_MIN ≤ 0 ∧
    (0 : Int) + (Graph.build 2 [(0, 1)]).V ≤ INT_MAX ∧
    ∃ s, AP (Graph.build 2 [(0, 1)]) 2 0 (fun _ => 0) (fun _ => 0) = some s ∧
      s.time = 0 + (Graph.build 2 [(0, 1)]).V ∧ s.disc 0 = 0 + 1 ∧
      (∀ u, u < (Graph.build 2 [(0, 1)]).V →
        0 < s.disc u ∧ s.disc u ≤ 0 + (Graph.build 2 [(0, 1)]).V) ∧
      (∀ u v, u < (Graph.build 2 [(0, 1)]).V → v < (Graph.build 2 [(0, 1)]).V →
        s.disc u = s.disc v → u = v) ∧
      (∀ k : Int, 0 < k → k ≤ 0 + (Graph.build 2 [(0, 1)]).V →
        ∃ u, u < (Graph.build 2 [(0, 1)]).V ∧ s.disc u = k) ∧
      ((0 : Int) + 2 * (Graph.build 2 [(0, 1)]).V ≤ INT_MAX → ∀ (disc2 low2 : Nat → Int),
        ∃ s2, AP (Graph.build 2 [(0, 1)]) 2 s.time disc2 low2 = some s2 ∧
          s2.time = s.time + (Graph.build 2 [(0, 1)]).V ∧
          ∀ u, u < (Graph.build 2 [(0, 1)]).V →
            s2.disc u = s.disc u + (Graph.build 2 [(0, 1)]).V) :=
  ⟨(Graph.build_wellFormed 2 [(0, 1)] (by decide)).1, by decide, by decide, by decide,
    by decide,
    C16_counter_carries_over (Graph.build 2 [(0, 1)])
      (Graph.build_wellFormed 2 [(0, 1)] (by decide)).1 (by decide) 2 (by decide) 0
      (by decide) (by decide) (fun _ => 0) (fun _ => 0)⟩

/-- Two runs of `AP()` in a row on the graph of the single edge `0 - 1`, the first entered
with the counter at `0`, the second with the counter (and the arrays) the first one left:
the first gives vertex `0` the time `1` and the vertices the times `1, 2`; the second
gives vertex `0` the time `3` and the vertices the times `3, 4`. -/
theorem C16_counterexample :
    (AP (Graph.build 2 [(0, 1)]) 2 0 (fun _ => 0) (fun _ => 0)).map
      (fun s => (s.disc 0, s.disc 1, s.time)) = some (1, 2, 2) ∧
    ((AP (Graph.build 2 [(0, 1)]) 2 0 (fun _ => 0) (fun _ => 0)).bind
      (fun s1 => AP (Graph.build 2 [(0, 1)]) 2 s1.time s1.disc s1.low)).map
      (fun s => (s.disc 0, s.disc 1, s.time)) = some (3, 4, 4) := by
  decide

/-! ### The record kept by the checked run -/

theorem GInv.g_init (g : Graph) (time : Int) (disc0 low0 : Nat → Int) :
    GInv g (CState.init time disc0 low0) where
  set := fun x hx => by simp [CState.init, initState] at hx
  ent_nodup := List.nodup_nil
  ent_iff := fun x => by simp [CState.init, initState]
  ret_vis := fun x hx => by simp [CState.init] at hx
  reads := fun e he => by simp [CState.init] at he
  kids := fun x hx => by simp [CState.init] at hx
  folded := fun x hx => by simp [CState.init] at hx
  depth := by
    have : (CState.init time disc0 low0).st = initState time disc0 low0 := rfl
    rw [this, unvisitedCount_initState]
    simp [CState.init]
  maxDepth := by simp [CState.init]

theorem GInv.g_enter {g : Graph} {cs : CState} {u : Nat} (h : GInv g cs) (hu : u < g.V)
    (hs : cs.st.visited u = false)
    (hp : ∀ x, cs.returned x = true → cs.st.parent u ≠ (x : Int)) :
    GInv g (enterC cs u) := by
  have hvis : ∀ x, (enterC cs u).st.visited x = true ↔ (x = u ∨ cs.st.visited x = true) := by
    intro x
    show Function.update cs.st.visited u true x = true ↔ _
    by_cases e : x = u
    · subst e; simp
    · simp [Function.update_apply, e]
  have hne : ∀ x, cs.st.visited x = true → x ≠ u := by
    intro x hx e; rw [e, hs] at hx; exact absurd hx (by simp)
  have hcnt := unvisitedCount_enter hu hs
  have hd := h.depth
  have hst : (enterC cs u).st = enter cs.st u := rfl
  have hch : ∀ x, cs.returned x = true → ∀ c, Child (enterC cs u).st x c ↔ Child cs.st x c := by
    intro x hx c
    unfold Child
    rw [hvis c]
    show (c = u ∨ cs.st.visited c = true) ∧ cs.st.parent c = (x : Int) ↔ _
    constructor
    · rintro ⟨a | a, b⟩
      · rw [a] at b; exact absurd b (hp x hx)
      · exact ⟨a, b⟩
    · rintro ⟨a, b⟩; exact ⟨Or.inr a, b⟩
  refine ⟨?_, ?_, ?_, ?_, ?_, ?_, ?_, ?_, ?_⟩
  · intro x hx
    show Function.update cs.discSet u true x = true ∧ Function.update cs.lowSet u true x = true
    by_cases e : x = u
    · subst e; simp
    · rcases (hvis x).1 hx with e2 | hx2
      · exact absurd e2 e
      · simp only [Function.update_apply, e, if_false]
        exact h.set x hx2
  · show (cs.entered ++ [u]).Nodup
    rw [List.nodup_append]
    refine ⟨h.ent_nodup, List.nodup_singleton u, ?_⟩
    intro a ha hb
    have : a = u := by simpa using hb
    exact hne a ((h.ent_iff a).1 ha) this
  · intro x
    rw [hvis]
    show x ∈ cs.entered ++ [u] ↔ _
    rw [List.mem_append, h.ent_iff x]
    simp [or_comm]
  · intro x hx
    exact (hvis x).2 (Or.inr (h.ret_vis x hx))
  · intro e he
    obtain ⟨a, b, c⟩ := h.reads e he
    refine ⟨a, ?_, c⟩
    show Function.update cs.st.low u (wrap32 (cs.st.time + 1)) e.2.1 = e.2.2
    rw [Function.update_noteq (hne _ (h.ret_vis _ a))]
    exact b
  · intro x hx
    obtain ⟨l, h1, h2, h3⟩ := h.kids x hx
    refine ⟨l, h1, h2, ?_⟩
    intro c
    rw [h3 c, hch x hx c]
  · intro x hx c hc
    exact h.folded x hx c ((hch x hx c).1 hc)
  · show cs.depth + 1 + unvisitedCount g (enterC cs u).st ≤ g.V
    rw [hst]; omega
  · show max cs.maxDepth (cs.depth + 1) ≤ g.V
    have := h.maxDepth
    have := unvisitedCount_pos hu hs
    omega

theorem GInv.g_setParent {g : Graph} {cs : CState} {u v : Nat} (h : GInv g cs)
    (hv : cs.st.visited v = false) : GInv g (setParentC cs v u) := by
  have hne : ∀ x, cs.st.visited x = true → x ≠ v := by
    intro x hx e; rw [e, hv] at hx; exact absurd hx (by simp)
  have hch : ∀ x c, Child (setParentC cs v u).st x c ↔ Child cs.st x c := by
    intro x c
    unfold Child
    show cs.st.visited c = true ∧ Function.update cs.st.parent v (u : Int) c = (x : Int) ↔ _
    constructor
    · rintro ⟨a, b⟩
      rw [Function.update_noteq (hne c a)] at b
      exact ⟨a, b⟩
    · rintro ⟨a, b⟩
      exact ⟨a, by rw [Function.update_noteq (hne c a)]; exact b⟩
  refine ⟨h.set, h.ent_nodup, h.ent_iff, h.ret_vis, ?_, ?_, ?_, h.depth, h.maxDepth⟩
  · intro e he
    obtain ⟨a, b, c⟩ := h.reads e he
    refine ⟨a, b, ?_⟩
    show Function.update cs.st.parent v (u : Int) e.2.1 = _
    rw [Function.update_noteq (hne _ (h.ret_vis _ a))]
    exact c
  · intro x hx
    obtain ⟨l, h1, h2, h3⟩ := h.kids x hx
    refine ⟨l, h1, h2, ?_⟩
    intro c
    rw [h3 c, hch x c]
  · intro x hx c hc
    exact h.folded x hx c ((hch x c).1 hc)

/-- A change of the arrays that touches `low[]` only at a vertex whose call has not
returned, and neither `visited[]` nor `parent[]`, keeps the record right; so does recording
further reads that are right. -/
theorem GInv.g_low {g : Graph} {cs : CState} {u : Nat} (h : GInv g cs)
    (hu : cs.returned u = false) (s2 : State) (hv : s2.visited = cs.st.visited)
    (hpar : s2.parent = cs.st.parent) (hlow : ∀ x, x ≠ u → s2.low x = cs.st.low x)
    (rs : List (Nat × Nat × Int))
    (hrs : ∀ e ∈ rs, cs.returned e.2.1 = true ∧ cs.st.low e.2.1 = e.2.2 ∧
      cs.st.parent e.2.1 = (e.1 : Int))
    (hsub : ∀ e ∈ cs.lowReads, e ∈ rs) :
    GInv g { cs with st := s2, lowReads := rs } := by
  have hne : ∀ x, cs.returned x = true → x ≠ u := by
    intro x hx e; rw [e, hu] at hx; exact absurd hx (by simp)
  refine ⟨?_, h.ent_nodup, ?_, ?_, ?_, ?_, ?_, ?_, h.maxDepth⟩
  · show ∀ x, s2.visited x = true → _
    rw [hv]; exact h.set
  · show ∀ x, _ ↔ s2.visited x = true
    rw [hv]; exact h.ent_iff
  · show ∀ x, _ → s2.visited x = true
    rw [hv]; exact h.ret_vis
  · intro e he
    obtain ⟨a, b, c⟩ := hrs e he
    refine ⟨a, ?_, ?_⟩
    · show s2.low e.2.1 = _
      rw [hlow _ (hne _ a)]; exact b
    · show s2.parent e.2.1 = _
      rw [hpar]; exact c
  · intro x hx
    obtain ⟨l, h1, h2, h3⟩ := h.kids x hx
    refine ⟨l, h1, h2, ?_⟩
    intro c
    rw [h3 c]
    unfold Child
    show _ ↔ s2.visited c = true ∧ s2.parent c = (x : Int)
    rw [hv, hpar]
  · intro x hx c hc
    have hc2 : s2.visited c = true ∧ s2.parent c = (x : Int) := hc
    rw [hv, hpar] at hc2
    obtain ⟨val, hval⟩ := h.folded x hx c hc2
    exact ⟨val, hsub _ hval⟩
  · show cs.depth + unvisitedCount g s2 ≤ g.V
    rw [unvisitedCount_congr hv]; exact h.depth

theorem GInv.g_return {g : Graph} {cs : CState} {u children : Nat} (h : GInv g cs)
    (hu : cs.st.visited u = true)
    (hk : ∃ l : List Nat, l.Nodup ∧ l.length = children ∧ ∀ c, c ∈ l ↔ Child cs.st u c)
    (hfold : ∀ c, Child cs.st u c → ∃ val, (u, c, val) ∈ cs.lowReads) :
    GInv g (returnC cs u children) := by
  refine ⟨h.set, h.ent_nodup, h.ent_iff, ?_, ?_, ?_, ?_, ?_, h.maxDepth⟩
  · intro x hx
    by_cases e : x = u
    · rw [e]; exact hu
    · have hx2 : Function.update cs.returned u true x = true := hx
      rw [Function.update_noteq e] at hx2
      exact h.ret_vis x hx2
  · intro e he
    obtain ⟨a, b, c⟩ := h.reads e he
    refine ⟨?_, b, c⟩
    show Function.update cs.returned u true e.2.1 = true
    by_cases e2 : e.2.1 = u
    · rw [e2]; simp
    · rw [Function.update_noteq e2]; exact a
  · intro x hx
    have hx2 : Function.update cs.returned u true x = true := hx
    show ∃ l : List Nat, l.Nodup ∧ l.length = Function.update cs.kids u children x ∧
      ∀ c, c ∈ l ↔ Child cs.st x c
    by_cases e : x = u
    · rw [e]; simpa using hk
    · rw [Function.update_noteq e] at hx2 ⊢
      exact h.kids x hx2
  · intro x hx c hc
    have hx2 : Function.update cs.returned u true x = true := hx
    by_cases e : x = u
    · rw [e] at hc ⊢; exact hfold c hc
    · rw [Function.update_noteq e] at hx2
      exact h.folded x hx2 c hc
  · show cs.depth - 1 + unvisitedCount g cs.st ≤ g.V
    have := h.depth
    omega

theorem backEdgeC_ok {V : Nat} {cs : CState} {u v : Nat} (hu : u < V) (hv : v < V)
    (h1 : cs.lowSet u = true) (h2 : cs.discSet v = true) :
    backEdgeC V cs u v = Except.ok { cs with st := backEdge cs.st u v } := by
  unfold backEdgeC
  rw [if_pos ⟨hu, hv⟩, if_pos ⟨h1, h2⟩]

theorem afterChildC_ok {V : Nat} {c1 : CState} {u v children : Nat} (hu : u < V) (hv : v < V)
    (h1 : c1.lowSet u = true) (h2 : c1.lowSet v = true) (h3 : c1.discSet u = true) :
    afterChildC V u v children c1 = Except.ok { c1 with
      st := afterChild u v children c1.st
      lowReads := c1.lowReads ++ [(u, v, c1.st.low v)] ++
        (if c1.st.parent u ≠ NILL then
          [(u, v, Function.update c1.st.low u (min (c1.st.low u) (c1.st.low v)) v)]
         else []) } := by
  unfold afterChildC
  rw [if_pos ⟨hu, hv⟩, if_pos ⟨h1, h2, fun _ => h3⟩]

theorem APLoopC_spec {g : Graph} (hr : g.InRange) (f : Nat)
    (IH : ∀ v cs, v < g.V → cs.st.visited v = false → unvisitedCount g cs.st ≤ f →
      Inv g cs.st v → GInv g cs → (∀ x, cs.returned x = true → cs.st.parent v ≠ (x : Int)) →
      ∃ ct, APUtilC g f v cs = Except.ok ct ∧ APUtil g f v cs.st = some ct.st ∧ GInv g ct ∧
        ct.returned v = true ∧ GFrame cs ct)
    (s0 : State) (u : Nat) (huV : u < g.V) :
    ∀ (rest done : List Nat) (c : Nat) (cs : CState), g.adj u = done ++ rest →
      LoopInv g s0 u done c cs.st → unvisitedCount g cs.st ≤ f → GInv g cs →
      cs.returned u = false →
      (∀ x, Child cs.st u x → ∃ val, (u, x, val) ∈ cs.lowReads) →
      ∃ ct c2, APLoopC g.V (APUtilC g f) u rest c cs = Except.ok (ct, c2) ∧
        APLoop (APUtil g f) u rest c cs.st = some ct.st ∧
        LoopInv g s0 u (g.adj u) c2 ct.st ∧ GInv g ct ∧ ct.returned u = false ∧
        GFrame cs ct ∧ (∀ x, Child ct.st u x → ∃ val, (u, x, val) ∈ ct.lowReads) := by
  intro rest
  induction rest with
  | nil =>
    intro done c cs hadj hL _ hG hret hfo
    rw [List.append_nil] at hadj
    exact ⟨cs, c, rfl, rfl, by rw [hadj]; exact hL, hG, hret, ⟨fun x _ => ⟨rfl, rfl⟩,
      fun x h1 h2 => by rw [h1] at h2; exact absurd h2 (by simp), fun _ he => he⟩, hfo⟩
  | cons v rest ih =>
    intro done c cs hadj hL hcnt hG hret hfo
    have hvin : v ∈ g.adj u := by rw [hadj]; simp
    have hvV : v < g.V := hr u huV v hvin
    have hadj2 : g.adj u = (done ++ [v]) ++ rest := by rw [hadj]; simp
    by_cases hvis : cs.st.visited v = false
    · have hvu : v ≠ u := by
        intro e; rw [e, hL.vis_u] at hvis; exact absurd hvis (by simp)
      have hinv := hL.inv.setParent hL.vis_u hvis hvin
      have hpv : ∀ x, (setParentC cs v u).returned x = true →
          (setParentC cs v u).st.parent v ≠ (x : Int) := by
        intro x hx
        show Function.update cs.st.parent v (u : Int) v ≠ (x : Int)
        rw [Function.update_same]
        intro e
        have : u = x := by exact_mod_cast e
        have hx2 : cs.returned x = true := hx
        rw [← this, hret] at hx2
        exact absurd hx2 (by simp)
      obtain ⟨c1, e1, e2, hG2, hretv, hfr⟩ :=
        IH v (setParentC cs v u) hvV hvis hcnt hinv (hG.g_setParent hvis) hpv
      obtain ⟨t, ht, hinvt, htv, hfin, hfrm⟩ :=
        APUtil_spec hr f v (setParent cs.st v u) hvV hvis hcnt hinv
      have e2b : APUtil g f v (setParent cs.st v u) = some c1.st := e2
      have htc : t = c1.st := by rw [ht] at e2b; exact Option.some.inj e2b
      subst htc
      have hu1 : c1.st.visited u = true := (hfrm.old u hL.vis_u).1
      have hretu : c1.returned u = false := by
        rw [(hfr.keep u hL.vis_u).1]; exact hret
      have hac := @afterChildC_ok g.V c1 u v (c + 1) huV hvV (hG2.set u hu1).2
        (hG2.set v htv).2 (hG2.set u hu1).1
      obtain ⟨a1, a2, a3, a4, a5, _⟩ := afterChild_spec u v (c + 1) c1.st hvu
      have hparv : c1.st.parent v = (u : Int) := by
        rw [hfrm.par_u]
        show Function.update cs.st.parent v (u : Int) v = (u : Int)
        rw [Function.update_same]
      have hG3 := hG2.g_low hretu (afterChild u v (c + 1) c1.st) a1 a3 a5
        (c1.lowReads ++ [(u, v, c1.st.low v)] ++
          (if c1.st.parent u ≠ NILL then
            [(u, v, Function.update c1.st.low u (min (c1.st.low u) (c1.st.low v)) v)]
           else []))
        (by
          intro e he
          rcases List.mem_append.1 he with he | he
          · rcases List.mem_append.1 he with he | he
            · exact hG2.reads e he
            · have : e = (u, v, c1.st.low v) := by simpa using he
              rw [this]; exact ⟨hretv, rfl, hparv⟩
          · by_cases hp : c1.st.parent u ≠ NILL
            · rw [if_pos hp] at he
              have : e = (u, v,
                  Function.update c1.st.low u (min (c1.st.low u) (c1.st.low v)) v) := by
                simpa using he
              rw [this]
              exact ⟨hretv, (Function.update_noteq hvu _ _).symm, hparv⟩
            · rw [if_neg hp] at he; simp at he)
        (by
          intro e he
          exact List.mem_append.2 (Or.inl (List.mem_append.2 (Or.inl he))))
      have hfo3 : ∀ x, Child (afterChild u v (c + 1) c1.st) u x →
          ∃ val, (u, x, val) ∈ c1.lowReads ++ [(u, v, c1.st.low v)] ++
            (if c1.st.parent u ≠ NILL then
              [(u, v, Function.update c1.st.low u (min (c1.st.low u) (c1.st.low v)) v)]
             else []) := by
        intro x hx
        have hx2 : c1.st.visited x = true ∧ c1.st.parent x = (u : Int) := by
          have : (afterChild u v (c + 1) c1.st).visited x = true ∧
            (afterChild u v (c + 1) c1.st).parent x = (u : Int) := hx
          rw [a1, a3] at this
          exact this
        by_cases exv : x = v
        · rw [exv]
          exact ⟨c1.st.low v, List.mem_append.2 (Or.inl (List.mem_append.2 (Or.inr (by simp))))⟩
        · cases hxs : cs.st.visited x with
          | true =>
            obtain ⟨_, _, _, b4, _⟩ := hfrm.old x hxs
            have hpx : cs.st.parent x = (u : Int) := by
              have b5 : c1.st.parent x = Function.update cs.st.parent v (u : Int) x := b4
              rw [Function.update_noteq exv] at b5
              rw [← b5]; exact hx2.2
            obtain ⟨val, hval⟩ := hfo x ⟨hxs, hpx⟩
            have hsub : (u, x, val) ∈ c1.lowReads := hfr.mono _ hval
            exact ⟨val, List.mem_append.2 (Or.inl (List.mem_append.2 (Or.inl hsub)))⟩
          | false =>
            obtain ⟨p, hp1, hp2⟩ := hfrm.new_par x hxs hx2.1 exv
            rw [hp1] at hx2
            have : p = u := by exact_mod_cast hx2.2
            rw [this] at hp2
            have hvu2 : (setParent cs.st v u).visited u = true := hL.vis_u
            rw [hvu2] at hp2
            exact absurd hp2 (by simp)
      have hcnt3 : unvisitedCount g (afterChild u v (c + 1) c1.st) ≤ f := by
        refine le_trans (unvisitedCount_le ?_) hcnt
        intro x hx
        rw [a1]; exact (hfrm.old x hx).1
      obtain ⟨ct, c2, e3, e4, hLf, hGf, hrf, hfrf, hfof⟩ :=
        ih (done ++ [v]) (c + 1) _ hadj2 (hL.child hvis hinvt htv hfin hfrm) hcnt3 hG3 hretu
          hfo3
      refine ⟨ct, c2, ?_, ?_, hLf, hGf, hrf, ?_, hfof⟩
      · rw [APLoopC, if_pos hvV, if_pos hvis, e1]
        simp only []
        rw [hac]
        exact e3
      · rw [APLoop, if_pos hvis, e2b]
        exact e4
      · refine ⟨?_, ?_, ?_⟩
        · intro x hx
          obtain ⟨b1, b2⟩ := hfr.keep x hx
          have hx3 : (afterChild u v (c + 1) c1.st).visited x = true := by
            rw [a1]; exact (hfrm.old x hx).1
          obtain ⟨d1, d2⟩ := hfrf.keep x hx3
          exact ⟨d1.trans b1, d2.trans b2⟩
        · intro x hx1 hx2
          cases hx3 : c1.st.visited x with
          | true =>
            have hx4 : (afterChild u v (c + 1) c1.st).visited x = true := by
              rw [a1]; exact hx3
            rw [(hfrf.keep x hx4).1]
            exact hfr.fresh x hx1 hx3
          | false =>
            have hx4 : (afterChild u v (c + 1) c1.st).visited x = false := by
              rw [a1]; exact hx3
            exact hfrf.fresh x hx4 hx2
        · intro e he
          apply hfrf.mono
          exact List.mem_append.2 (Or.inl (List.mem_append.2 (Or.inl (hfr.mono e he))))
    · have hvt : cs.st.visited v = true := by
        cases hh : cs.st.visited v with
        | true => rfl
        | false => exact absurd hh hvis
      by_cases hp : (v : Int) ≠ cs.st.parent u
      · have hbc := @backEdgeC_ok g.V cs u v huV hvV (hG.set u hL.vis_u).2 (hG.set v hvt).1
        have hG3 := hG.g_low hret (backEdge cs.st u v) rfl rfl
          (fun x hx => Function.update_noteq hx _ _) cs.lowReads hG.reads (fun _ he => he)
        obtain ⟨ct, c2, e3, e4, hLf, hGf, hrf, hfrf, hfof⟩ :=
          ih (done ++ [v]) c { cs with st := backEdge cs.st u v } hadj2 (hL.back hvt hp) hcnt
            hG3 hret hfo
        refine ⟨ct, c2, ?_, ?_, hLf, hGf, hrf,
          ⟨fun x hx => hfrf.keep x hx, fun x h1 h2 => hfrf.fresh x h1 h2,
            fun e he => hfrf.mono e he⟩, hfof⟩
        · rw [APLoopC, if_pos hvV, if_neg hvis, if_pos hp, hbc]
          exact e3
        · rw [APLoop, if_neg hvis, if_pos hp]
          exact e4
      · obtain ⟨ct, c2, e3, e4, hLf, hGf, hrf, hfrf, hfof⟩ :=
          ih (done ++ [v]) c cs hadj2 (hL.skip hvt (not_not.1 hp)) hcnt hG hret hfo
        refine ⟨ct, c2, ?_, ?_, hLf, hGf, hrf, hfrf, hfof⟩
        · rw [APLoopC, if_pos hvV, if_neg hvis, if_neg hp]
          exact e3
        · rw [APLoop, if_neg hvis, if_neg hp]
          exact e4

theorem APUtilC_spec {g : Graph} (hr : g.InRange) :
    ∀ (f u : Nat) (cs : CState), u < g.V → cs.st.visited u = false →
      unvisitedCount g cs.st ≤ f → Inv g cs.st u → GInv g cs →
      (∀ x, cs.returned x = true → cs.st.parent u ≠ (x : Int)) →
      ∃ ct, APUtilC g f u cs = Except.ok ct ∧ APUtil g f u cs.st = some ct.st ∧ GInv g ct ∧
        ct.returned u = true ∧ GFrame cs ct := by
  intro f
  induction f with
  | zero =>
    intro u cs huV hu hcnt _ _ _
    have := unvisitedCount_pos huV hu
    omega
  | succ f ih =>
    intro u cs huV hu hcnt hinv hG hp
    have hne : ∀ x, cs.st.visited x = true → x ≠ u := by
      intro x hx e; rw [e, hu] at hx; exact absurd hx (by simp)
    have hcnt1 : unvisitedCount g (enterC cs u).st ≤ f := by
      have := unvisitedCount_enter huV hu
      have e : (enterC cs u).st = enter cs.st u := rfl
      rw [e]; omega
    have hret : (enterC cs u).returned u = false := by
      show cs.returned u = false
      cases h : cs.returned u with
      | false => rfl
      | true => exact absurd (hG.ret_vis u h) (by rw [hu]; simp)
    have hL0 := LoopInv.init hinv hu huV
    have hfo0 : ∀ x, Child (enterC cs u).st u x →
        ∃ val, (u, x, val) ∈ (enterC cs u).lowReads := by
      intro x hx
      obtain ⟨l, _, h2, h3⟩ := hL0.kids
      have : x ∈ l := (h3 x).2 hx
      rw [List.length_eq_zero.1 h2] at this
      simp at this
    obtain ⟨ct, c2, e3, e4, hLf, hGf, _, hfrf, hfof⟩ :=
      APLoopC_spec hr f ih cs.st u huV (g.adj u) [] 0 (enterC cs u) rfl
        hL0 hcnt1 (hG.g_enter huV hu hp) hret hfo0
    have hvis1 : ∀ x, cs.st.visited x = true → (enterC cs u).st.visited x = true := by
      intro x hx
      show Function.update cs.st.visited u true x = true
      rw [Function.update_noteq (hne x hx)]; exact hx
    refine ⟨returnC ct u c2, ?_, ?_, hGf.g_return hLf.vis_u hLf.kids hfof, ?_, ?_, ?_,
      fun e he => hfrf.mono e he⟩
    · rw [APUtilC, if_pos huV, e3]
    · rw [APUtil]; exact e4
    · show Function.update ct.returned u true u = true
      rw [Function.update_same]
    · intro x hx
      obtain ⟨b1, b2⟩ := hfrf.keep x (hvis1 x hx)
      constructor
      · show Function.update ct.returned u true x = cs.returned x
        rw [Function.update_noteq (hne x hx)]; exact b1
      · show Function.update ct.kids u c2 x = cs.kids x
        rw [Function.update_noteq (hne x hx)]; exact b2
    · intro x hx1 hx2
      show Function.update ct.returned u true x = true
      by_cases e : x = u
      · rw [e, Function.update_same]
      · rw [Function.update_noteq e]
        apply hfrf.fresh x _ hx2
        show Function.update cs.st.visited u true x = false
        rw [Function.update_noteq e]; exact hx1

theorem APRootsC_spec {g : Graph} (hr : g.InRange) {f : Nat} (hf : g.V ≤ f) :
    ∀ (l : List Nat) (cs : CState), (∀ i ∈ l, i < g.V) → RootInv g cs.st → GInv g cs →
      (∀ x, cs.st.visited x = true → cs.returned x = true) →
      ∃ ct, APRootsC g f l cs = Except.ok ct ∧ APRoots g f l cs.st = some ct.st ∧
        GInv g ct ∧ (∀ x, ct.st.visited x = true → ct.returned x = true) := by
  intro l
  induction l with
  | nil => intro cs _ _ hG hret; exact ⟨cs, rfl, rfl, hG, hret⟩
  | cons i rest ih =>
    intro cs hl hR hG hret
    have hiV : i < g.V := hl i (by simp)
    have hl2 : ∀ j ∈ rest, j < g.V := fun j hj => hl j (by simp [hj])
    by_cases hi : cs.st.visited i = false
    · have hcnt := le_trans (unvisitedCount_le_V g cs.st) hf
      have hp : ∀ x, cs.returned x = true → cs.st.parent i ≠ (x : Int) := by
        intro x _
        rw [(hR.unvis i hi).2]
        exact NILL_ne_cast x
      obtain ⟨c1, e1, e2, hG1, _, hfr⟩ := APUtilC_spec hr f i cs hiV hi hcnt (hR.toInv i) hG hp
      obtain ⟨t, ht, hinv, hti, hfin, hfrm⟩ :=
        APUtil_spec hr f i cs.st hiV hi hcnt (hR.toInv i)
      have htc : t = c1.st := by rw [ht] at e2; exact Option.some.inj e2
      subst htc
      have hret1 : ∀ x, c1.st.visited x = true → c1.returned x = true := by
        intro x hx
        cases hxs : cs.st.visited x with
        | true => rw [(hfr.keep x hxs).1]; exact hret x hxs
        | false => exact hfr.fresh x hxs hx
      obtain ⟨ct, e3, e4, hGf, hretf⟩ :=
        ih c1 hl2 (hR.ofPost hi hinv hti hfin hfrm) hG1 hret1
      refine ⟨ct, ?_, ?_, hGf, hretf⟩
      · rw [APRootsC, if_pos hiV, if_pos hi, e1]
        exact e3
      · rw [APRoots, if_pos hi, ht]
        exact e4
    · obtain ⟨ct, e3, e4, hGf, hretf⟩ := ih cs hl2 hR hG hret
      refine ⟨ct, ?_, ?_, hGf, hretf⟩
      · rw [APRootsC, if_pos hiV, if_neg hi]
        exact e3
      · rw [APRoots, if_neg hi]
        exact e4

/-- On a graph with in-range adjacency entries and with `V` levels of recursion allowed, the
checked run ends without a fault, on the arrays the plain run computes, with every vertex
visited and returned from and with a record that satisfies its invariant. -/
theorem APC_spec {g : Graph} (hr : g.InRange) {f : Nat} (hf : g.V ≤ f)
    (time : Int) (disc0 low0 : Nat → Int) :
    ∃ ct, APC g f time disc0 low0 = Except.ok ct ∧ AP g f time disc0 low0 = some ct.st ∧
      RootInv g ct.st ∧ GInv g ct ∧
      (∀ x, x < g.V → ct.st.visited x = true ∧ ct.returned x = true) := by
  obtain ⟨ct, e1, e2, hG, hret⟩ :=
    APRootsC_spec hr hf (List.range g.V) (CState.init time disc0 low0)
      (fun i hi => List.mem_range.1 hi) (RootInv.initState g time disc0 low0)
      (GInv.g_init g time disc0 low0) (fun x hx => by simp [CState.init, initState] at hx)
  obtain ⟨t, h1, h2, h3⟩ := AP_spec hr hf time disc0 low0
  have e2b : AP g f time disc0 low0 = some ct.st := e2
  have htc : t = ct.st := by rw [h1] at e2b; exact Option.some.inj e2b
  subst htc
  exact ⟨ct, e1, e2b, h2, hG, fun x hx => ⟨h3 x hx, hret x (h3 x hx)⟩⟩

/-- C17: on a graph whose adjacency entries all lie in `[0, V)`, `AP()` terminates: run with
`V` levels of recursion allowed (or more) it returns, on the arrays of the plain run; the
calls of `APUtil` it made are on pairwise different vertices and are exactly the vertices
`0..V-1`, each entered once; every vertex is visited at the end; and the number of calls
active at one time never exceeded `V`. The bound is reached: on the path of three vertices
the calls nest three deep, and with two levels of recursion allowed the run does not
return. -/
theorem C17_each_vertex_entered_once :
    (∀ (g : Graph), g.InRange → ∀ (fuel : Nat), g.V ≤ fuel →
      ∀ (time : Int) (disc0 low0 : Nat → Int),
      ∃ ct, APC g fuel time disc0 low0 = Except.ok ct ∧
        AP g fuel time disc0 low0 = some ct.st ∧
        ct.entered.Nodup ∧ ct.entered.Perm (List.range g.V) ∧
        (∀ x, x < g.V → ct.entered.count x = 1) ∧
        (∀ x, g.V ≤ x → ct.entered.count x = 0) ∧
        (∀ x, x < g.V → ct.st.visited x = true) ∧
        ct.maxDepth ≤ g.V) ∧
    (APC (pathGraph 3) 3 0 (fun _ => 0) (fun _ => 0)).toOption.map
      (fun c => (c.entered, c.maxDepth)) = some ([0, 1, 2], 3) ∧
    faultOf (APC (pathGraph 3) 2 0 (fun _ => 0) (fun _ => 0)) = some Fault.outOfFuel := by
  refine ⟨?_, by decide, by decide⟩
  intro g hr fuel hf time disc0 low0
  obtain ⟨ct, e1, e2, hR, hG, hall⟩ := APC_spec hr hf time disc0 low0
  have hmem : ∀ x, x ∈ ct.entered ↔ x < g.V := by
    intro x
    rw [hG.ent_iff]
    exact ⟨hR.vis_lt x, fun hx => (hall x hx).1⟩
  refine ⟨ct, e1, e2, hG.ent_nodup, ?_, ?_, ?_, fun x hx => (hall x hx).1, hG.maxDepth⟩
  · rw [List.perm_ext_iff_of_nodup hG.ent_nodup (List.nodup_range g.V)]
    intro x
    rw [hmem, List.mem_range]
  · intro x hx
    exact List.count_eq_one_of_mem hG.ent_nodup ((hmem x).2 hx)
  · intro x hx
    apply List.count_eq_zero_of_not_mem
    rw [hmem]; omega

/-- The statement on the first graph of the driver, with five levels of recursion. -/
theorem C17_witness :
    g1.InRange ∧ g1.V ≤ 5 ∧
    ∃ ct, APC g1 5 0 (fun _ => 0) (fun _ => 0) = Except.ok ct ∧
      AP g1 5 0 (fun _ => 0) (fun _ => 0) = some ct.st ∧
      ct.entered.Nodup ∧ ct.entered.Perm (List.range g1.V) ∧
      (∀ x, x < g1.V → ct.entered.count x = 1) ∧
      (∀ x, g1.V ≤ x → ct.entered.count x = 0) ∧
      (∀ x, x < g1.V → ct.st.visited x = true) ∧
      ct.maxDepth ≤ g1.V :=
  ⟨g1_wellFormed.1, by decide,
    C17_each_vertex_entered_once.1 g1 g1_wellFormed.1 5 (by decide) 0 (fun _ => 0)
      (fun _ => 0)⟩

/-- C20: on a graph whose adjacency entries all lie in `[0, V)`, the run of `AP()` with
every access to `visited`, `disc`, `low`, `parent`, `ap` and `adj` checked against `V`, and
every read of `disc[]` and `low[]` checked against the entries assigned so far in this
run, ends without a fault, on the arrays of the unchecked run; all `disc` and `low` entries
below `V` are assigned by then, and what the run computes does not depend on what the
unassigned arrays held. The checks are not idle: on adjacency entries out of range the run
stops at the access out of bounds, and reading `disc[v]` of a vertex never entered, or
`low[v]` of one, is reported. -/
theorem C20_accesses_in_bounds_and_assigned :
    (∀ (g : Graph), g.InRange → ∀ (fuel : Nat), g.V ≤ fuel →
      ∀ (time : Int) (disc0 low0 : Nat → Int),
      ∃ ct, APC g fuel time disc0 low0 = Except.ok ct ∧
        faultOf (APC g fuel time disc0 low0) = none ∧
        AP g fuel time disc0 low0 = some ct.st ∧
        (∀ x, x < g.V → ct.discSet x = true ∧ ct.lowSet x = true) ∧
        ∀ (disc2 low2 : Nat → Int), ∃ ct2, APC g fuel time disc2 low2 = Except.ok ct2 ∧
          ∀ x, x < g.V → ct2.st.disc x = ct.st.disc x ∧ ct2.st.low x = ct.st.low x ∧
            ct2.st.ap x = ct.st.ap x ∧ ct2.st.parent x = ct.st.parent x) ∧
    faultOf (APC ⟨1, fun _ => [5]⟩ 1 0 (fun _ => 0) (fun _ => 0)) = some Fault.outOfBounds ∧
    faultOf (backEdgeC 2 (enterC (CState.init 0 (fun _ => 0) (fun _ => 0)) 0) 0 1)
      = some Fault.uninitialised ∧
    faultOf (afterChildC 2 0 1 1 (enterC (CState.init 0 (fun _ => 0) (fun _ => 0)) 0))
      = some Fault.uninitialised := by
  refine ⟨?_, by decide, by decide, by decide⟩
  intro g hr fuel hf time disc0 low0
  obtain ⟨ct, e1, e2, hR, hG, hall⟩ := APC_spec hr hf time disc0 low0
  refine ⟨ct, e1, by rw [e1]; rfl, e2, fun x hx => hG.set x (hall x hx).1, ?_⟩
  intro disc2 low2
  obtain ⟨ct2, f1, f2, _, _, hall2⟩ := APC_spec hr hf time disc2 low2
  refine ⟨ct2, f1, ?_⟩
  have key := AP_same g fuel time disc0 low0 disc2 low2
  rw [e2, f2] at key
  have hsim : Sim (fun _ => True) id ct2.st ct.st := key
  intro x hx
  obtain ⟨n1, n2⟩ := hsim.num x trivial (hall x hx).1
  refine ⟨n1, n2, hsim.ap x trivial, ?_⟩
  rcases hsim.par x trivial with ⟨a, b⟩ | ⟨p, _, a, b⟩
  · rw [a]; exact b
  · rw [a]; exact b

/-- The statement on the first graph of the driver. -/
theorem C20_witness :
    g1.InRange ∧ g1.V ≤ 5 ∧
    ∃ ct, APC g1 5 0 (fun _ => 0) (fun _ => 0) = Except.ok ct ∧
      faultOf (APC g1 5 0 (fun _ => 0) (fun _ => 0)) = none ∧
      AP g1 5 0 (fun _ => 0) (fun _ => 0) = some ct.st ∧
      (∀ x, x < g1.V → ct.discSet x = true ∧ ct.lowSet x = true) ∧
      ∀ (disc2 low2 : Nat → Int), ∃ ct2, APC g1 5 0 disc2 low2 = Except.ok ct2 ∧
        ∀ x, x < g1.V → ct2.st.disc x = ct.st.disc x ∧ ct2.st.low x = ct.st.low x ∧
          ct2.st.ap x = ct.st.ap x ∧ ct2.st.parent x = ct.st.parent x :=
  ⟨g1_wellFormed.1, by decide,
    C20_accesses_in_bounds_and_assigned.1 g1 g1_wellFormed.1 5 (by decide) 0 (fun _ => 0)
      (fun _ => 0)⟩

/-! ### The low-link value at the end of the run -/

theorem RootInv.anc_visited_of {g : Graph} {t : State} (h : RootInv g t) {u x : Nat}
    (hux : Anc t u x) (hu : t.visited u = true) : t.visited x = true := by
  rcases hux.cases_last with e | ⟨p, hp, _⟩
  · rw [← e]; exact hu
  · cases hx : t.visited x with
    | true => rfl
    | false =>
      rw [(h.unvis x hx).2] at hp
      exact absurd hp (NILL_ne_cast p)

/-- C18: on a graph whose adjacency entries all lie in `[0, V)`, after `AP()` the entry
`low[u]` of every vertex `u` is the least of `disc[u]` and the values `disc[w]` for `w`
adjacent to a vertex `x` of the DFS subtree of `u` (the `x` with `u` an ancestor of `x` or
`x` itself) with `w != parent[x]`: it is below all of them and equal to one of them. And
every value of `low[v]` that the call on a vertex `u` read after the recursive call on `v`
returned, to fold it into `low[u]` and to test it against `disc[u]`, is the value `low[v]`
has at the end of the run, `v` being a child of `u`; one such read is made for every
vertex `v` with `parent[v] == u`. -/
theorem C18_low_link_value (g : Graph) (hr : g.InRange) (fuel : Nat) (hf : g.V ≤ fuel)
    (time : Int) (disc0 low0 : Nat → Int) :
    ∃ ct, APC g fuel time disc0 low0 = Except.ok ct ∧
      AP g fuel time disc0 low0 = some ct.st ∧
      (∀ u, u < g.V →
        ct.st.low u ≤ ct.st.disc u ∧
        (∀ x w, Anc ct.st u x → w ∈ g.adj x → (w : Int) ≠ ct.st.parent x →
          ct.st.low u ≤ ct.st.disc w) ∧
        (ct.st.low u = ct.st.disc u ∨
          ∃ x w, Anc ct.st u x ∧ w ∈ g.adj x ∧ (w : Int) ≠ ct.st.parent x ∧
            ct.st.low u = ct.st.disc w)) ∧
      (∀ e ∈ ct.lowReads, ct.st.parent e.2.1 = (e.1 : Int) ∧ e.2.2 = ct.st.low e.2.1) ∧
      (∀ u v : Nat, v < g.V → ct.st.parent v = (u : Int) →
        (u, v, ct.st.low v) ∈ ct.lowReads) := by
  obtain ⟨ct, e1, e2, hR, hG, hall⟩ := APC_spec hr hf time disc0 low0
  obtain ⟨t, r, e3, _, _, hk, _⟩ := AP_rank hr hf time disc0 low0
  have et : t = ct.st := Option.some.inj (e3.symm.trans e2)
  subst et
  refine ⟨ct, e1, e2, ?_, ?_, ?_⟩
  · intro u hu
    have huv := (hall u hu).1
    refine ⟨(hR.fin u huv).low_le_disc, ?_, ?_⟩
    · intro x w hux hw hne
      have hxv := hR.anc_visited_of hux huv
      exact le_trans (hR.low_mono hux hxv) ((hR.fin x hxv).low_le_nbr w hw hne)
    · rcases lt_or_eq_of_le (hR.fin u huv).low_le_disc with hlt | heq
      · right
        obtain ⟨n, hn⟩ : ∃ n : Nat, time + g.V - r u ≤ (n : Int) :=
          ⟨(time + g.V - r u).toNat, Int.self_le_toNat _⟩
        obtain ⟨x, w, h1, _, h3, h4, h5⟩ := hR.low_witness hk n u huv hn hlt
        exact ⟨x, w, h1, h3, h4, h5.symm⟩
      · exact Or.inl heq
  · intro e he
    obtain ⟨_, b, c⟩ := hG.reads e he
    exact ⟨c, b.symm⟩
  · intro u v hv hp
    have hvv := (hall v hv).1
    obtain ⟨huv, _, _⟩ := hR.parent_vis hvv hp
    have huV := hR.vis_lt u huv
    obtain ⟨val, hval⟩ := hG.folded u (hall u huV).2 v ⟨hvv, hp⟩
    obtain ⟨_, b, _⟩ := hG.reads _ hval
    have b2 : ct.st.low v = val := b
    rw [b2]; exact hval

/-- The statement on the third graph of the driver. -/
theorem C18_witness :
    g3.InRange ∧ g3.V ≤ 7 ∧
    ∃ ct, APC g3 7 0 (fun _ => 0) (fun _ => 0) = Except.ok ct ∧
      AP g3 7 0 (fun _ => 0) (fun _ => 0) = some ct.st ∧
      (∀ u, u < g3.V →
        ct.st.low u ≤ ct.st.disc u ∧
        (∀ x w, Anc ct.st u x → w ∈ g3.adj x → (w : Int) ≠ ct.st.parent x →
          ct.st.low u ≤ ct.st.disc w) ∧
        (ct.st.low u = ct.st.disc u ∨
          ∃ x w, Anc ct.st u x ∧ w ∈ g3.adj x ∧ (w : Int) ≠ ct.st.parent x ∧
            ct.st.low u = ct.st.disc w)) ∧
      (∀ e ∈ ct.lowReads, ct.st.parent e.2.1 = (e.1 : Int) ∧ e.2.2 = ct.st.low e.2.1) ∧
      (∀ u v : Nat, v < g3.V → ct.st.parent v = (u : Int) →
        (u, v, ct.st.low v) ∈ ct.lowReads) :=
  ⟨g3_wellFormed.1, by decide,
    C18_low_link_value g3 g3_wellFormed.1 7 (by decide) 0 (fun _ => 0) (fun _ => 0)⟩

/-! ### Where the root rule is evaluated -/

theorem afterChild_decomp (u v c : Nat) (s : State) :
    afterChild u v c s = nonRootRule u v (rootRule u c (lowUpd u v s)) := rfl

theorem afterChildAlt_decomp (u v : Nat) (s : State) :
    afterChildAlt u v s = nonRootRule u v (lowUpd u v s) := rfl

theorem setAp_comm (a b : Nat) (s : State) : setAp a (setAp b s) = setAp b (setAp a s) := by
  by_cases h : a = b
  · rw [h]
  · unfold setAp
    simp only [State.mk.injEq, true_and, and_true]
    exact Function.update_comm (Ne.symm h) _ _ _

theorem setAp_idem (a : Nat) (s : State) : setAp a (setAp a s) = setAp a s := by
  unfold setAp
  simp only [State.mk.injEq, true_and, and_true]
  exact Function.update_idem _ _ _

theorem rootRule_setAp (u c x : Nat) (s : State) :
    rootRule u c (setAp x s) = setAp x (rootRule u c s) := by
  by_cases h : s.parent u = NILL ∧ c > 1
  · rw [rootRule, rootRule, if_pos h, if_pos (show (setAp x s).parent u = NILL ∧ c > 1 from h)]
    exact setAp_comm u x s
  · rw [rootRule, rootRule, if_neg h,
      if_neg (show ¬ ((setAp x s).parent u = NILL ∧ c > 1) from h)]

theorem nonRootRule_setAp (u v x : Nat) (s : State) :
    nonRootRule u v (setAp x s) = setAp x (nonRootRule u v s) := by
  by_cases h : s.parent u ≠ NILL ∧ s.low v ≥ s.disc u
  · rw [nonRootRule, nonRootRule, if_pos h,
      if_pos (show (setAp x s).parent u ≠ NILL ∧ (setAp x s).low v ≥ (setAp x s).disc u from h)]
    exact setAp_comm u x s
  · rw [nonRootRule, nonRootRule, if_neg h,
      if_neg (show ¬ ((setAp x s).parent u ≠ NILL ∧
        (setAp x s).low v ≥ (setAp x s).disc u) from h)]

theorem afterChild_setAp (u v c x : Nat) (s : State) :
    afterChild u v c (setAp x s) = setAp x (afterChild u v c s) := by
  rw [afterChild_decomp, afterChild_decomp]
  have e : lowUpd u v (setAp x s) = setAp x (lowUpd u v s) := rfl
  rw [e, rootRule_setAp, nonRootRule_setAp]

theorem rootRule_lowUpd (u v c : Nat) (s : State) :
    rootRule u c (lowUpd u v s) = lowUpd u v (rootRule u c s) := by
  by_cases h : s.parent u = NILL ∧ c > 1
  · rw [rootRule, rootRule, if_pos h, if_pos (show (lowUpd u v s).parent u = NILL ∧ c > 1 from h)]
    rfl
  · rw [rootRule, rootRule, if_neg h,
      if_neg (show ¬ ((lowUpd u v s).parent u = NILL ∧ c > 1) from h)]

theorem rootRule_succ (u c : Nat) (s : State) :
    rootRule u (c + 1) (rootRule u c s) = rootRule u (c + 1) s := by
  by_cases h : s.parent u = NILL ∧ c > 1
  · have h2 : s.parent u = NILL ∧ c + 1 > 1 := ⟨h.1, by omega⟩
    rw [rootRule, rootRule, rootRule, if_pos h,
      if_pos (show (setAp u s).parent u = NILL ∧ c + 1 > 1 from h2), if_pos h2]
    exact setAp_idem u s
  · have e : rootRule u c s = s := by rw [rootRule, if_neg h]
    rw [e]

theorem nonRootRule_rootRule (u v c : Nat) (s : State) :
    nonRootRule u v (rootRule u c s) = rootRule u c (nonRootRule u v s) := by
  by_cases h : s.parent u = NILL
  · have e1 : ∀ r : State, r.parent u = NILL → nonRootRule u v r = r := by
      intro r hr
      rw [nonRootRule, if_neg]
      intro hh; exact hh.1 hr
    rw [e1 s h]
    apply e1
    unfold rootRule
    split_ifs
    · exact h
    · exact h
  · have e1 : ∀ r : State, r.parent u ≠ NILL → rootRule u c r = r := by
      intro r hr
      rw [rootRule, if_neg]
      intro hh; exact hr hh.1
    rw [e1 s h]
    symm
    apply e1
    unfold nonRootRule
    split_ifs
    · exact h
    · exact h

/-- The statements after a recursive call, run on a state in which the root rule has been
applied with the old value of `children`, give what the root rule with the new value gives
after the statements without the root rule. -/
theorem afterChild_rootRule (u v c : Nat) (s : State) :
    afterChild u v (c + 1) (rootRule u c s) = rootRule u (c + 1) (afterChildAlt u v s) := by
  rw [afterChild_decomp, afterChildAlt_decomp, ← rootRule_lowUpd u v c s, rootRule_succ,
    nonRootRule_rootRule]

theorem rootRule_zero (u : Nat) (s : State) : rootRule u 0 s = s := by
  rw [rootRule, if_neg]
  intro h; omega

theorem rootRule_cases (u c : Nat) (s : State) :
    rootRule u c s = s ∨ rootRule u c s = setAp u s := by
  unfold rootRule
  split_ifs
  · exact Or.inr rfl
  · exact Or.inl rfl

theorem APLoop_setAp {call : Nat → State → Option State} {x : Nat}
    (hcall : ∀ v s, call v (setAp x s) = (call v s).map (setAp x)) (u : Nat) :
    ∀ (l : List Nat) (c : Nat) (s : State),
      APLoop call u l c (setAp x s) = (APLoop call u l c s).map (setAp x) := by
  intro l
  induction l with
  | nil => intro c s; rfl
  | cons v rest ih =>
    intro c s
    rw [APLoop, APLoop]
    by_cases hvis : s.visited v = false
    · rw [if_pos hvis, if_pos (show (setAp x s).visited v = false from hvis)]
      have e : setParent (setAp x s) v u = setAp x (setParent s v u) := rfl
      rw [e, hcall]
      cases hc : call v (setParent s v u) with
      | none => rfl
      | some s1 =>
        show APLoop call u rest (c + 1) (afterChild u v (c + 1) (setAp x s1)) = _
        rw [afterChild_setAp, ih]
    · rw [if_neg hvis, if_neg (show ¬ (setAp x s).visited v = false from hvis)]
      by_cases hp : (v : Int) ≠ s.parent u
      · rw [if_pos hp, if_pos (show (v : Int) ≠ (setAp x s).parent u from hp)]
        have e : backEdge (setAp x s) u v = setAp x (backEdge s u v) := rfl
        rw [e, ih]
      · rw [if_neg hp, if_neg (show ¬ (v : Int) ≠ (setAp x s).parent u from hp)]
        exact ih c s

/-- Setting an `ap[]` entry before a call of `APUtil` or after it comes to the same: the
traversal never reads `ap[]` and only ever writes `true` to it. -/
theorem APUtil_setAp (g : Graph) (x : Nat) :
    ∀ (f v : Nat) (s : State), APUtil g f v (setAp x s) = (APUtil g f v s).map (setAp x) := by
  intro f
  induction f with
  | zero => intro v s; rfl
  | succ f ih =>
    intro v s
    rw [APUtil, APUtil]
    have e : enter (setAp x s) v = setAp x (enter s v) := rfl
    rw [e]
    exact APLoop_setAp ih v (g.adj v) 0 (enter s v)

theorem Keep.keep_refl (s : State) : Keep s s := ⟨fun _ h => ⟨h, rfl⟩, fun _ h => h⟩

theorem Keep.keep_trans {s t r : State} (h1 : Keep s t) (h2 : Keep t r) : Keep s r := by
  refine ⟨?_, fun x hx => h2.ap x (h1.ap x hx)⟩
  intro x hx
  obtain ⟨a, b⟩ := h1.vis x hx
  obtain ⟨c, d⟩ := h2.vis x a
  exact ⟨c, d.trans b⟩

theorem Keep.keep_setAp (u : Nat) (s : State) : Keep s (setAp u s) := by
  refine ⟨fun _ h => ⟨h, rfl⟩, ?_⟩
  intro x hx
  show Function.update s.ap u true x = true
  by_cases e : x = u
  · rw [e, Function.update_same]
  · rw [Function.update_noteq e]; exact hx

theorem Keep.keep_afterChild (u v c : Nat) (s : State) : Keep s (afterChild u v c s) := by
  rw [afterChild_decomp]
  have k1 : Keep s (lowUpd u v s) := ⟨fun _ h => ⟨h, rfl⟩, fun _ h => h⟩
  have k2 : Keep (lowUpd u v s) (rootRule u c (lowUpd u v s)) := by
    unfold rootRule
    split_ifs
    · exact Keep.keep_setAp u _
    · exact Keep.keep_refl _
  have k3 : Keep (rootRule u c (lowUpd u v s)) (nonRootRule u v (rootRule u c (lowUpd u v s))) := by
    unfold nonRootRule
    split_ifs
    · exact Keep.keep_setAp u _
    · exact Keep.keep_refl _
  exact (k1.keep_trans k2).keep_trans k3

theorem Keep.keep_enter (u : Nat) (s : State) : Keep s (enter s u) := by
  refine ⟨?_, fun _ h => h⟩
  intro x hx
  refine ⟨?_, rfl⟩
  show Function.update s.visited u true x = true
  by_cases e : x = u
  · rw [e, Function.update_same]
  · rw [Function.update_noteq e]; exact hx

theorem Keep.keep_setParent {s : State} {v : Nat} (u : Nat) (hv : s.visited v = false) :
    Keep s (setParent s v u) := by
  refine ⟨?_, fun _ h => h⟩
  intro x hx
  refine ⟨hx, ?_⟩
  show Function.update s.parent v (u : Int) x = s.parent x
  rw [Function.update_noteq]
  intro e; rw [e, hv] at hx; exact absurd hx (by simp)

theorem APLoop_keep {call : Nat → State → Option State} {u : Nat}
    (hcall : ∀ v s t, call v s = some t → Keep s t) :
    ∀ (l : List Nat) (c : Nat) (s t : State), APLoop call u l c s = some t → Keep s t := by
  intro l
  induction l with
  | nil =>
    intro c s t h
    rw [APLoop] at h
    rw [← Option.some.inj h]
    exact Keep.keep_refl s
  | cons v rest ih =>
    intro c s t h
    rw [APLoop] at h
    by_cases hvis : s.visited v = false
    · rw [if_pos hvis] at h
      cases hc : call v (setParent s v u) with
      | none => rw [hc] at h; exact absurd h (by simp)
      | some s1 =>
        rw [hc] at h
        exact (((Keep.keep_setParent u hvis).keep_trans (hcall _ _ _ hc)).keep_trans
          (Keep.keep_afterChild u v (c + 1) s1)).keep_trans (ih _ _ _ h)
    · rw [if_neg hvis] at h
      by_cases hp : (v : Int) ≠ s.parent u
      · rw [if_pos hp] at h
        have k : Keep s (backEdge s u v) := ⟨fun _ h => ⟨h, rfl⟩, fun _ h => h⟩
        exact k.keep_trans (ih _ _ _ h)
      · rw [if_neg hp] at h
        exact ih _ _ _ h

/-- No step of `APUtil` clears `visited[]`, changes the `parent[]` entry of a visited
vertex or resets an `ap[]` entry to `false`. -/
theorem APUtil_keep (g : Graph) :
    ∀ (f u : Nat) (s t : State), APUtil g f u s = some t → Keep s t := by
  intro f
  induction f with
  | zero => intro u s t h; rw [APUtil] at h; exact absurd h (by simp)
  | succ f ih =>
    intro u s t h
    rw [APUtil] at h
    exact (Keep.keep_enter u s).keep_trans (APLoop_keep (ih) (g.adj u) 0 (enter s u) t h)

theorem rootRule_fields (u c : Nat) (s : State) :
    (rootRule u c s).visited = s.visited ∧ (rootRule u c s).parent = s.parent := by
  rcases rootRule_cases u c s with e | e <;> rw [e] <;> exact ⟨rfl, rfl⟩

theorem rootRule_congr (u c : Nat) {s t : State} (h : t.parent u = s.parent u)
    (F : State → State) (hF : ∀ x r, F (setAp x r) = setAp x (F r)) (hst : F s = t) :
    F (rootRule u c s) = rootRule u c t := by
  by_cases hc : s.parent u = NILL ∧ c > 1
  · rw [rootRule, rootRule, if_pos hc, if_pos (show t.parent u = NILL ∧ c > 1 by rw [h]; exact hc),
      hF, hst]
  · rw [rootRule, rootRule, if_neg hc,
      if_neg (show ¬ (t.parent u = NILL ∧ c > 1) by rw [h]; exact hc), hst]

theorem APUtil_rootRule (g : Graph) (f v u c : Nat) (s : State) (hu : s.visited u = true) :
    APUtil g f v (rootRule u c s) = (APUtil g f v s).map (rootRule u c) := by
  by_cases hc : s.parent u = NILL ∧ c > 1
  · rw [rootRule, if_pos hc, APUtil_setAp]
    cases he : APUtil g f v s with
    | none => rfl
    | some s1 =>
      have hk := ((APUtil_keep g f v s s1 he).vis u hu).2
      show some (setAp u s1) = some (rootRule u c s1)
      rw [rootRule, if_pos (show s1.parent u = NILL ∧ c > 1 by rw [hk]; exact hc)]
  · rw [rootRule, if_neg hc]
    cases he : APUtil g f v s with
    | none => rfl
    | some s1 =>
      have hk := ((APUtil_keep g f v s s1 he).vis u hu).2
      show some s1 = some (rootRule u c s1)
      rw [rootRule, if_neg (show ¬ (s1.parent u = NILL ∧ c > 1) by rw [hk]; exact hc)]

/-- The neighbour loop of the source, started on a state in which the root rule has been
applied with the current value of `children`, ends in the state the loop without the root
rule ends in, with the root rule applied to its final value of `children`. -/
theorem APLoopAlt_eq {g : Graph} {f : Nat}
    (IH : ∀ v s, APUtilAlt g f v s = APUtil g f v s) (u : Nat) :
    ∀ (l : List Nat) (c : Nat) (s : State), s.visited u = true →
      APLoop (APUtil g f) u l c (rootRule u c s)
        = (APLoopAlt (APUtilAlt g f) u l c s).map (fun r => rootRule u r.2 r.1) := by
  intro l
  induction l with
  | nil => intro c s _; rfl
  | cons v rest ih =>
    intro c s hu
    obtain ⟨hv1, hp1⟩ := rootRule_fields u c s
    by_cases hvis : s.visited v = false
    · have hvu : u ≠ v := by
        intro e; rw [e, hvis] at hu; exact absurd hu (by simp)
      have hpu : (setParent s v u).parent u = s.parent u := by
        show Function.update s.parent v (u : Int) u = s.parent u
        rw [Function.update_noteq hvu]
      have e1 : setParent (rootRule u c s) v u = rootRule u c (setParent s v u) :=
        @rootRule_congr u c s (setParent s v u) hpu (fun r => setParent r v u)
          (fun _ _ => rfl) rfl
      have hu2 : (setParent s v u).visited u = true := hu
      have lhs : APLoop (APUtil g f) u (v :: rest) c (rootRule u c s)
          = match (APUtil g f v (setParent s v u)).map (rootRule u c) with
            | none => none
            | some s1 => APLoop (APUtil g f) u rest (c + 1) (afterChild u v (c + 1) s1) := by
        rw [APLoop, if_pos (show (rootRule u c s).visited v = false by rw [hv1]; exact hvis),
          e1, APUtil_rootRule g f v u c _ hu2]
      have rhs : APLoopAlt (APUtilAlt g f) u (v :: rest) c s
          = match APUtil g f v (setParent s v u) with
            | none => none
            | some s1 => APLoopAlt (APUtilAlt g f) u rest (c + 1) (afterChildAlt u v s1) := by
        rw [APLoopAlt, if_pos hvis, IH]
      rw [lhs, rhs]
      cases he : APUtil g f v (setParent s v u) with
      | none => rfl
      | some s1 =>
        have hk := ((APUtil_keep g f v _ s1 he).vis u hu2).1
        show APLoop (APUtil g f) u rest (c + 1) (afterChild u v (c + 1) (rootRule u c s1)) = _
        rw [afterChild_rootRule]
        exact ih (c + 1) (afterChildAlt u v s1) (by
          rw [afterChildAlt_decomp]
          unfold nonRootRule
          split_ifs
          · exact hk
          · exact hk)
    · by_cases hp : (v : Int) ≠ s.parent u
      · have e1 : backEdge (rootRule u c s) u v = rootRule u c (backEdge s u v) :=
          @rootRule_congr u c s (backEdge s u v) rfl (fun r => backEdge r u v)
            (fun _ _ => rfl) rfl
        rw [APLoop, if_neg (show ¬ (rootRule u c s).visited v = false by rw [hv1]; exact hvis),
          if_pos (show (v : Int) ≠ (rootRule u c s).parent u by rw [hp1]; exact hp), e1,
          APLoopAlt, if_neg hvis, if_pos hp]
        exact ih c (backEdge s u v) hu
      · rw [APLoop, if_neg (show ¬ (rootRule u c s).visited v = false by rw [hv1]; exact hvis),
          if_neg (show ¬ (v : Int) ≠ (rootRule u c s).parent u by rw [hp1]; exact hp),
          APLoopAlt, if_neg hvis, if_neg hp]
        exact ih c s hu

theorem APUtilAlt_eq (g : Graph) : ∀ (f u : Nat) (s : State),
    APUtilAlt g f u s = APUtil g f u s := by
  intro f
  induction f with
  | zero => intro u s; rfl
  | succ f ih =>
    intro u s
    have key := APLoopAlt_eq ih u (g.adj u) 0 (enter s u) (by simp [enter])
    rw [rootRule_zero] at key
    rw [APUtil, key, APUtilAlt]
    cases APLoopAlt (APUtilAlt g f) u (g.adj u) 0 (enter s u) with
    | none => rfl
    | some r => rfl

theorem APRootsAlt_eq (g : Graph) (f : Nat) : ∀ (l : List Nat) (s : State),
    APRootsAlt g f l s = APRoots g f l s := by
  intro l
  induction l with
  | nil => intro s; rfl
  | cons i rest ih =>
    intro s
    rw [APRootsAlt, APRoots, APUtilAlt_eq]
    by_cases hi : s.visited i = false
    · rw [if_pos hi, if_pos hi]
      cases APUtil g f i s with
      | none => rfl
      | some s1 => exact ih s1
    · rw [if_neg hi, if_neg hi]
      exact ih s

theorem APAlt_eq (g : Graph) (f : Nat) (time : Int) (disc0 low0 : Nat → Int) :
    APAlt g f time disc0 low0 = AP g f time disc0 low0 :=
  APRootsAlt_eq g f (List.range g.V) (initState time disc0 low0)

theorem two_le_length_iff {l : List Nat} (hnd : l.Nodup) :
    2 ≤ l.length ↔ ∃ a b, a ≠ b ∧ a ∈ l ∧ b ∈ l := by
  constructor
  · intro h2
    match l, hnd, h2 with
    | [], _, h2 => simp at h2
    | [_], _, h2 => simp at h2
    | a :: b :: _, hnd, _ =>
      refine ⟨a, b, ?_, by simp, by simp⟩
      intro e
      rw [e] at hnd
      simp at hnd
  · rintro ⟨a, b, hne, ha, hb⟩
    match l, ha, hb with
    | [], ha, _ => simp at ha
    | [x], ha, hb =>
      simp at ha hb
      exact absurd (ha.trans hb.symm) hne
    | _ :: _ :: _, _, _ => simp

/-- C19: on a graph whose adjacency entries all lie in `[0, V)`, after `AP()` the value the
counter `children` had when the call on `u` returned is the number of vertices `v` with
`parent[v] == u`, and `ap[u]` is set iff either `parent[u]` is `NILL` and at least two
vertices `v` have `parent[v] == u`, or `parent[u]` is not `NILL` and some `v` with
`parent[v] == u` has `low[v] >= disc[u]` at the end. Evaluating the root rule once after the
neighbour loop, on the final value of `children`, gives the same arrays as the source gives
with the rule inside the loop, for every call of `APUtil` and for `AP()`, on any graph and
any state; and no call of `APUtil` resets an `ap[]` entry that is set. -/
theorem C19_flag_characterisation :
    (∀ (g : Graph), g.InRange → ∀ (fuel : Nat), g.V ≤ fuel →
      ∀ (time : Int) (disc0 low0 : Nat → Int),
      ∃ ct, APC g fuel time disc0 low0 = Except.ok ct ∧
        AP g fuel time disc0 low0 = some ct.st ∧
        ∀ u, u < g.V →
          ct.kids u
            = ((List.range g.V).filter (fun v => decide (ct.st.parent v = (u : Int)))).length ∧
          (ct.st.ap u = true ↔
            (ct.st.parent u = NILL ∧ 2 ≤ ((List.range g.V).filter
              (fun v => decide (ct.st.parent v = (u : Int)))).length) ∨
            (ct.st.parent u ≠ NILL ∧
              ∃ v, v < g.V ∧ ct.st.parent v = (u : Int) ∧ ct.st.low v ≥ ct.st.disc u))) ∧
    (∀ (g : Graph) (fuel : Nat) (time : Int) (disc0 low0 : Nat → Int),
      APAlt g fuel time disc0 low0 = AP g fuel time disc0 low0) ∧
    (∀ (g : Graph) (fuel u : Nat) (s : State), APUtilAlt g fuel u s = APUtil g fuel u s) ∧
    (∀ (g : Graph) (fuel u : Nat) (s t : State), APUtil g fuel u s = some t →
      ∀ x, s.ap x = true → t.ap x = true) := by
  refine ⟨?_, APAlt_eq, APUtilAlt_eq, fun g fuel u s t h => (APUtil_keep g fuel u s t h).ap⟩
  intro g hr fuel hf time disc0 low0
  obtain ⟨ct, e1, e2, hR, hG, hall⟩ := APC_spec hr hf time disc0 low0
  refine ⟨ct, e1, e2, ?_⟩
  intro u hu
  have hchild : ∀ c, Child ct.st u c ↔
      c ∈ (List.range g.V).filter (fun v => decide (ct.st.parent v = (u : Int))) := by
    intro c
    rw [List.mem_filter, List.mem_range, decide_eq_true_iff]
    constructor
    · rintro ⟨a, b⟩; exact ⟨hR.vis_lt c a, b⟩
    · rintro ⟨a, b⟩; exact ⟨(hall c a).1, b⟩
  have hnd : ((List.range g.V).filter
      (fun v => decide (ct.st.parent v = (u : Int)))).Nodup :=
    (List.nodup_range g.V).filter _
  obtain ⟨l, h1, h2, h3⟩ := hG.kids u (hall u hu).2
  have hperm : l.Perm ((List.range g.V).filter
      (fun v => decide (ct.st.parent v = (u : Int)))) := by
    rw [List.perm_ext_iff_of_nodup h1 hnd]
    intro c
    rw [h3 c, hchild c]
  refine ⟨by rw [← h2]; exact hperm.length_eq, ?_⟩
  rw [(hR.fin u (hall u hu).1).ap_iff, two_le_length_iff hnd]
  constructor
  · rintro (⟨h0, c1, c2, hne, hc1, hc2⟩ | ⟨h0, c, hc, hle⟩)
    · exact Or.inl ⟨h0, c1, c2, hne, (hchild c1).1 hc1, (hchild c2).1 hc2⟩
    · exact Or.inr ⟨h0, c, hR.vis_lt c hc.1, hc.2, hle⟩
  · rintro (⟨h0, c1, c2, hne, hc1, hc2⟩ | ⟨h0, c, hcV, hc, hle⟩)
    · exact Or.inl ⟨h0, c1, c2, hne, (hchild c1).2 hc1, (hchild c2).2 hc2⟩
    · exact Or.inr ⟨h0, c, ⟨(hall c hcV).1, hc⟩, hle⟩

/-- The statement on the first graph of the driver. -/
theorem C19_witness :
    g1.InRange ∧ g1.V ≤ 5 ∧
    ∃ ct, APC g1 5 0 (fun _ => 0) (fun _ => 0) = Except.ok ct ∧
      AP g1 5 0 (fun _ => 0) (fun _ => 0) = some ct.st ∧
      ∀ u, u < g1.V →
        ct.kids u
          = ((List.range g1.V).filter (fun v => decide (ct.st.parent v = (u : Int)))).length ∧
        (ct.st.ap u = true ↔
          (ct.st.parent u = NILL ∧ 2 ≤ ((List.range g1.V).filter
            (fun v => decide (ct.st.parent v = (u : Int)))).length) ∨
          (ct.st.parent u ≠ NILL ∧
            ∃ v, v < g1.V ∧ ct.st.parent v = (u : Int) ∧ ct.st.low v ≥ ct.st.disc u)) :=
  ⟨g1_wellFormed.1, by decide,
    C19_flag_characterisation.1 g1 g1_wellFormed.1 5 (by decide) 0 (fun _ => 0)
      (fun _ => 0)⟩

end ArticulationPoints
